import Mathlib

/-!
# FEA::Mesh — uniform 1D finite-element mesh on the unit interval

Shallow embedding of `src/Mesh.cc` / `src/Mesh.hh`.

Modelling conventions.

* A C++ `double` is an IEEE 754 binary64 value, `Double`: a finite value (a rational
  number), an infinity or NaN.  Every arithmetic operation computes the exact result
  and rounds it once to the nearest binary64 value, ties to even (`round64`), with
  gradual underflow and overflow to infinity.  The two zeros are identified: they
  compare equal, and the only division by zero in the program, `1./n` at `n = 0`,
  divides by the positive zero.
* A C++ `int` is a 32-bit two's-complement integer, carried in `Int`.  The results
  of `+`, `-` and unary `-` on `int` are wrapped into the range (`wrapInt`); the
  conversion `int → double` is exact, and the conversion `double → int` of a value
  outside the range is the one of the x86-64 instruction set, `INT_MIN`.
* A method writing its result through a reference parameter returns that result.
* `assert(...)` and indexing a `std::vector` outside its bounds are contract
  violations: a method returns `Except Violation _`, and the error names the
  check that failed first.
-/

namespace FEA

/-! ## Machine integers -/

/-- Largest value of `int`. -/
def INT_MAX : Int := 2147483647

/-- Smallest value of `int`. -/
def INT_MIN : Int := -2147483648

/-- Result of an `int` operation whose mathematical value is `z`: reduction modulo
`2^32` into `[INT_MIN, INT_MAX]`. -/
def wrapInt (z : Int) : Int := (z + 2147483648) % 4294967296 - 2147483648

/-! ## Binary64 arithmetic -/

/-- Values of a C++ `double`. -/
inductive Double where
  /-- A finite value. -/
  | fin (q : ℚ)
  /-- An infinity; `negative = true` is `-inf`. -/
  | inf (negative : Bool)
  /-- Not a number. -/
  | nan
  deriving DecidableEq

/-- The power `2 ^ k` for an integer exponent. -/
def pow2 (k : Int) : ℚ :=
  if 0 ≤ k then ((2 ^ k.toNat : Nat) : ℚ) else 1 / ((2 ^ (-k).toNat : Nat) : ℚ)

/-- Worker of `floorLog2`, recursive on the fuel. -/
def floorLog2Aux : Nat → Nat → Nat
  | 0, _ => 0
  | fuel + 1, n => if 2 ≤ n then floorLog2Aux fuel (n / 2) + 1 else 0

/-- Position of the leading bit: `2 ^ floorLog2 n ≤ n < 2 ^ (floorLog2 n + 1)` for
`n ≥ 1`. -/
def floorLog2 (n : Nat) : Nat := floorLog2Aux n n

/-- Binary exponent of a rational: `2 ^ binade q ≤ |q| < 2 ^ (binade q + 1)` for
`q ≠ 0`. -/
def binade (q : ℚ) : Int :=
  if pow2 ((floorLog2 q.num.natAbs : Int) - (floorLog2 q.den : Int)) ≤ |q| then
    (floorLog2 q.num.natAbs : Int) - (floorLog2 q.den : Int)
  else
    (floorLog2 q.num.natAbs : Int) - (floorLog2 q.den : Int) - 1

/-- Spacing of the binary64 values around `q`: 53 significant bits, and the fixed
spacing `2 ^ (-1074)` below the smallest normal value `2 ^ (-1022)`. -/
def quantum (q : ℚ) : ℚ := pow2 (max (binade q) (-1022) - 52)

/-- Nearest integer, ties to the even one. -/
def roundHalfEven (r : ℚ) : Int :=
  if r - (⌊r⌋ : ℚ) < 1 / 2 then ⌊r⌋
  else if 1 / 2 < r - (⌊r⌋ : ℚ) then ⌊r⌋ + 1
  else if ⌊r⌋ % 2 = 0 then ⌊r⌋ else ⌊r⌋ + 1

/-- Rounding of an exact result to binary64, round-to-nearest-even; a rounded value
of magnitude `2 ^ 1024` or more is an infinity. -/
def round64 (q : ℚ) : Double :=
  if pow2 1024 ≤ |(roundHalfEven (q / quantum q) : ℚ) * quantum q| then
    .inf (decide (q < 0))
  else
    .fin ((roundHalfEven (q / quantum q) : ℚ) * quantum q)

/-- A rational is a binary64 value when rounding leaves it unchanged. -/
def isDouble (q : ℚ) : Prop := round64 q = .fin q

instance (q : ℚ) : Decidable (isDouble q) :=
  inferInstanceAs (Decidable (round64 q = .fin q))

namespace Double

/-- Conversion `int → double`, exact on the range of `int`. -/
def ofInt (z : Int) : Double := .fin (z : ℚ)

/-- Unary minus. -/
def neg : Double → Double
  | .fin a => .fin (-a)
  | .inf s => .inf (!s)
  | .nan => .nan

/-- Addition `a + b`. -/
def add : Double → Double → Double
  | .fin a, .fin b => round64 (a + b)
  | .fin _, .inf s => .inf s
  | .inf s, .fin _ => .inf s
  | .inf s, .inf t => if s = t then .inf s else .nan
  | _, _ => .nan

/-- Subtraction `a - b`. -/
def sub (a b : Double) : Double := a.add b.neg

/-- Multiplication `a * b`. -/
def mul : Double → Double → Double
  | .fin a, .fin b => round64 (a * b)
  | .fin a, .inf s => if a = 0 then .nan else .inf (xor s (decide (a < 0)))
  | .inf s, .fin b => if b = 0 then .nan else .inf (xor s (decide (b < 0)))
  | .inf s, .inf t => .inf (xor s t)
  | _, _ => .nan

/-- Division `a / b`. -/
def div : Double → Double → Double
  | .fin a, .fin b =>
    if b = 0 then (if a = 0 then .nan else .inf (decide (a < 0))) else round64 (a / b)
  | .fin _, .inf _ => .fin 0
  | .inf s, .fin b => .inf (xor s (decide (b < 0)))
  | _, _ => .nan

/-- The library function `std::floor`. -/
def floor : Double → Double
  | .fin a => .fin (⌊a⌋ : ℚ)
  | d => d

/-- Conversion `double → int`: truncation toward zero, and `INT_MIN` for a value
that does not fit. -/
def toInt : Double → Int
  | .fin a =>
    if INT_MIN ≤ (if 0 ≤ a then ⌊a⌋ else ⌈a⌉) ∧ (if 0 ≤ a then ⌊a⌋ else ⌈a⌉) ≤ INT_MAX then
      (if 0 ≤ a then ⌊a⌋ else ⌈a⌉)
    else INT_MIN
  | _ => INT_MIN

/-- Comparison `a == b`. -/
def eq : Double → Double → Bool
  | .fin a, .fin b => decide (a = b)
  | .inf s, .inf t => s == t
  | _, _ => false

/-- Comparison `a <= b`. -/
def le : Double → Double → Bool
  | .fin a, .fin b => decide (a ≤ b)
  | .fin _, .inf s => !s
  | .inf s, .fin _ => s
  | .inf s, .inf t => s || !t
  | _, _ => false

end Double

/-! ## The mesh -/

/-- The checks that can fail in `Mesh.cc`, one constructor per `assert` plus one
for indexing a `std::vector` outside its bounds. -/
inductive Violation where
  /-- Failure of `assert( node_id < totalNumNodes() )` in `nodeCoordinate`. -/
  | nodeIdRange
  /-- Failure of `assert( element_id < d_num_elements )` in `elementCoordinates`. -/
  | elementIdRange
  /-- Failure of `assert( 0 <= element_id )` in `locateX`. -/
  | locateLower
  /-- Failure of `assert( element_id < d_num_elements )` in `locateX`. -/
  | locateUpper
  /-- Failure of the entry assertion of `mapGlobalToLocalFrame`. -/
  | frameEntry
  /-- Failure of the exit assertion `-1.0 <= ref_coord && ref_coord <= 1.0` of
  `mapGlobalToLocalFrame`. -/
  | frameExit
  /-- Indexing `elements[...]` or `d[...]` outside the vector. -/
  | indexRange
  deriving DecidableEq, Repr

deriving instance DecidableEq for Except

/-- Modelled from the spec: `Element.hh` is not among the sources.  The record holds
the element's cardinal index `id`, its endpoint coordinates `n1`, `n2`, the global
node indices `ind1`, `ind2` of the endpoints and the 2×2 local stiffness matrix `k`
(addressed as `k[i][j]` in `Mesh.cc`). -/
structure Element where
  id : Int
  n1 : Double
  n2 : Double
  ind1 : Int
  ind2 : Int
  k : Fin 2 → Fin 2 → Double

/-- The private data members of `class Mesh`. -/
structure Mesh where
  d_num_nodes : Int
  d_num_elements : Int
  d_element_width : Double
  d_boundary_nodes : List Int

/-- Constructor `Mesh::Mesh( const int n )`: the member initialisers
`d_num_nodes( n+1 )`, `d_num_elements( n )`, `d_element_width( 1./n )`, then
`d_boundary_nodes` is resized to one entry holding `d_num_nodes`. -/
def Mesh.new (n : Int) : Mesh :=
  { d_num_nodes := wrapInt (n + 1)
    d_num_elements := n
    d_element_width := Double.div (.fin 1) (Double.ofInt n)
    d_boundary_nodes := [wrapInt (n + 1)] }

/-- Method `Mesh::totalNumElements`. -/
def Mesh.totalNumElements (m : Mesh) : Int := m.d_num_elements

/-- Method `Mesh::totalNumNodes`. -/
def Mesh.totalNumNodes (m : Mesh) : Int := m.d_num_nodes

/-- Method `Mesh::getElementWidth`. -/
def Mesh.getElementWidth (m : Mesh) : Double := m.d_element_width

/-- Method `Mesh::nodeCoordinate`: asserts `node_id < totalNumNodes()` (no lower bound is
asserted) and yields `node_id * d_element_width`. -/
def Mesh.nodeCoordinate (m : Mesh) (node_id : Int) : Except Violation Double :=
  if node_id < m.totalNumNodes then
    .ok (Double.mul (Double.ofInt node_id) m.d_element_width)
  else
    .error .nodeIdRange

/-- Method `Mesh::elementCoordinates`: asserts `element_id < d_num_elements`, then reads the
coordinates of nodes `element_id` and `element_id+1`. -/
def Mesh.elementCoordinates (m : Mesh) (element_id : Int) :
    Except Violation (Double × Double) :=
  if element_id < m.d_num_elements then do
    let n1 ← m.nodeCoordinate element_id
    let n2 ← m.nodeCoordinate (wrapInt (element_id + 1))
    pure (n1, n2)
  else
    .error .elementIdRange

/-- Method `Mesh::initializeElement`: ids, endpoints, node indices and the local matrix `k`
with `h = n2 - n1` and `val = (n2 == 1.) ? 0. : 1.`. -/
def Mesh.initializeElement (m : Mesh) (element_id : Int) : Except Violation Element := do
  let coords ← m.elementCoordinates element_id
  let n1 := coords.1
  let n2 := coords.2
  let h : Double := Double.sub n2 n1
  let val : Double := if Double.eq n2 (.fin 1) then .fin 0 else .fin 1
  pure
    { id := element_id
      n1 := n1
      n2 := n2
      ind1 := element_id
      ind2 := wrapInt (element_id + 1)
      k := ![![Double.div (.fin 1) h, Double.div (Double.neg val) h],
             ![Double.div (Double.neg val) h, Double.div val h]] }

/-- Method `Mesh::locateX`: `floor( x / d_element_width )` converted to `int`, replaced
by `d_num_elements - 1` when `x == 1.`, then the two range assertions. -/
def Mesh.locateX (m : Mesh) (x : Double) : Except Violation Int :=
  let element_id : Int := Double.toInt (Double.floor (Double.div x m.d_element_width))
  let element_id : Int :=
    if Double.eq x (.fin 1) then wrapInt (m.d_num_elements - 1) else element_id
  if 0 ≤ element_id then
    if element_id < m.d_num_elements then .ok element_id else .error .locateUpper
  else
    .error .locateLower

/-- Method `Mesh::mapGlobalToLocalFrame`: the entry assertion
`element_id == floor( x / d_element_width ) || element_id == d_num_elements-1`,
the affine map `( x / d_element_width - element_id ) * 2. - 1.`, and the exit
assertion `-1 <= ref_coord <= 1`. -/
def Mesh.mapGlobalToLocalFrame (m : Mesh) (x : Double) (element_id : Int) :
    Except Violation Double :=
  if Double.eq (Double.ofInt element_id) (Double.floor (Double.div x m.d_element_width))
      ∨ element_id = wrapInt (m.d_num_elements - 1) then
    let ref_coord : Double :=
      Double.sub
        (Double.mul (Double.sub (Double.div x m.d_element_width) (Double.ofInt element_id))
          (.fin 2))
        (.fin 1)
    if Double.le (.fin (-1)) ref_coord ∧ Double.le ref_coord (.fin 1) then .ok ref_coord
    else .error .frameExit
  else
    .error .frameEntry

/-- Method `Mesh::shapeFunctionValues`: `(1 - ref_coord)/2` and `(1 + ref_coord)/2`. -/
def Mesh.shapeFunctionValues (_m : Mesh) (ref_coord : Double) : Double × Double :=
  (Double.div (Double.sub (.fin 1) ref_coord) (.fin 2),
    Double.div (Double.add (.fin 1) ref_coord) (.fin 2))

/-- Method `Mesh::shapeFunctionDerivatives`: `-d_num_elements` and `d_num_elements`,
converted to `double`, whatever `ref_coord` is. -/
def Mesh.shapeFunctionDerivatives (m : Mesh) (_ref_coord : Double) : Double × Double :=
  (Double.ofInt (wrapInt (-m.d_num_elements)), Double.ofInt m.d_num_elements)

/-- Access `operator[]` of a `std::vector` at an `int` index; an index outside
`[0, size)` is a contract violation. -/
def vectorAt {α : Type} (v : List α) (i : Int) : Except Violation α :=
  if 0 ≤ i then
    match v[i.toNat]? with
    | some a => .ok a
    | none => .error .indexRange
  else
    .error .indexRange

/-- Method `Mesh::approxValue`: locate `x`, map it to the reference frame, evaluate the
shape functions and combine the two nodal values of the located element. -/
def Mesh.approxValue (m : Mesh) (x : Double) (d : List Double) (elements : List Element) :
    Except Violation Double := do
  let element_id ← m.locateX x
  let ref_coord ← m.mapGlobalToLocalFrame x element_id
  let values := m.shapeFunctionValues ref_coord
  let e ← vectorAt elements element_id
  let d1 ← vectorAt d e.ind1
  let d2 ← vectorAt d e.ind2
  pure (Double.add (Double.mul d1 values.1) (Double.mul d2 values.2))

/-- Method `Mesh::mapLocalToGlobalFrame`:
`( ( 1. - ref_coord ) * n1 + ( 1. + ref_coord ) * n2 ) / 2.`. -/
def Mesh.mapLocalToGlobalFrame (_m : Mesh) (ref_coord n1 n2 : Double) : Double :=
  Double.div
    (Double.add (Double.mul (Double.sub (.fin 1) ref_coord) n1)
      (Double.mul (Double.add (.fin 1) ref_coord) n2))
    (.fin 2)

/-! ## Powers of two and the binary exponent -/

theorem pow2_eq (k : Int) : pow2 k = (2 : ℚ) ^ k := by
  unfold pow2
  split_ifs with h
  · have hk : ((k.toNat : Nat) : Int) = k := Int.toNat_of_nonneg h
    calc ((2 ^ k.toNat : Nat) : ℚ) = (2 : ℚ) ^ ((k.toNat : Nat) : Int) := by
          rw [zpow_natCast]; push_cast; rfl
      _ = (2 : ℚ) ^ k := by rw [hk]
  · have hk : (((-k).toNat : Nat) : Int) = -k := Int.toNat_of_nonneg (by omega)
    have h2 : ((2 ^ (-k).toNat : Nat) : ℚ) = (2 : ℚ) ^ (-k) := by
      calc ((2 ^ (-k).toNat : Nat) : ℚ) = (2 : ℚ) ^ (((-k).toNat : Nat) : Int) := by
            rw [zpow_natCast]; push_cast; rfl
        _ = (2 : ℚ) ^ (-k) := by rw [hk]
    rw [h2, zpow_neg, one_div, inv_inv]

theorem pow2_pos (k : Int) : 0 < pow2 k := by
  rw [pow2_eq]
  positivity

theorem pow2_add (a b : Int) : pow2 (a + b) = pow2 a * pow2 b := by
  simp only [pow2_eq]
  exact zpow_add₀ (by norm_num) a b

theorem pow2_le_pow2 {a b : Int} (h : a ≤ b) : pow2 a ≤ pow2 b := by
  simp only [pow2_eq]
  exact zpow_le_zpow_right₀ (by norm_num) h

theorem pow2_lt_pow2 {a b : Int} (h : a < b) : pow2 a < pow2 b := by
  simp only [pow2_eq]
  exact zpow_lt_zpow_right₀ (by norm_num) h

theorem pow2_lt_pow2_iff {a b : Int} : pow2 a < pow2 b ↔ a < b := by
  simp only [pow2_eq]
  exact zpow_lt_zpow_iff_right₀ (by norm_num)

theorem pow2_natCast (k : Nat) : pow2 (k : Int) = (2 : ℚ) ^ k := by
  rw [pow2_eq, zpow_natCast]

theorem pow2_succ (k : Int) : pow2 (k + 1) = 2 * pow2 k := by
  rw [pow2_add]
  have : pow2 1 = 2 := by decide!
  rw [this, mul_comm]

theorem pow2_pred (k : Int) : pow2 (k - 1) = pow2 k / 2 := by
  have h := pow2_succ (k - 1)
  rw [sub_add_cancel] at h
  rw [h]
  ring

theorem floorLog2Aux_spec (fuel n : Nat) (h : n ≤ fuel) (hn : 1 ≤ n) :
    2 ^ floorLog2Aux fuel n ≤ n ∧ n < 2 ^ (floorLog2Aux fuel n + 1) := by
  induction fuel generalizing n with
  | zero => omega
  | succ fuel ih =>
    unfold floorLog2Aux
    split_ifs with h2
    · have hdiv : n / 2 ≤ fuel := by omega
      have hdiv1 : 1 ≤ n / 2 := by omega
      obtain ⟨ih1, ih2⟩ := ih (n / 2) hdiv hdiv1
      constructor
      · rw [pow_succ]
        omega
      · rw [pow_succ]
        omega
    · simp
      omega

theorem floorLog2_spec (n : Nat) (hn : 1 ≤ n) :
    2 ^ floorLog2 n ≤ n ∧ n < 2 ^ (floorLog2 n + 1) :=
  floorLog2Aux_spec n n (le_refl n) hn

theorem binade_spec (q : ℚ) (hq : q ≠ 0) :
    pow2 (binade q) ≤ |q| ∧ |q| < pow2 (binade q + 1) := by
  have ha1 : 1 ≤ q.num.natAbs := by
    have : q.num ≠ 0 := Rat.num_ne_zero.mpr hq
    omega
  have hb1 : 1 ≤ q.den := q.den_pos
  obtain ⟨ha_lo, ha_hi⟩ := floorLog2_spec q.num.natAbs ha1
  obtain ⟨hb_lo, hb_hi⟩ := floorLog2_spec q.den hb1
  have habs : |q| = (q.num.natAbs : ℚ) / (q.den : ℚ) := by
    rw [Rat.abs_def, Rat.divInt_eq_div]
    simp only [Int.cast_natCast]
  have hbpos : (0 : ℚ) < (q.den : ℚ) := by exact_mod_cast q.den_pos
  set la := floorLog2 q.num.natAbs with hla
  set lb := floorLog2 q.den with hlb
  have hA_lo : (2 : ℚ) ^ la ≤ (q.num.natAbs : ℚ) := by exact_mod_cast ha_lo
  have hA_hi : (q.num.natAbs : ℚ) < (2 : ℚ) ^ (la + 1) := by exact_mod_cast ha_hi
  have hB_lo : (2 : ℚ) ^ lb ≤ (q.den : ℚ) := by exact_mod_cast hb_lo
  have hB_hi : (q.den : ℚ) < (2 : ℚ) ^ (lb + 1) := by exact_mod_cast hb_hi
  -- bounds on |q| in terms of k = la - lb
  have hk_hi : |q| < pow2 ((la : Int) - (lb : Int) + 1) := by
    have e1 : pow2 ((la : Int) - (lb : Int) + 1) = (2 : ℚ) ^ (la + 1) / (2 : ℚ) ^ lb := by
      rw [pow2_eq, show (la : Int) - (lb : Int) + 1 = ((la + 1 : Nat) : Int) - ((lb : Nat) : Int) by
        push_cast; ring, zpow_sub₀ (by norm_num), zpow_natCast, zpow_natCast]
    rw [e1, habs, div_lt_div_iff₀ hbpos (by positivity)]
    calc (q.num.natAbs : ℚ) * (2 : ℚ) ^ lb < (2 : ℚ) ^ (la + 1) * (2 : ℚ) ^ lb := by
          apply mul_lt_mul_of_pos_right hA_hi (by positivity)
      _ ≤ (2 : ℚ) ^ (la + 1) * (q.den : ℚ) := by
          apply mul_le_mul_of_nonneg_left hB_lo (by positivity)
  have hk_lo : pow2 ((la : Int) - (lb : Int) - 1) ≤ |q| := by
    have e1 : pow2 ((la : Int) - (lb : Int) - 1) = (2 : ℚ) ^ la / (2 : ℚ) ^ (lb + 1) := by
      rw [pow2_eq, show (la : Int) - (lb : Int) - 1 = ((la : Nat) : Int) - ((lb + 1 : Nat) : Int) by
        push_cast; ring, zpow_sub₀ (by norm_num), zpow_natCast, zpow_natCast]
    rw [e1, habs, div_le_div_iff₀ (by positivity) hbpos]
    calc (2 : ℚ) ^ la * (q.den : ℚ) ≤ (q.num.natAbs : ℚ) * (q.den : ℚ) := by
          apply mul_le_mul_of_nonneg_right hA_lo hbpos.le
      _ ≤ (q.num.natAbs : ℚ) * (2 : ℚ) ^ (lb + 1) := by
          apply mul_le_mul_of_nonneg_left hB_hi.le (by positivity)
  unfold binade
  rw [← hla, ← hlb]
  split_ifs with hc
  · exact ⟨hc, hk_hi⟩
  · refine ⟨hk_lo, ?_⟩
    rw [sub_add_cancel]
    exact not_le.mp hc

theorem binade_unique (q : ℚ) (e : Int) (h1 : pow2 e ≤ |q|) (h2 : |q| < pow2 (e + 1)) :
    binade q = e := by
  have hq : q ≠ 0 := by
    intro h
    rw [h, abs_zero] at h1
    exact absurd (pow2_pos e) (not_lt.mpr h1)
  obtain ⟨s1, s2⟩ := binade_spec q hq
  have a1 : binade q < e + 1 := pow2_lt_pow2_iff.mp (lt_of_le_of_lt s1 h2)
  have a2 : e < binade q + 1 := pow2_lt_pow2_iff.mp (lt_of_le_of_lt h1 s2)
  omega

/-! ## Rounding -/

theorem roundHalfEven_sub_abs (r : ℚ) : |(roundHalfEven r : ℚ) - r| ≤ 1 / 2 := by
  have h0 := Int.floor_le r
  have h1 := Int.lt_floor_add_one r
  unfold roundHalfEven
  split_ifs with a b c
  · rw [abs_le]; constructor <;> linarith
  · push_cast; rw [abs_le]; constructor <;> linarith
  · have ht : r - (⌊r⌋ : ℚ) = 1 / 2 := le_antisymm (not_lt.mp b) (not_lt.mp a)
    rw [abs_le]; constructor <;> linarith
  · have ht : r - (⌊r⌋ : ℚ) = 1 / 2 := le_antisymm (not_lt.mp b) (not_lt.mp a)
    push_cast; rw [abs_le]; constructor <;> linarith

theorem roundHalfEven_intCast (m : Int) : roundHalfEven (m : ℚ) = m := by
  unfold roundHalfEven
  rw [Int.floor_intCast]
  simp

theorem round64_zero : round64 0 = .fin 0 := by decide!

theorem quantum_pos (q : ℚ) : 0 < quantum q := pow2_pos _

theorem quantum_le (q : ℚ) (e : Int) (he : -1022 ≤ e) (hq0 : q ≠ 0) (hq : |q| < pow2 (e + 1)) :
    quantum q ≤ pow2 (e - 52) := by
  obtain ⟨s1, -⟩ := binade_spec q hq0
  have hb : binade q < e + 1 := pow2_lt_pow2_iff.mp (lt_of_le_of_lt s1 hq)
  unfold quantum
  apply pow2_le_pow2
  have : max (binade q) (-1022) ≤ e := max_le (by omega) he
  omega

theorem round64_err (q : ℚ) :
    |(roundHalfEven (q / quantum q) : ℚ) * quantum q - q| ≤ quantum q / 2 := by
  have hQ := quantum_pos q
  have h := roundHalfEven_sub_abs (q / quantum q)
  have e1 : (roundHalfEven (q / quantum q) : ℚ) * quantum q - q
      = ((roundHalfEven (q / quantum q) : ℚ) - q / quantum q) * quantum q := by
    field_simp
  rw [e1, abs_mul, abs_of_pos hQ]
  calc |(roundHalfEven (q / quantum q) : ℚ) - q / quantum q| * quantum q
      ≤ 1 / 2 * quantum q := mul_le_mul_of_nonneg_right h hQ.le
    _ = quantum q / 2 := by ring

theorem round64_of_lt (q : ℚ)
    (h : |(roundHalfEven (q / quantum q) : ℚ) * quantum q| < pow2 1024) :
    round64 q = .fin ((roundHalfEven (q / quantum q) : ℚ) * quantum q) := by
  unfold round64
  rw [if_neg (not_le.mpr h)]

theorem round64_of_int_mul (q : ℚ) (M : Int) (h : q = (M : ℚ) * quantum q)
    (hov : |q| < pow2 1024) : round64 q = .fin q := by
  have hQ := quantum_pos q
  have hdiv : q / quantum q = (M : ℚ) := by
    rw [div_eq_iff hQ.ne']
    exact h
  have hr : (roundHalfEven (q / quantum q) : ℚ) * quantum q = q := by
    rw [hdiv, roundHalfEven_intCast]
    exact h.symm
  have h2 := round64_of_lt q (by rw [hr]; exact hov)
  rw [h2, hr]

theorem round64_spec (q : ℚ) (e : Int) (he : -1022 ≤ e) (he2 : e ≤ 1022)
    (hq : |q| < pow2 (e + 1)) :
    ∃ r : ℚ, round64 q = .fin r ∧ |r - q| ≤ pow2 (e - 53) := by
  by_cases h0 : q = 0
  · subst h0
    refine ⟨0, round64_zero, ?_⟩
    simp only [sub_zero, abs_zero]
    exact (pow2_pos _).le
  have hQ := quantum_le q e he h0 hq
  have herr := round64_err q
  have hhalf : pow2 (e - 53) = pow2 (e - 52) / 2 := by
    have := pow2_pred (e - 52)
    rw [show e - 52 - 1 = e - 53 by ring] at this
    exact this
  have herr2 : |(roundHalfEven (q / quantum q) : ℚ) * quantum q - q| ≤ pow2 (e - 53) := by
    rw [hhalf]
    linarith
  have hbig1 : pow2 (e + 1) ≤ pow2 1023 := pow2_le_pow2 (by omega)
  have hbig2 : pow2 (e - 53) ≤ pow2 1023 := pow2_le_pow2 (by omega)
  have h1024 : pow2 1024 = 2 * pow2 1023 := pow2_succ 1023
  have hr : |(roundHalfEven (q / quantum q) : ℚ) * quantum q| < pow2 1024 := by
    have t : |(roundHalfEven (q / quantum q) : ℚ) * quantum q|
        ≤ |q| + |(roundHalfEven (q / quantum q) : ℚ) * quantum q - q| := by
      have := abs_add q ((roundHalfEven (q / quantum q) : ℚ) * quantum q - q)
      rw [add_sub_cancel] at this
      exact this
    linarith
  exact ⟨_, round64_of_lt q hr, herr2⟩

theorem round64_rel (q : ℚ) (h1 : pow2 (-1022) ≤ |q|) (h2 : |q| < pow2 1023) :
    ∃ r : ℚ, round64 q = .fin r ∧ |r - q| ≤ pow2 (-53) * |q| := by
  have hq : q ≠ 0 := by
    intro h
    rw [h, abs_zero] at h1
    exact absurd (pow2_pos _) (not_lt.mpr h1)
  obtain ⟨s1, s2⟩ := binade_spec q hq
  have a1 : (-1022 : Int) < binade q + 1 := pow2_lt_pow2_iff.mp (lt_of_le_of_lt h1 s2)
  have a2 : binade q < 1023 := pow2_lt_pow2_iff.mp (lt_of_le_of_lt s1 h2)
  obtain ⟨r, hr, herr⟩ := round64_spec q (binade q) (by omega) (by omega) s2
  refine ⟨r, hr, herr.trans ?_⟩
  have : pow2 (binade q - 53) = pow2 (-53) * pow2 (binade q) := by
    rw [← pow2_add]
    congr 1
    ring
  rw [this]
  exact mul_le_mul_of_nonneg_left s1 (pow2_pos _).le

theorem round64_abs (q : ℚ) (h2 : |q| < pow2 1023) :
    ∃ r : ℚ, round64 q = .fin r ∧ |r - q| ≤ pow2 (-53) * |q| + pow2 (-1075) := by
  by_cases h1 : pow2 (-1022) ≤ |q|
  · obtain ⟨r, hr, herr⟩ := round64_rel q h1 h2
    exact ⟨r, hr, by linarith [pow2_pos (-1075)]⟩
  · have hlt : |q| < pow2 (-1022 + 1) :=
      lt_trans (not_le.mp h1) (pow2_lt_pow2 (by norm_num))
    obtain ⟨r, hr, herr⟩ := round64_spec q (-1022) (le_refl _) (by norm_num) hlt
    refine ⟨r, hr, ?_⟩
    have hnn : 0 ≤ pow2 (-53) * |q| := mul_nonneg (pow2_pos _).le (abs_nonneg _)
    have e : pow2 (-1022 - 53) = pow2 (-1075) := by norm_num
    rw [e] at herr
    linarith

theorem isDouble_grid (q : ℚ) (h : isDouble q) : ∃ M : Int, q = (M : ℚ) * quantum q := by
  unfold isDouble round64 at h
  split_ifs at h with hc
  exact ⟨roundHalfEven (q / quantum q), (Double.fin.inj h).symm⟩

theorem round64_of_grid (q : ℚ) (N j : Int) (hq : q = (N : ℚ) * pow2 j) (hN : |N| ≤ 2 ^ 53)
    (hj : -1074 ≤ j) (hov : |q| < pow2 1024) : round64 q = .fin q := by
  by_cases h0 : q = 0
  · rw [h0]; exact round64_zero
  obtain ⟨s1, s2⟩ := binade_spec q h0
  have hNq : |(N : ℚ)| ≤ 2 ^ 53 := by
    have : ((|N| : Int) : ℚ) ≤ ((2 ^ 53 : Int) : ℚ) := by exact_mod_cast hN
    rw [Int.cast_abs] at this
    push_cast at this
    exact this
  have habs : |q| = |(N : ℚ)| * pow2 j := by
    rw [hq, abs_mul, abs_of_pos (pow2_pos j)]
  have h53 : pow2 (j + 53) = 2 ^ 53 * pow2 j := by
    rw [add_comm, pow2_add]
    congr 1
  have hle : |q| ≤ pow2 (j + 53) := by
    rw [habs, h53]
    exact mul_le_mul_of_nonneg_right hNq (pow2_pos j).le
  have he : binade q ≤ j + 53 := by
    have : binade q < j + 53 + 1 := pow2_lt_pow2_iff.mp (lt_of_le_of_lt s1 (lt_of_le_of_lt hle (pow2_lt_pow2 (by omega))))
    omega
  by_cases hA : binade q ≤ j + 52
  · -- the spacing at q divides 2 ^ j
    have hqe : max (binade q) (-1022) - 52 ≤ j := by
      have : max (binade q) (-1022) ≤ j + 52 := max_le hA (by omega)
      omega
    obtain ⟨d, hd⟩ : ∃ d : Nat, j = max (binade q) (-1022) - 52 + (d : Int) :=
      ⟨(j - (max (binade q) (-1022) - 52)).toNat, by
        rw [Int.toNat_of_nonneg (by omega)]; ring⟩
    have hpj : pow2 j = (2 : ℚ) ^ d * quantum q := by
      unfold quantum
      rw [hd, pow2_add, pow2_natCast, mul_comm]
    apply round64_of_int_mul q (N * 2 ^ d) _ hov
    push_cast
    rw [mul_assoc, ← hpj]
    exact hq
  · have hB : binade q = j + 53 := by omega
    have hge : pow2 (j + 53) ≤ |q| := by rw [← hB]; exact s1
    have hNabs : |(N : ℚ)| = 2 ^ 53 := by
      apply le_antisymm hNq
      have : 2 ^ 53 * pow2 j ≤ |(N : ℚ)| * pow2 j := by rw [← h53, ← habs]; exact hge
      exact le_of_mul_le_mul_right this (pow2_pos j)
    have hQ : quantum q = 2 * pow2 j := by
      unfold quantum
      rw [hB, max_eq_left (by omega), show j + 53 - 52 = j + 1 by ring, pow2_succ]
    rcases abs_choice (N : ℚ) with hpos | hneg
    · have hNv : (N : ℚ) = 2 ^ 53 := by rw [← hpos]; exact hNabs
      apply round64_of_int_mul q (2 ^ 52) _ hov
      rw [hQ, hq, hNv]
      push_cast
      ring
    · have hNv : (N : ℚ) = -(2 ^ 53) := by
        have : -(N : ℚ) = 2 ^ 53 := by rw [← hneg]; exact hNabs
        linarith
      apply round64_of_int_mul q (-(2 ^ 52)) _ hov
      rw [hQ, hq, hNv]
      push_cast
      ring

/-! ## Auxiliary lemmas on a mesh built by the constructor -/

theorem wrapInt_of_range (z : Int) (h1 : INT_MIN ≤ z) (h2 : z ≤ INT_MAX) : wrapInt z = z := by
  unfold INT_MIN at h1
  unfold INT_MAX at h2
  unfold wrapInt
  omega

theorem pow2_neg53 : pow2 (-53) = 1 / 2 ^ 53 := by decide!

theorem pow2_small_le : pow2 (-1022) ≤ 1 / 2 ^ 33 := by
  have h : pow2 (-33) = 1 / 2 ^ 33 := by decide!
  rw [← h]
  exact pow2_le_pow2 (by norm_num)

theorem pow2_big_ge : (2 : ℚ) ^ 33 < pow2 1023 := by
  have h : pow2 33 = 2 ^ 33 := by decide!
  rw [← h]
  exact pow2_lt_pow2 (by norm_num)

/-- Rounding of a value of moderate size: the relative error is at most `2 ^ (-53)`. -/
theorem round64_moderate (q : ℚ) (h1 : 1 / 2 ^ 33 ≤ |q|) (h2 : |q| ≤ 2 ^ 33) :
    ∃ r : ℚ, round64 q = .fin r ∧ |r - q| ≤ |q| / 2 ^ 53 := by
  obtain ⟨r, hr, herr⟩ :=
    round64_rel q (le_trans pow2_small_le h1) (lt_of_le_of_lt h2 pow2_big_ge)
  refine ⟨r, hr, ?_⟩
  rw [pow2_neg53] at herr
  linarith

theorem cast_bounds (n : Int) (hn : 1 ≤ n) (hmax : n ≤ INT_MAX) :
    (1 : ℚ) ≤ (n : ℚ) ∧ (n : ℚ) ≤ 2 ^ 31 := by
  unfold INT_MAX at hmax
  constructor
  · exact_mod_cast hn
  · have : n ≤ 2 ^ 31 := by omega
    exact_mod_cast this

/-- The element width `1./n` of a mesh with `1 ≤ n`: a positive finite value within
relative error `2 ^ (-53)` of `1 / n`. -/
theorem width_spec (n : Int) (hn : 1 ≤ n) (hmax : n ≤ INT_MAX) :
    ∃ w : ℚ, (Mesh.new n).d_element_width = .fin w
      ∧ |w - 1 / (n : ℚ)| ≤ 1 / (n : ℚ) / 2 ^ 53
      ∧ (1 - 1 / 2 ^ 53) ≤ (n : ℚ) * w ∧ (n : ℚ) * w ≤ 1 + 1 / 2 ^ 53 ∧ 0 < w := by
  obtain ⟨hn1, hn2⟩ := cast_bounds n hn hmax
  have hnpos : (0 : ℚ) < (n : ℚ) := by linarith
  have hinv_pos : (0 : ℚ) < 1 / (n : ℚ) := by positivity
  have hinv_le : 1 / (n : ℚ) ≤ 1 := by
    rw [div_le_one hnpos]; exact hn1
  have hinv_ge : 1 / 2 ^ 31 ≤ 1 / (n : ℚ) := by
    apply one_div_le_one_div_of_le hnpos hn2
  have habs : |1 / (n : ℚ)| = 1 / (n : ℚ) := abs_of_pos hinv_pos
  obtain ⟨w, hw, herr⟩ := round64_moderate (1 / (n : ℚ))
    (by rw [habs]; exact le_trans (by norm_num) hinv_ge)
    (by rw [habs]; exact le_trans hinv_le (by norm_num))
  rw [habs] at herr
  have hne : (n : ℚ) ≠ 0 := hnpos.ne'
  have hdef : (Mesh.new n).d_element_width = round64 (1 / (n : ℚ)) := by
    show Double.div (.fin 1) (Double.ofInt n) = _
    unfold Double.ofInt Double.div
    simp only [if_neg hne]
  obtain ⟨e1, e2⟩ := abs_le.mp herr
  have k1 : (n : ℚ) * (1 / (n : ℚ)) = 1 := by field_simp
  have k2 : (n : ℚ) * (1 / (n : ℚ) / 2 ^ 53) = 1 / 2 ^ 53 := by field_simp
  have m1 : (n : ℚ) * (w - 1 / (n : ℚ)) ≤ (n : ℚ) * (1 / (n : ℚ) / 2 ^ 53) :=
    mul_le_mul_of_nonneg_left e2 hnpos.le
  have m2 : (n : ℚ) * (-(1 / (n : ℚ) / 2 ^ 53)) ≤ (n : ℚ) * (w - 1 / (n : ℚ)) :=
    mul_le_mul_of_nonneg_left e1 hnpos.le
  have hlo : (1 - 1 / 2 ^ 53) ≤ (n : ℚ) * w := by
    have : (n : ℚ) * (w - 1 / (n : ℚ)) = (n : ℚ) * w - 1 := by rw [mul_sub, k1]
    rw [this] at m2
    rw [mul_neg, k2] at m2
    linarith
  have hhi : (n : ℚ) * w ≤ 1 + 1 / 2 ^ 53 := by
    have : (n : ℚ) * (w - 1 / (n : ℚ)) = (n : ℚ) * w - 1 := by rw [mul_sub, k1]
    rw [this, k2] at m1
    linarith
  refine ⟨w, by rw [hdef, hw], herr, hlo, hhi, ?_⟩
  by_contra hneg
  have : (n : ℚ) * w ≤ 0 := mul_nonpos_of_nonneg_of_nonpos hnpos.le (not_lt.mp hneg)
  have : (0 : ℚ) < 1 - 1 / 2 ^ 53 := by norm_num
  linarith

/-- The product `i * w` of a node id `0 ≤ i ≤ n` and the width of the mesh: a finite
value within relative error `2 ^ (-53)` of the exact product. -/
theorem node_product (n : Int) (hn : 1 ≤ n) (hmax : n ≤ INT_MAX) (w : ℚ)
    (hlo : (1 - 1 / 2 ^ 53) ≤ (n : ℚ) * w) (hhi : (n : ℚ) * w ≤ 1 + 1 / 2 ^ 53)
    (i : Int) (hi0 : 0 ≤ i) (hi : i ≤ n) :
    ∃ c : ℚ, Double.mul (Double.ofInt i) (.fin w) = .fin c
      ∧ |c - (i : ℚ) * w| ≤ (i : ℚ) * w / 2 ^ 53 := by
  obtain ⟨hn1, hn2⟩ := cast_bounds n hn hmax
  have hnpos : (0 : ℚ) < (n : ℚ) := by linarith
  have hwpos : 0 < w := by
    by_contra hneg
    have : (n : ℚ) * w ≤ 0 := mul_nonpos_of_nonneg_of_nonpos hnpos.le (not_lt.mp hneg)
    have : (0 : ℚ) < 1 - 1 / 2 ^ 53 := by norm_num
    linarith
  have hmul : Double.mul (Double.ofInt i) (.fin w) = round64 ((i : ℚ) * w) := rfl
  rw [hmul]
  rcases eq_or_lt_of_le hi0 with h0 | hpos
  · subst h0
    refine ⟨0, ?_, ?_⟩
    · rw [Int.cast_zero, zero_mul]
      exact round64_zero
    · simp
  · have hi1 : (1 : ℚ) ≤ (i : ℚ) := by exact_mod_cast (by omega : 1 ≤ i)
    have hin : (i : ℚ) ≤ (n : ℚ) := by exact_mod_cast hi
    have hq_hi : (i : ℚ) * w ≤ 1 + 1 / 2 ^ 53 :=
      le_trans (mul_le_mul_of_nonneg_right hin hwpos.le) hhi
    have hw_lo : 1 / 2 ^ 32 ≤ w := by
      have h1 : (1 - 1 / 2 ^ 53) ≤ 2 ^ 31 * w :=
        le_trans hlo (mul_le_mul_of_nonneg_right hn2 hwpos.le)
      have h2 : (1 : ℚ) / 2 ≤ 1 - 1 / 2 ^ 53 := by norm_num
      have h3 : (2 : ℚ) ^ 31 * (1 / 2 ^ 32) = 1 / 2 := by norm_num
      by_contra hc
      have h4 : (2 : ℚ) ^ 31 * w < 2 ^ 31 * (1 / 2 ^ 32) :=
        mul_lt_mul_of_pos_left (not_le.mp hc) (by positivity)
      linarith
    have hq_lo : 1 / 2 ^ 32 ≤ (i : ℚ) * w := by
      have : w ≤ (i : ℚ) * w := by
        have := mul_le_mul_of_nonneg_right hi1 hwpos.le
        linarith
      linarith
    have hqpos : 0 < (i : ℚ) * w := by positivity
    have habs : |(i : ℚ) * w| = (i : ℚ) * w := abs_of_pos hqpos
    obtain ⟨c, hc, herr⟩ := round64_moderate ((i : ℚ) * w)
      (by rw [habs]; exact le_trans (by norm_num) hq_lo)
      (by rw [habs]; exact le_trans hq_hi (by norm_num))
    rw [habs] at herr
    exact ⟨c, hc, herr⟩

theorem width_lower (n : Int) (hn : 1 ≤ n) (hmax : n ≤ INT_MAX) (w : ℚ)
    (hlo : (1 - 1 / 2 ^ 53) ≤ (n : ℚ) * w) (hwpos : 0 < w) : 1 / 2 ^ 32 ≤ w := by
  obtain ⟨-, hn2⟩ := cast_bounds n hn hmax
  have h1 : (1 - 1 / 2 ^ 53) ≤ 2 ^ 31 * w :=
    le_trans hlo (mul_le_mul_of_nonneg_right hn2 hwpos.le)
  have h2 : (1 : ℚ) / 2 ≤ 1 - 1 / 2 ^ 53 := by norm_num
  have h3 : (2 : ℚ) ^ 31 * (1 / 2 ^ 32) = 1 / 2 := by norm_num
  by_contra hc
  have h4 : (2 : ℚ) ^ 31 * w < 2 ^ 31 * (1 / 2 ^ 32) :=
    mul_lt_mul_of_pos_left (not_le.mp hc) (by positivity)
  linarith

theorem nodeCoordinate_new (n i : Int) (hmin : INT_MIN ≤ n + 1) (hmax : n < INT_MAX)
    (h : i ≤ n) :
    (Mesh.new n).nodeCoordinate i
      = .ok (Double.mul (Double.ofInt i) (Mesh.new n).d_element_width) := by
  have hw : wrapInt (n + 1) = n + 1 := wrapInt_of_range _ hmin (by omega)
  have h1 : i < (Mesh.new n).totalNumNodes := by
    show i < wrapInt (n + 1)
    omega
  unfold Mesh.nodeCoordinate
  rw [if_pos h1]

theorem elementCoordinates_new (n e : Int) (hmin : INT_MIN ≤ n + 1) (hmax : n < INT_MAX)
    (he : INT_MIN ≤ e + 1) (h : e < n) :
    (Mesh.new n).elementCoordinates e
      = .ok (Double.mul (Double.ofInt e) (Mesh.new n).d_element_width,
          Double.mul (Double.ofInt (e + 1)) (Mesh.new n).d_element_width) := by
  have hw : wrapInt (e + 1) = e + 1 := wrapInt_of_range _ he (by omega)
  have h3 : e < (Mesh.new n).d_num_elements := h
  unfold Mesh.elementCoordinates
  rw [if_pos h3, hw, nodeCoordinate_new n e hmin hmax (by omega),
    nodeCoordinate_new n (e + 1) hmin hmax (by omega)]
  rfl

theorem node_tolerance (n : ℚ) (hn : 0 < n) (i w c : ℚ) (hi : 0 ≤ i)
    (hw : |w - 1 / n| ≤ 1 / n / 2 ^ 53) (hc : |c - i * w| ≤ i * w / 2 ^ 53) :
    |c - i / n| ≤ i / n / 2 ^ 51 := by
  have ht : 0 ≤ i / n := div_nonneg hi hn.le
  have h1 : |i * w - i / n| ≤ i / n / 2 ^ 53 := by
    have e1 : i * w - i / n = i * (w - 1 / n) := by ring
    rw [e1, abs_mul, abs_of_nonneg hi]
    calc i * |w - 1 / n| ≤ i * (1 / n / 2 ^ 53) := mul_le_mul_of_nonneg_left hw hi
      _ = i / n / 2 ^ 53 := by ring
  have h2 : i * w ≤ i / n + i / n / 2 ^ 53 := by
    have := (abs_le.mp h1).2
    linarith
  have h3 : |c - i / n| ≤ |c - i * w| + |i * w - i / n| := abs_sub_le c (i * w) (i / n)
  have h4 : i * w / 2 ^ 53 ≤ (i / n + i / n / 2 ^ 53) / 2 ^ 53 :=
    div_le_div_of_nonneg_right h2 (by positivity)
  have h5 : (i / n + i / n / 2 ^ 53) / 2 ^ 53 + i / n / 2 ^ 53 ≤ i / n / 2 ^ 51 := by
    have e : (i / n + i / n / 2 ^ 53) / 2 ^ 53 + i / n / 2 ^ 53
        = i / n * ((1 + 1 / 2 ^ 53) / 2 ^ 53 + 1 / 2 ^ 53) := by ring
    have e2 : i / n / 2 ^ 51 = i / n * (1 / 2 ^ 51) := by ring
    rw [e, e2]
    exact mul_le_mul_of_nonneg_left (by norm_num) ht
  linarith

theorem diff_tolerance (n w c1 c2 e : ℚ) (_he : 0 ≤ e) (hen : e + 1 ≤ n) (hw : 0 < w)
    (hhi : n * w ≤ 1 + 1 / 2 ^ 53) (h1 : |c1 - e * w| ≤ e * w / 2 ^ 53)
    (h2 : |c2 - (e + 1) * w| ≤ (e + 1) * w / 2 ^ 53) :
    |(c2 - c1) - w| ≤ 1 / 2 ^ 51 := by
  have e1 : (c2 - c1) - w = (c2 - (e + 1) * w) - (c1 - e * w) := by ring
  have h3 : |(c2 - c1) - w| ≤ |c2 - (e + 1) * w| + |c1 - e * w| := by
    rw [e1]
    exact abs_sub _ _
  have h4 : (e + 1) * w ≤ n * w := mul_le_mul_of_nonneg_right hen hw.le
  have h5 : e * w ≤ n * w := mul_le_mul_of_nonneg_right (by linarith) hw.le
  have h6 : (e + 1) * w / 2 ^ 53 ≤ (1 + 1 / 2 ^ 53) / 2 ^ 53 :=
    div_le_div_of_nonneg_right (le_trans h4 hhi) (by positivity)
  have h7 : e * w / 2 ^ 53 ≤ (1 + 1 / 2 ^ 53) / 2 ^ 53 :=
    div_le_div_of_nonneg_right (le_trans h5 hhi) (by positivity)
  have h8 : (1 + 1 / 2 ^ 53) / 2 ^ 53 + (1 + 1 / 2 ^ 53) / 2 ^ 53 ≤ (1 : ℚ) / 2 ^ 51 := by
    norm_num
  linarith

/-- The coordinates of element `e` of a mesh with `1 ≤ n < INT_MAX`: the two double
products, each within relative error `2 ^ (-53)` of the exact product with the width. -/
theorem element_coords_core (n : Int) (hn : 1 ≤ n) (hmax : n < INT_MAX)
    (e : Int) (h0 : 0 ≤ e) (h1 : e < n) :
    ∃ c1 c2 w : ℚ, (Mesh.new n).elementCoordinates e = .ok (.fin c1, .fin c2)
      ∧ (Mesh.new n).d_element_width = .fin w
      ∧ |w - 1 / (n : ℚ)| ≤ 1 / (n : ℚ) / 2 ^ 53
      ∧ (1 - 1 / 2 ^ 53) ≤ (n : ℚ) * w ∧ (n : ℚ) * w ≤ 1 + 1 / 2 ^ 53 ∧ 0 < w
      ∧ |c1 - (e : ℚ) * w| ≤ (e : ℚ) * w / 2 ^ 53
      ∧ |c2 - ((e : ℚ) + 1) * w| ≤ ((e : ℚ) + 1) * w / 2 ^ 53 := by
  have hmin : INT_MIN ≤ n + 1 := by unfold INT_MIN; omega
  have hemin : INT_MIN ≤ e + 1 := by unfold INT_MIN; omega
  obtain ⟨w, hw, hwerr, hlo, hhi, hwpos⟩ := width_spec n hn hmax.le
  obtain ⟨c1, hc1, herr1⟩ := node_product n hn hmax.le w hlo hhi e h0 (by omega)
  obtain ⟨c2, hc2, herr2⟩ := node_product n hn hmax.le w hlo hhi (e + 1) (by omega) (by omega)
  push_cast at herr2
  refine ⟨c1, c2, w, ?_, hw, hwerr, hlo, hhi, hwpos, herr1, herr2⟩
  rw [elementCoordinates_new n e hmin hmax hemin h1, hw, hc1, hc2]

/-! ## The binary64 grid -/

theorem round64_explicit (q : ℚ) (e : Int) (he : -1022 ≤ e) (he2 : e ≤ 1022) (hq0 : q ≠ 0)
    (hq : |q| < pow2 (e + 1)) :
    round64 q = .fin ((roundHalfEven (q / quantum q) : ℚ) * quantum q)
      ∧ |(roundHalfEven (q / quantum q) : ℚ) * quantum q - q| ≤ pow2 (e - 53) := by
  have hQ := quantum_le q e he hq0 hq
  have herr := round64_err q
  have hhalf : pow2 (e - 53) = pow2 (e - 52) / 2 := by
    have := pow2_pred (e - 52)
    rw [show e - 52 - 1 = e - 53 by ring] at this
    exact this
  have herr2 : |(roundHalfEven (q / quantum q) : ℚ) * quantum q - q| ≤ pow2 (e - 53) := by
    rw [hhalf]
    linarith
  have hbig1 : pow2 (e + 1) ≤ pow2 1023 := pow2_le_pow2 (by omega)
  have hbig2 : pow2 (e - 53) ≤ pow2 1023 := pow2_le_pow2 (by omega)
  have h1024 : pow2 1024 = 2 * pow2 1023 := pow2_succ 1023
  have hr : |(roundHalfEven (q / quantum q) : ℚ) * quantum q| < pow2 1024 := by
    have t : |(roundHalfEven (q / quantum q) : ℚ) * quantum q|
        ≤ |q| + |(roundHalfEven (q / quantum q) : ℚ) * quantum q - q| := by
      have := abs_add q ((roundHalfEven (q / quantum q) : ℚ) * quantum q - q)
      rw [add_sub_cancel] at this
      exact this
    linarith
  exact ⟨round64_of_lt q hr, herr2⟩

/-- Rounding inside one binade `[2^e, 2^(e+1)]`: the result is a multiple of
`2^(e-52)` at distance at most `2^(e-53)`. -/
theorem round64_grid (q : ℚ) (e : Int) (he : -1022 ≤ e) (he2 : e ≤ 1022)
    (h1 : pow2 e ≤ |q|) (h2 : |q| ≤ pow2 (e + 1)) :
    ∃ M : Int, round64 q = .fin ((M : ℚ) * pow2 (e - 52))
      ∧ |(M : ℚ) * pow2 (e - 52) - q| ≤ pow2 (e - 53) := by
  have hq0 : q ≠ 0 := by
    intro h
    rw [h, abs_zero] at h1
    exact absurd (pow2_pos e) (not_lt.mpr h1)
  rcases lt_or_eq_of_le h2 with hlt | heq
  · have hb : binade q = e := binade_unique q e h1 hlt
    have hQ : quantum q = pow2 (e - 52) := by
      unfold quantum
      rw [hb, max_eq_left he]
    obtain ⟨hr, herr⟩ := round64_explicit q e he he2 hq0 hlt
    rw [hQ] at hr herr
    exact ⟨_, hr, herr⟩
  · have h53 : pow2 (e + 1) = 2 ^ 53 * pow2 (e - 52) := by
      have : e + 1 = 53 + (e - 52) := by ring
      rw [this, pow2_add]
      congr 1
    have hov : |q| < pow2 1024 := by
      rw [heq]; exact pow2_lt_pow2 (by omega)
    rcases abs_choice q with hpos | hneg
    · have hq : q = ((2 ^ 53 : Int) : ℚ) * pow2 (e - 52) := by
        have : q = pow2 (e + 1) := by rw [← hpos]; exact heq
        rw [this, h53]
        push_cast
        rfl
      refine ⟨2 ^ 53, ?_, ?_⟩
      · rw [← hq]
        exact round64_of_grid q (2 ^ 53) (e - 52) hq (by norm_num) (by omega) hov
      · rw [← hq, sub_self, abs_zero]
        exact (pow2_pos _).le
    · have hq : q = ((-(2 ^ 53) : Int) : ℚ) * pow2 (e - 52) := by
        have : q = -pow2 (e + 1) := by
          rw [hneg] at heq
          linarith
        rw [this, h53]
        push_cast
        ring
      refine ⟨-(2 ^ 53), ?_, ?_⟩
      · rw [← hq]
        exact round64_of_grid q (-(2 ^ 53)) (e - 52) hq (by norm_num) (by omega) hov
      · rw [← hq, sub_self, abs_zero]
        exact (pow2_pos _).le

theorem floorLog2_natAbs_neg (q : ℚ) : (-q).num.natAbs = q.num.natAbs := by
  rw [Rat.num_neg_eq_neg_num, Int.natAbs_neg]

theorem binade_neg (q : ℚ) : binade (-q) = binade q := by
  unfold binade
  rw [floorLog2_natAbs_neg, Rat.den_neg_eq_den, abs_neg]

theorem quantum_neg (q : ℚ) : quantum (-q) = quantum q := by
  unfold quantum
  rw [binade_neg]

theorem isDouble_abs_lt (q : ℚ) (h : isDouble q) : |q| < pow2 1024 := by
  unfold isDouble round64 at h
  split_ifs at h with hc
  have := Double.fin.inj h
  rw [this] at hc
  exact not_le.mp hc

theorem isDouble_neg (q : ℚ) (h : isDouble q) : isDouble (-q) := by
  obtain ⟨M, hM⟩ := isDouble_grid q h
  have hov := isDouble_abs_lt q h
  apply round64_of_int_mul (-q) (-M)
  · rw [quantum_neg]
    push_cast
    rw [neg_mul, ← hM]
  · rw [abs_neg]; exact hov

theorem pow2_neg52 : pow2 (-52) = 1 / 2 ^ 52 := by decide!

theorem pow2_neg54 : pow2 (-54) = 1 / 2 ^ 54 := by decide!

theorem pow2_neg1 : pow2 (-1) = 1 / 2 := by decide!

theorem pow2_zero : pow2 0 = 1 := by decide!

theorem pow2_one : pow2 1 = 2 := by decide!

theorem pow2_1024_gt : (4 : ℚ) < pow2 1024 := by
  have h : pow2 2 = 4 := by decide!
  rw [← h]
  exact pow2_lt_pow2 (by norm_num)

/-- Rounding of `1 - s` for a binary64 value `s` of `[0, 1]`: a multiple of `2^(-53)`
at distance at most `2^(-54)`. -/
theorem one_sub_round (s : ℚ) (hs : isDouble s) (h0 : 0 ≤ s) (h1 : s ≤ 1) :
    ∃ a : Int, round64 (1 - s) = .fin ((a : ℚ) / 2 ^ 53)
      ∧ |(a : ℚ) / 2 ^ 53 - (1 - s)| ≤ 1 / 2 ^ 54 := by
  rcases lt_or_le s (1 / 2) with hlt | hge
  · have hq1 : pow2 (-1) ≤ |1 - s| := by
      rw [pow2_neg1, abs_of_pos (by linarith)]; linarith
    have hq2 : |1 - s| ≤ pow2 (-1 + 1) := by
      rw [show (-1 : Int) + 1 = 0 by norm_num, pow2_zero, abs_of_pos (by linarith)]; linarith
    obtain ⟨M, hM, herr⟩ := round64_grid (1 - s) (-1) (by norm_num) (by norm_num) hq1 hq2
    rw [show (-1 : Int) - 52 = -53 by norm_num, pow2_neg53] at hM herr
    rw [show (-1 : Int) - 53 = -54 by norm_num, pow2_neg54] at herr
    have e : (M : ℚ) * (1 / 2 ^ 53) = (M : ℚ) / 2 ^ 53 := by ring
    rw [e] at hM herr
    exact ⟨M, hM, herr⟩
  · rcases eq_or_lt_of_le h1 with heq | hlt1
    · refine ⟨0, ?_, ?_⟩
      · rw [heq]
        norm_num
        exact round64_zero
      · rw [heq]; norm_num
    · have hb : binade s = -1 := by
        apply binade_unique
        · rw [pow2_neg1, abs_of_nonneg h0]; exact hge
        · rw [show (-1 : Int) + 1 = 0 by norm_num, pow2_zero, abs_of_nonneg h0]; exact hlt1
      have hQ : quantum s = 1 / 2 ^ 53 := by
        unfold quantum
        rw [hb, max_eq_left (by norm_num), show (-1 : Int) - 52 = -53 by norm_num, pow2_neg53]
      obtain ⟨M, hM⟩ := isDouble_grid s hs
      rw [hQ] at hM
      have hMlo : (2 : ℚ) ^ 52 ≤ (M : ℚ) := by
        have : (1 : ℚ) / 2 ≤ (M : ℚ) * (1 / 2 ^ 53) := by rw [← hM]; exact hge
        have e : (M : ℚ) * (1 / 2 ^ 53) = (M : ℚ) / 2 ^ 53 := by ring
        rw [e, le_div_iff₀ (by positivity)] at this
        linarith
      have hMhi : (M : ℚ) ≤ 2 ^ 53 := by
        have : (M : ℚ) * (1 / 2 ^ 53) ≤ 1 := by rw [← hM]; exact h1
        have e : (M : ℚ) * (1 / 2 ^ 53) = (M : ℚ) / 2 ^ 53 := by ring
        rw [e, div_le_iff₀ (by positivity)] at this
        linarith
      have hMlo' : (2 : Int) ^ 52 ≤ M := by exact_mod_cast hMlo
      have hMhi' : M ≤ (2 : Int) ^ 53 := by exact_mod_cast hMhi
      have hq : 1 - s = ((2 ^ 53 - M : Int) : ℚ) * pow2 (-53) := by
        rw [pow2_neg53, hM]
        push_cast
        field_simp
        norm_num
      have hov : |1 - s| < pow2 1024 := by
        rw [abs_of_nonneg (by linarith)]
        have := pow2_1024_gt
        linarith
      have hr := round64_of_grid (1 - s) (2 ^ 53 - M) (-53) hq
        (by rw [abs_le]; constructor <;> omega) (by norm_num) hov
      refine ⟨2 ^ 53 - M, ?_, ?_⟩
      · rw [hr]
        congr 1
        rw [hq, pow2_neg53]
        ring
      · have e : ((2 ^ 53 - M : Int) : ℚ) / 2 ^ 53 = 1 - s := by
          rw [hq, pow2_neg53]; ring
        rw [e, sub_self, abs_zero]
        positivity

/-- Rounding of `1 + s` for `s` in `[0, 1]`: a multiple of `2^(-52)` at distance at
most `2^(-53)`. -/
theorem one_add_round (s : ℚ) (h0 : 0 ≤ s) (h1 : s ≤ 1) :
    ∃ b : Int, round64 (1 + s) = .fin ((b : ℚ) / 2 ^ 52)
      ∧ |(b : ℚ) / 2 ^ 52 - (1 + s)| ≤ 1 / 2 ^ 53 := by
  have hq1 : pow2 0 ≤ |1 + s| := by
    rw [pow2_zero, abs_of_pos (by linarith)]; linarith
  have hq2 : |1 + s| ≤ pow2 (0 + 1) := by
    rw [show (0 : Int) + 1 = 1 by norm_num, pow2_one, abs_of_pos (by linarith)]; linarith
  obtain ⟨M, hM, herr⟩ := round64_grid (1 + s) 0 (by norm_num) (by norm_num) hq1 hq2
  rw [show (0 : Int) - 52 = -52 by norm_num, pow2_neg52] at hM herr
  rw [show (0 : Int) - 53 = -53 by norm_num, pow2_neg53] at herr
  have e : (M : ℚ) * (1 / 2 ^ 52) = (M : ℚ) / 2 ^ 52 := by ring
  rw [e] at hM herr
  exact ⟨M, hM, herr⟩

theorem round64_near_one (c : Int) (h1 : -1 ≤ c) (h2 : c ≤ 1) :
    round64 (1 + (c : ℚ) / 2 ^ 54) = .fin 1 := by
  obtain h | h | h : c = -1 ∨ c = 0 ∨ c = 1 := by omega
  · subst h; decide!
  · subst h; decide!
  · subst h; decide!

/-- The two shape-function values of a binary64 `s` in `[0, 1]` (in either order)
add up to exactly `1` in binary64 arithmetic. -/
theorem partition_core (s : ℚ) (hs : isDouble s) (h0 : 0 ≤ s) (h1 : s ≤ 1) :
    ∃ lo hi : ℚ, Double.div (round64 (1 - s)) (.fin 2) = .fin lo
      ∧ Double.div (round64 (1 + s)) (.fin 2) = .fin hi
      ∧ round64 (lo + hi) = .fin 1 := by
  obtain ⟨a, ha, haerr⟩ := one_sub_round s hs h0 h1
  obtain ⟨b, hb, hberr⟩ := one_add_round s h0 h1
  obtain ⟨ha1, ha2⟩ := abs_le.mp haerr
  obtain ⟨hb1, hb2⟩ := abs_le.mp hberr
  -- integer bounds
  have haq_lo : (-1 : ℚ) < (a : ℚ) := by
    have : -(1 / 2 ^ 54) + (1 - s) ≤ (a : ℚ) / 2 ^ 53 := by linarith
    have h3 : (-1 : ℚ) / 2 ^ 53 < (a : ℚ) / 2 ^ 53 := by
      have : (-1 : ℚ) / 2 ^ 53 < -(1 / 2 ^ 54) := by norm_num
      linarith
    exact (div_lt_div_iff_of_pos_right (by positivity)).mp h3
  have haq_hi : (a : ℚ) < 2 ^ 53 + 1 := by
    have : (a : ℚ) / 2 ^ 53 ≤ 1 / 2 ^ 54 + (1 - s) := by linarith
    have h3 : (a : ℚ) / 2 ^ 53 < (2 ^ 53 + 1) / 2 ^ 53 := by
      have : (1 : ℚ) / 2 ^ 54 + 1 < (2 ^ 53 + 1) / 2 ^ 53 := by norm_num
      linarith
    exact (div_lt_div_iff_of_pos_right (by positivity)).mp h3
  have hbq_lo : (-1 : ℚ) < (b : ℚ) := by
    have h3 : (-1 : ℚ) / 2 ^ 52 < (b : ℚ) / 2 ^ 52 := by
      have : (-1 : ℚ) / 2 ^ 52 < -(1 / 2 ^ 53) + 1 := by norm_num
      linarith
    exact (div_lt_div_iff_of_pos_right (by positivity)).mp h3
  have hbq_hi : (b : ℚ) < 2 ^ 53 + 1 := by
    have h3 : (b : ℚ) / 2 ^ 52 < (2 ^ 53 + 1) / 2 ^ 52 := by
      have : (1 : ℚ) / 2 ^ 53 + 2 < (2 ^ 53 + 1) / 2 ^ 52 := by norm_num
      linarith
    exact (div_lt_div_iff_of_pos_right (by positivity)).mp h3
  have ha_lo : (-1 : Int) < a := by exact_mod_cast haq_lo
  have ha_hi : a < (2 : Int) ^ 53 + 1 := by exact_mod_cast haq_hi
  have hb_lo : (-1 : Int) < b := by exact_mod_cast hbq_lo
  have hb_hi : b < (2 : Int) ^ 53 + 1 := by exact_mod_cast hbq_hi
  have haabs : |a| ≤ 2 ^ 53 := by rw [abs_le]; constructor <;> omega
  have hbabs : |b| ≤ 2 ^ 53 := by rw [abs_le]; constructor <;> omega
  -- the halves are exact
  have hlo : round64 ((a : ℚ) / 2 ^ 53 / 2) = .fin ((a : ℚ) / 2 ^ 54) := by
    have hq : (a : ℚ) / 2 ^ 53 / 2 = (a : ℚ) * pow2 (-54) := by
      rw [pow2_neg54]; ring
    have hov : |(a : ℚ) / 2 ^ 53 / 2| < pow2 1024 := by
      have h4 := pow2_1024_gt
      rw [abs_lt]
      constructor
      · have : (-1 : ℚ) / 2 ^ 53 / 2 < (a : ℚ) / 2 ^ 53 / 2 := by
          apply div_lt_div_of_pos_right _ (by norm_num)
          exact div_lt_div_of_pos_right haq_lo (by positivity)
        have : (-4 : ℚ) < (-1 : ℚ) / 2 ^ 53 / 2 := by norm_num
        linarith
      · have : (a : ℚ) / 2 ^ 53 / 2 < (2 ^ 53 + 1) / 2 ^ 53 / 2 := by
          apply div_lt_div_of_pos_right _ (by norm_num)
          exact div_lt_div_of_pos_right haq_hi (by positivity)
        have : ((2 : ℚ) ^ 53 + 1) / 2 ^ 53 / 2 < 4 := by norm_num
        linarith
    have := round64_of_grid _ a (-54) hq haabs (by norm_num) hov
    rw [this]
    congr 1
    ring
  have hhi : round64 ((b : ℚ) / 2 ^ 52 / 2) = .fin ((b : ℚ) / 2 ^ 53) := by
    have hq : (b : ℚ) / 2 ^ 52 / 2 = (b : ℚ) * pow2 (-53) := by
      rw [pow2_neg53]; ring
    have hov : |(b : ℚ) / 2 ^ 52 / 2| < pow2 1024 := by
      have h4 := pow2_1024_gt
      rw [abs_lt]
      constructor
      · have : (-1 : ℚ) / 2 ^ 52 / 2 < (b : ℚ) / 2 ^ 52 / 2 := by
          apply div_lt_div_of_pos_right _ (by norm_num)
          exact div_lt_div_of_pos_right hbq_lo (by positivity)
        have : (-4 : ℚ) < (-1 : ℚ) / 2 ^ 52 / 2 := by norm_num
        linarith
      · have : (b : ℚ) / 2 ^ 52 / 2 < (2 ^ 53 + 1) / 2 ^ 52 / 2 := by
          apply div_lt_div_of_pos_right _ (by norm_num)
          exact div_lt_div_of_pos_right hbq_hi (by positivity)
        have : ((2 : ℚ) ^ 53 + 1) / 2 ^ 52 / 2 < 4 := by norm_num
        linarith
    have := round64_of_grid _ b (-53) hq hbabs (by norm_num) hov
    rw [this]
    congr 1
    ring
  have h2ne : (2 : ℚ) ≠ 0 := by norm_num
  have hdlo : Double.div (round64 (1 - s)) (.fin 2) = .fin ((a : ℚ) / 2 ^ 54) := by
    rw [ha]
    unfold Double.div
    simp only [if_neg h2ne]
    exact hlo
  have hdhi : Double.div (round64 (1 + s)) (.fin 2) = .fin ((b : ℚ) / 2 ^ 53) := by
    rw [hb]
    unfold Double.div
    simp only [if_neg h2ne]
    exact hhi
  refine ⟨_, _, hdlo, hdhi, ?_⟩
  -- the sum is within one grid step of 1
  have hsum : (a : ℚ) / 2 ^ 54 + (b : ℚ) / 2 ^ 53
      = 1 + ((a + 2 * b - 2 ^ 54 : Int) : ℚ) / 2 ^ 54 := by
    push_cast
    field_simp
    ring
  have hc_lo : (-2 : ℚ) < ((a + 2 * b - 2 ^ 54 : Int) : ℚ) := by
    push_cast
    have e1 : (a : ℚ) = (a : ℚ) / 2 ^ 53 * 2 ^ 53 := by field_simp
    have e2 : (b : ℚ) = (b : ℚ) / 2 ^ 52 * 2 ^ 52 := by field_simp
    have t1 : (-(1 / 2 ^ 54) + (1 - s)) * 2 ^ 53 ≤ (a : ℚ) / 2 ^ 53 * 2 ^ 53 :=
      mul_le_mul_of_nonneg_right (by linarith) (by positivity)
    have t2 : (-(1 / 2 ^ 53) + (1 + s)) * 2 ^ 52 ≤ (b : ℚ) / 2 ^ 52 * 2 ^ 52 :=
      mul_le_mul_of_nonneg_right (by linarith) (by positivity)
    rw [← e1] at t1
    rw [← e2] at t2
    have t3 : (-(1 / 2 ^ 54) + (1 - s)) * 2 ^ 53 + 2 * ((-(1 / 2 ^ 53) + (1 + s)) * 2 ^ 52)
        = 2 ^ 54 - 3 / 2 := by ring
    linarith
  have hc_hi : ((a + 2 * b - 2 ^ 54 : Int) : ℚ) < 2 := by
    push_cast
    have e1 : (a : ℚ) = (a : ℚ) / 2 ^ 53 * 2 ^ 53 := by field_simp
    have e2 : (b : ℚ) = (b : ℚ) / 2 ^ 52 * 2 ^ 52 := by field_simp
    have t1 : (a : ℚ) / 2 ^ 53 * 2 ^ 53 ≤ (1 / 2 ^ 54 + (1 - s)) * 2 ^ 53 :=
      mul_le_mul_of_nonneg_right (by linarith) (by positivity)
    have t2 : (b : ℚ) / 2 ^ 52 * 2 ^ 52 ≤ (1 / 2 ^ 53 + (1 + s)) * 2 ^ 52 :=
      mul_le_mul_of_nonneg_right (by linarith) (by positivity)
    rw [← e1] at t1
    rw [← e2] at t2
    have t3 : (1 / 2 ^ 54 + (1 - s)) * 2 ^ 53 + 2 * ((1 / 2 ^ 53 + (1 + s)) * 2 ^ 52)
        = 2 ^ 54 + 3 / 2 := by ring
    linarith
  have hci_lo : (-2 : Int) < a + 2 * b - 2 ^ 54 := by exact_mod_cast hc_lo
  have hci_hi : a + 2 * b - 2 ^ 54 < (2 : Int) := by exact_mod_cast hc_hi
  rw [hsum]
  exact round64_near_one _ (by omega) (by omega)

theorem isDouble_repr (q : ℚ) (h : isDouble q) :
    ∃ M j : Int, q = (M : ℚ) * pow2 j ∧ |M| ≤ 2 ^ 53 ∧ -1074 ≤ j := by
  obtain ⟨M, hM⟩ := isDouble_grid q h
  by_cases h0 : q = 0
  · exact ⟨0, 0, by rw [h0]; simp, by norm_num, by norm_num⟩
  obtain ⟨-, s2⟩ := binade_spec q h0
  have hQpos := quantum_pos q
  have hj : -1074 ≤ max (binade q) (-1022) - 52 := by
    have := le_max_right (binade q) (-1022)
    omega
  have h53 : pow2 (max (binade q) (-1022) + 1) = 2 ^ 53 * quantum q := by
    unfold quantum
    have : max (binade q) (-1022) + 1 = 53 + (max (binade q) (-1022) - 52) := by ring
    rw [this, pow2_add]
    congr 1
  have hlt : |q| < 2 ^ 53 * quantum q := by
    rw [← h53]
    exact lt_of_lt_of_le s2 (pow2_le_pow2 (by have := le_max_left (binade q) (-1022); omega))
  have hMq : |(M : ℚ)| < 2 ^ 53 := by
    have e : |q| = |(M : ℚ)| * quantum q := by
      conv_lhs => rw [hM]
      rw [abs_mul, abs_of_pos hQpos]
    rw [e] at hlt
    exact lt_of_mul_lt_mul_right hlt hQpos.le
  have hMi : |M| < 2 ^ 53 := by
    have : ((|M| : Int) : ℚ) < ((2 ^ 53 : Int) : ℚ) := by
      rw [Int.cast_abs]; push_cast; exact hMq
    exact_mod_cast this
  exact ⟨M, max (binade q) (-1022) - 52, hM, hMi.le, hj⟩

theorem isDouble_two_mul (q : ℚ) (h : isDouble q) (hov : |2 * q| < pow2 1024) :
    round64 (2 * q) = .fin (2 * q) := by
  obtain ⟨M, j, hq, hM, hj⟩ := isDouble_repr q h
  apply round64_of_grid (2 * q) M (j + 1) _ hM (by omega) hov
  rw [pow2_succ, hq]
  ring

theorem pow2_neg1075_le : pow2 (-1075) ≤ 1 / 2 ^ 53 := by
  rw [← pow2_neg53]
  exact pow2_le_pow2 (by norm_num)

theorem pow2_neg1073 : 4 * pow2 (-1075) = 1 / 2 ^ 1073 := by decide!

theorem two_pow_1004_lt : (2 : ℚ) ^ 1004 < pow2 1023 := by
  have h : pow2 ((1004 : Nat) : Int) = (2 : ℚ) ^ 1004 := pow2_natCast 1004
  rw [← h]
  exact pow2_lt_pow2 (by norm_num)

/-- Rounding of a value below `2 ^ 1004`: a finite result whose error is at most
`|q| / 2 ^ 53 + 2 ^ (-1075)`. -/
theorem round64_general (q : ℚ) (h : |q| ≤ 2 ^ 1004) :
    ∃ r : ℚ, round64 q = .fin r ∧ |r - q| ≤ |q| / 2 ^ 53 + pow2 (-1075) := by
  obtain ⟨r, hr, herr⟩ := round64_abs q (lt_of_le_of_lt h two_pow_1004_lt)
  refine ⟨r, hr, ?_⟩
  rw [pow2_neg53] at herr
  linarith

theorem abs_le_of_sub (x y e b : ℚ) (h : |x - y| ≤ e) (hy : |y| ≤ b) : |x| ≤ b + e := by
  have : |x| ≤ |y| + |x - y| := by
    have := abs_add y (x - y)
    rw [add_sub_cancel] at this
    exact this
  linarith

/-- Error analysis of `mapLocalToGlobalFrame` on finite arguments of magnitude at most
`M ≤ 2 ^ 1000`. -/
theorem mapLocalToGlobalFrame_error (m : Mesh) (n1 n2 r M : ℚ) (hr0 : -1 ≤ r) (hr1 : r ≤ 1)
    (hM1 : |n1| ≤ M) (hM2 : |n2| ≤ M) (hMB : M ≤ 2 ^ 1000) :
    ∃ x : ℚ, m.mapLocalToGlobalFrame (.fin r) (.fin n1) (.fin n2) = .fin x
      ∧ |x - ((1 - r) * n1 + (1 + r) * n2) / 2| ≤ M / 2 ^ 49 + 1 / 2 ^ 1073 := by
  have hM0 : 0 ≤ M := le_trans (abs_nonneg n1) hM1
  have hη0 : 0 < pow2 (-1075) := pow2_pos _
  have hη1 := pow2_neg1075_le
  set η := pow2 (-1075) with hη
  have hK : 8 * M + 8 ≤ (2 : ℚ) ^ 1004 := by
    have : (8 : ℚ) * 2 ^ 1000 + 8 ≤ 2 ^ 1004 := by norm_num
    linarith
  have hηle : η ≤ 1 := le_trans hη1 (by norm_num)
  have h1r : |1 - r| ≤ 2 := by rw [abs_le]; constructor <;> linarith
  have h1r' : |1 + r| ≤ 2 := by rw [abs_le]; constructor <;> linarith
  -- a = 1 - r, b = 1 + r
  obtain ⟨a, ha, haerr⟩ := round64_general (1 - r) (by linarith)
  obtain ⟨b, hb, hberr⟩ := round64_general (1 + r) (by linarith)
  have haerr' : |a - (1 - r)| ≤ 3 / 2 ^ 53 := by
    have : |1 - r| / 2 ^ 53 ≤ 2 / 2 ^ 53 := div_le_div_of_nonneg_right h1r (by positivity)
    linarith
  have hberr' : |b - (1 + r)| ≤ 3 / 2 ^ 53 := by
    have : |1 + r| / 2 ^ 53 ≤ 2 / 2 ^ 53 := div_le_div_of_nonneg_right h1r' (by positivity)
    linarith
  have haabs : |a| ≤ 3 := by
    have := abs_le_of_sub a (1 - r) _ 2 haerr' h1r
    linarith [show (3 : ℚ) / 2 ^ 53 ≤ 1 by norm_num]
  have hbabs : |b| ≤ 3 := by
    have := abs_le_of_sub b (1 + r) _ 2 hberr' h1r'
    linarith [show (3 : ℚ) / 2 ^ 53 ≤ 1 by norm_num]
  -- the two products
  have han1 : |a * n1| ≤ 3 * M := by
    rw [abs_mul]
    exact mul_le_mul haabs hM1 (abs_nonneg _) (by norm_num)
  have hbn2 : |b * n2| ≤ 3 * M := by
    rw [abs_mul]
    exact mul_le_mul hbabs hM2 (abs_nonneg _) (by norm_num)
  obtain ⟨p1, hp1, hp1err⟩ := round64_general (a * n1) (by linarith)
  obtain ⟨p2, hp2, hp2err⟩ := round64_general (b * n2) (by linarith)
  have hp1err' : |p1 - a * n1| ≤ 3 / 2 ^ 53 * M + η := by
    have : |a * n1| / 2 ^ 53 ≤ 3 * M / 2 ^ 53 := div_le_div_of_nonneg_right han1 (by positivity)
    have e : 3 * M / 2 ^ 53 = 3 / 2 ^ 53 * M := by ring
    linarith
  have hp2err' : |p2 - b * n2| ≤ 3 / 2 ^ 53 * M + η := by
    have : |b * n2| / 2 ^ 53 ≤ 3 * M / 2 ^ 53 := div_le_div_of_nonneg_right hbn2 (by positivity)
    have e : 3 * M / 2 ^ 53 = 3 / 2 ^ 53 * M := by ring
    linarith
  have hd1 : |a * n1 - (1 - r) * n1| ≤ 3 / 2 ^ 53 * M := by
    have e : a * n1 - (1 - r) * n1 = (a - (1 - r)) * n1 := by ring
    rw [e, abs_mul]
    exact mul_le_mul haerr' hM1 (abs_nonneg _) (by positivity)
  have hd2 : |b * n2 - (1 + r) * n2| ≤ 3 / 2 ^ 53 * M := by
    have e : b * n2 - (1 + r) * n2 = (b - (1 + r)) * n2 := by ring
    rw [e, abs_mul]
    exact mul_le_mul hberr' hM2 (abs_nonneg _) (by positivity)
  have hq1 : |p1 - (1 - r) * n1| ≤ 6 / 2 ^ 53 * M + η := by
    have := abs_sub_le p1 (a * n1) ((1 - r) * n1)
    linarith
  have hq2 : |p2 - (1 + r) * n2| ≤ 6 / 2 ^ 53 * M + η := by
    have := abs_sub_le p2 (b * n2) ((1 + r) * n2)
    linarith
  have hy1 : |(1 - r) * n1| ≤ 2 * M := by
    rw [abs_mul]
    exact mul_le_mul h1r hM1 (abs_nonneg _) (by norm_num)
  have hy2 : |(1 + r) * n2| ≤ 2 * M := by
    rw [abs_mul]
    exact mul_le_mul h1r' hM2 (abs_nonneg _) (by norm_num)
  have hsmall : 6 / 2 ^ 53 * M ≤ M := by
    have : (6 : ℚ) / 2 ^ 53 * M ≤ 1 * M := mul_le_mul_of_nonneg_right (by norm_num) hM0
    linarith
  have hp1abs : |p1| ≤ 3 * M + η := by
    have := abs_le_of_sub p1 ((1 - r) * n1) _ (2 * M) hq1 hy1
    linarith
  have hp2abs : |p2| ≤ 3 * M + η := by
    have := abs_le_of_sub p2 ((1 + r) * n2) _ (2 * M) hq2 hy2
    linarith
  have hsumabs : |p1 + p2| ≤ 6 * M + 2 * η := by
    have := abs_add p1 p2
    linarith
  -- the sum
  obtain ⟨s, hs, hserr⟩ := round64_general (p1 + p2) (by linarith)
  have hserr' : |s - (p1 + p2)| ≤ 6 / 2 ^ 53 * M + 2 * η := by
    have h1 : |p1 + p2| / 2 ^ 53 ≤ (6 * M + 2 * η) / 2 ^ 53 :=
      div_le_div_of_nonneg_right hsumabs (by positivity)
    have e : (6 * M + 2 * η) / 2 ^ 53 = 6 / 2 ^ 53 * M + 2 / 2 ^ 53 * η := by ring
    have h2 : 2 / 2 ^ 53 * η ≤ 1 * η := mul_le_mul_of_nonneg_right (by norm_num) hη0.le
    linarith
  have hsY : |s - ((1 - r) * n1 + (1 + r) * n2)| ≤ 18 / 2 ^ 53 * M + 4 * η := by
    have e : s - ((1 - r) * n1 + (1 + r) * n2)
        = (s - (p1 + p2)) + ((p1 - (1 - r) * n1) + (p2 - (1 + r) * n2)) := by ring
    rw [e]
    have t1 := abs_add (s - (p1 + p2)) ((p1 - (1 - r) * n1) + (p2 - (1 + r) * n2))
    have t2 := abs_add (p1 - (1 - r) * n1) (p2 - (1 + r) * n2)
    linarith
  have hYabs : |(1 - r) * n1 + (1 + r) * n2| ≤ 4 * M := by
    have := abs_add ((1 - r) * n1) ((1 + r) * n2)
    linarith
  have hsabs : |s| ≤ 5 * M + 4 * η := by
    have := abs_le_of_sub s _ _ (4 * M) hsY hYabs
    have : 18 / 2 ^ 53 * M ≤ 1 * M := mul_le_mul_of_nonneg_right (by norm_num) hM0
    linarith
  have hs2abs : |s / 2| ≤ 5 / 2 * M + 2 * η := by
    rw [abs_div, abs_of_pos (by norm_num : (0 : ℚ) < 2)]
    linarith
  -- the division by 2
  obtain ⟨x, hx, hxerr⟩ := round64_general (s / 2) (by linarith)
  have hxerr' : |x - s / 2| ≤ 3 / 2 ^ 53 * M + 2 * η := by
    have h1 : |s / 2| / 2 ^ 53 ≤ (5 / 2 * M + 2 * η) / 2 ^ 53 :=
      div_le_div_of_nonneg_right hs2abs (by positivity)
    have e : (5 / 2 * M + 2 * η) / 2 ^ 53 = 5 / 2 / 2 ^ 53 * M + 2 / 2 ^ 53 * η := by ring
    have h2 : 2 / 2 ^ 53 * η ≤ 1 * η := mul_le_mul_of_nonneg_right (by norm_num) hη0.le
    have h3 : 5 / 2 / 2 ^ 53 * M ≤ 3 / 2 ^ 53 * M :=
      mul_le_mul_of_nonneg_right (by norm_num) hM0
    linarith
  have hfinal : |x - ((1 - r) * n1 + (1 + r) * n2) / 2| ≤ M / 2 ^ 49 + 4 * η := by
    have e : x - ((1 - r) * n1 + (1 + r) * n2) / 2
        = (x - s / 2) + (s - ((1 - r) * n1 + (1 + r) * n2)) / 2 := by ring
    rw [e]
    have t1 := abs_add (x - s / 2) ((s - ((1 - r) * n1 + (1 + r) * n2)) / 2)
    have t2 : |(s - ((1 - r) * n1 + (1 + r) * n2)) / 2| ≤ (18 / 2 ^ 53 * M + 4 * η) / 2 := by
      rw [abs_div, abs_of_pos (by norm_num : (0 : ℚ) < 2)]
      exact div_le_div_of_nonneg_right hsY (by norm_num)
    have t3 : (12 : ℚ) / 2 ^ 53 * M ≤ M / 2 ^ 49 := by
      have e2 : M / 2 ^ 49 = 16 / 2 ^ 53 * M := by ring
      rw [e2]
      exact mul_le_mul_of_nonneg_right (by norm_num) hM0
    have e3 : (18 / 2 ^ 53 * M + 4 * η) / 2 = 9 / 2 ^ 53 * M + 2 * η := by ring
    have e4 : 3 / 2 ^ 53 * M + 9 / 2 ^ 53 * M = 12 / 2 ^ 53 * M := by ring
    linarith
  rw [pow2_neg1073] at hfinal
  refine ⟨x, ?_, hfinal⟩
  have h2ne : (2 : ℚ) ≠ 0 := by norm_num
  show Double.div (Double.add (Double.mul (Double.sub (.fin 1) (.fin r)) (.fin n1))
      (Double.mul (Double.add (.fin 1) (.fin r)) (.fin n2))) (.fin 2) = .fin x
  have e1 : Double.sub (.fin 1) (.fin r) = .fin a := by
    show round64 (1 + -r) = _
    rw [← sub_eq_add_neg]
    exact ha
  have e2 : Double.add (.fin 1) (.fin r) = .fin b := hb
  have e3 : Double.mul (.fin a) (.fin n1) = .fin p1 := hp1
  have e4 : Double.mul (.fin b) (.fin n2) = .fin p2 := hp2
  have e5 : Double.add (.fin p1) (.fin p2) = .fin s := hs
  have e6 : Double.div (.fin s) (.fin 2) = .fin x := by
    unfold Double.div
    simp only [if_neg h2ne]
    exact hx
  rw [e1, e2, e3, e4, e5, e6]

/-! ## Rounding keeps signs and power-of-two bounds -/

theorem roundHalfEven_mem (y : ℚ) : roundHalfEven y = ⌊y⌋ ∨ roundHalfEven y = ⌊y⌋ + 1 := by
  unfold roundHalfEven
  split_ifs <;> simp

theorem roundHalfEven_ge (y : ℚ) (N : Int) (h : (N : ℚ) ≤ y) : N ≤ roundHalfEven y := by
  have h1 : N ≤ ⌊y⌋ := Int.le_floor.mpr h
  rcases roundHalfEven_mem y with h2 | h2 <;> omega

theorem roundHalfEven_le (y : ℚ) (N : Int) (h : y ≤ (N : ℚ)) : roundHalfEven y ≤ N := by
  rcases eq_or_lt_of_le h with h1 | h1
  · rw [h1, roundHalfEven_intCast]
  · have h2 : ⌊y⌋ < N := Int.floor_lt.mpr h1
    rcases roundHalfEven_mem y with h3 | h3 <;> omega

theorem pow2_neg1075_tiny : pow2 (-1075) ≤ 1 / 2 ^ 100 := by
  have h : pow2 (-1075) ≤ pow2 (-100) := pow2_le_pow2 (by norm_num)
  have h2 : pow2 (-100) = 1 / 2 ^ 100 := by
    rw [pow2_eq]
    norm_num
  linarith

theorem pow2_le_1004 {k : Int} (hk : k ≤ 1004) : pow2 k ≤ 2 ^ 1004 := by
  have h : pow2 k ≤ pow2 1004 := pow2_le_pow2 hk
  have h2 : pow2 1004 = 2 ^ 1004 := by
    have := pow2_natCast 1004
    simpa using this
  linarith

/-- Rounding a value of magnitude at most `2 ^ k` gives a finite value of magnitude at
most `2 ^ k`, of the same sign, within the relative error `2 ^ (-53)`. -/
theorem round64_bounds (q : ℚ) (k : Int) (hk1 : -1021 ≤ k) (hk2 : k ≤ 1004)
    (h : |q| ≤ pow2 k) :
    ∃ r : ℚ, round64 q = .fin r ∧ |r| ≤ pow2 k ∧ (0 ≤ q → 0 ≤ r)
      ∧ |r - q| ≤ |q| / 2 ^ 53 + pow2 (-1075) := by
  obtain ⟨r, hr, herr⟩ := round64_general q (le_trans h (pow2_le_1004 hk2))
  have hform : r = (roundHalfEven (q / quantum q) : ℚ) * quantum q := by
    unfold round64 at hr
    split_ifs at hr
    exact (Double.fin.inj hr).symm
  have hQ := quantum_pos q
  refine ⟨r, hr, ?_, ?_, herr⟩
  · rcases eq_or_lt_of_le h with heq | hlt
    · -- |q| is the power itself: exact
      have hk : pow2 k < pow2 1024 := pow2_lt_pow2 (by omega)
      have hexact : round64 q = .fin q := by
        rcases abs_choice q with hq | hq
        · refine round64_of_grid q 1 k ?_ (by norm_num) (by omega) (by rw [heq]; exact hk)
          rw [← hq, heq]; simp
        · refine round64_of_grid q (-1) k ?_ (by norm_num) (by omega) (by rw [heq]; exact hk)
          have : q = -pow2 k := by rw [← heq, hq]; ring
          rw [this]; simp
      rw [hr] at hexact
      rw [Double.fin.inj hexact, heq]
    · by_cases hq0 : q = 0
      · rw [hq0, round64_zero] at hr
        rw [← Double.fin.inj hr]
        simpa using (pow2_pos k).le
      · have hb := binade_spec q hq0
        have hbk : binade q < k := pow2_lt_pow2_iff.mp (lt_of_le_of_lt hb.1 hlt)
        have hqe : 0 ≤ k - (max (binade q) (-1022) - 52) := by
          rcases le_total (binade q) (-1022) with hc | hc
          · rw [max_eq_right hc]; omega
          · rw [max_eq_left hc]; omega
        have hsplit : pow2 k = pow2 (k - (max (binade q) (-1022) - 52)) * quantum q := by
          unfold quantum
          rw [← pow2_add]
          congr 1
          ring
        have hP : pow2 (k - (max (binade q) (-1022) - 52))
            = (((2 : Int) ^ (k - (max (binade q) (-1022) - 52)).toNat : Int) : ℚ) := by
          unfold pow2
          rw [if_pos hqe]
          push_cast
          rfl
        have hyle : q / quantum q ≤ pow2 (k - (max (binade q) (-1022) - 52)) := by
          rw [div_le_iff₀ hQ, ← hsplit]
          exact le_trans (le_abs_self q) h
        have hyge : -pow2 (k - (max (binade q) (-1022) - 52)) ≤ q / quantum q := by
          rw [le_div_iff₀ hQ, neg_mul, ← hsplit]
          have := neg_abs_le q
          linarith
        rw [hP] at hyle
        have h1 := roundHalfEven_le _ _ hyle
        have hyge2 : (((-(2 : Int) ^ (k - (max (binade q) (-1022) - 52)).toNat : Int)) : ℚ)
            ≤ q / quantum q := by
          rw [hP] at hyge
          push_cast
          push_cast at hyge
          exact hyge
        have h2 := roundHalfEven_ge _ _ hyge2
        have habs : |(roundHalfEven (q / quantum q) : ℚ)|
            ≤ pow2 (k - (max (binade q) (-1022) - 52)) := by
          rw [hP, abs_le]
          constructor
          · exact_mod_cast h2
          · exact_mod_cast h1
        rw [hform, abs_mul, abs_of_pos hQ, hsplit]
        exact mul_le_mul_of_nonneg_right habs hQ.le
  · intro hq
    rw [hform]
    have : (0 : ℚ) ≤ q / quantum q := div_nonneg hq hQ.le
    have h0 := roundHalfEven_ge (q / quantum q) 0 (by simpa using this)
    have : (0 : ℚ) ≤ (roundHalfEven (q / quantum q) : ℚ) := by exact_mod_cast h0
    exact mul_nonneg this hQ.le
/-! ## The quotient `x / element_width` and the located element -/

/-- The double quotient `x / element_width` for `x` in `[0, 1]`: finite, non-negative,
within `5 n / 2^53` of `n x`, and its product with the width is within `2 / 2^53` of
`x`. -/
theorem quotient_spec (n : Int) (hn : 1 ≤ n) (hmax : n ≤ INT_MAX) (w : ℚ)
    (hlo : (1 - 1 / 2 ^ 53) ≤ (n : ℚ) * w) (hhi : (n : ℚ) * w ≤ 1 + 1 / 2 ^ 53)
    (hwpos : 0 < w) (x : ℚ) (hx0 : 0 ≤ x) (hx1 : x ≤ 1) :
    ∃ q1 : ℚ, Double.div (.fin x) (.fin w) = .fin q1 ∧ 0 ≤ q1
      ∧ |q1 - (n : ℚ) * x| ≤ 5 * (n : ℚ) / 2 ^ 53 ∧ |q1 * w - x| ≤ 2 / 2 ^ 53 := by
  obtain ⟨hn1, hn2⟩ := cast_bounds n hn hmax
  have hwne : w ≠ 0 := hwpos.ne'
  have hy0 : 0 ≤ x / w := div_nonneg hx0 hwpos.le
  have hyw : x / w * w = x := div_mul_cancel₀ x hwne
  -- y (1 - u) ≤ n x ≤ y (1 + u)
  have hA : x / w * (1 - 1 / 2 ^ 53) ≤ (n : ℚ) * x := by
    have := mul_le_mul_of_nonneg_left hlo hy0
    have e : x / w * ((n : ℚ) * w) = (n : ℚ) * (x / w * w) := by ring
    rw [e, hyw] at this
    exact this
  have hB : (n : ℚ) * x ≤ x / w * (1 + 1 / 2 ^ 53) := by
    have := mul_le_mul_of_nonneg_left hhi hy0
    have e : x / w * ((n : ℚ) * w) = (n : ℚ) * (x / w * w) := by ring
    rw [e, hyw] at this
    exact this
  have hnx : (n : ℚ) * x ≤ (n : ℚ) := by nlinarith
  have hy2 : x / w ≤ 2 * (n : ℚ) := by linarith
  have hp32 : pow2 32 = 2 ^ 32 := by
    have := pow2_natCast 32
    simpa using this
  have hyabs : |x / w| ≤ pow2 32 := by
    rw [abs_of_nonneg hy0, hp32]
    linarith
  obtain ⟨q1, hq1, -, hq1nn, hq1err⟩ := round64_bounds (x / w) 32 (by norm_num) (by norm_num) hyabs
  rw [abs_of_nonneg hy0] at hq1err
  have hdiv : Double.div (.fin x) (.fin w) = round64 (x / w) := by
    unfold Double.div
    simp only [if_neg hwne]
  have heta := pow2_neg1075_tiny
  have hw2 : w ≤ 2 := by nlinarith
  refine ⟨q1, by rw [hdiv, hq1], hq1nn hy0, ?_, ?_⟩
  · have h1 : |x / w - (n : ℚ) * x| ≤ x / w / 2 ^ 53 := by
      rw [abs_le]; constructor <;> linarith
    have h2 : |q1 - (n : ℚ) * x| ≤ |q1 - x / w| + |x / w - (n : ℚ) * x| := abs_sub_le _ _ _
    have h3 : x / w / 2 ^ 53 ≤ 2 * (n : ℚ) / 2 ^ 53 :=
      div_le_div_of_nonneg_right hy2 (by positivity)
    have h4 : (1 : ℚ) / 2 ^ 100 ≤ (n : ℚ) / 2 ^ 53 := by
      have : (1 : ℚ) / 2 ^ 53 ≤ (n : ℚ) / 2 ^ 53 :=
        div_le_div_of_nonneg_right hn1 (by positivity)
      have : (1 : ℚ) / 2 ^ 100 ≤ 1 / 2 ^ 53 := by norm_num
      linarith
    have e5 : 5 * (n : ℚ) / 2 ^ 53 = 2 * (n : ℚ) / 2 ^ 53 + 2 * (n : ℚ) / 2 ^ 53
        + (n : ℚ) / 2 ^ 53 := by ring
    linarith
  · have e : q1 * w - x = (q1 - x / w) * w := by
      rw [sub_mul, hyw]
    rw [e, abs_mul, abs_of_pos hwpos]
    have h1 : |q1 - x / w| * w ≤ (x / w / 2 ^ 53 + pow2 (-1075)) * w :=
      mul_le_mul_of_nonneg_right hq1err hwpos.le
    have e2 : (x / w / 2 ^ 53 + pow2 (-1075)) * w = x / 2 ^ 53 + pow2 (-1075) * w := by
      have : x / w / 2 ^ 53 * w = (x / w * w) / 2 ^ 53 := by ring
      rw [add_mul, this, hyw]
    have h3 : pow2 (-1075) * w ≤ 1 / 2 ^ 100 * 2 :=
      mul_le_mul heta hw2 hwpos.le (by norm_num)
    have h4 : x / 2 ^ 53 ≤ 1 / 2 ^ 53 := div_le_div_of_nonneg_right hx1 (by positivity)
    have h5 : (1 : ℚ) / 2 ^ 100 * 2 ≤ 1 / 2 ^ 53 := by norm_num
    have e6 : (2 : ℚ) / 2 ^ 53 = 1 / 2 ^ 53 + 1 / 2 ^ 53 := by ring
    linarith

/-- Away from the special case `x == 1.`, `locateX` returns the floor of the double
quotient when that floor is below `num_elements`, and fails its upper assertion
otherwise. -/
theorem locateX_floor (n : Int) (hn : 1 ≤ n) (hmax : n ≤ INT_MAX) (w : ℚ)
    (hw : (Mesh.new n).d_element_width = .fin w) (x q1 : ℚ) (hx : x ≠ 1)
    (hq1 : Double.div (.fin x) (.fin w) = .fin q1) (hq1nn : 0 ≤ q1)
    (hq1n : |q1 - (n : ℚ) * x| ≤ 5 * (n : ℚ) / 2 ^ 53) (hx1 : x ≤ 1) :
    (Mesh.new n).locateX (.fin x)
      = if ⌊q1⌋ < n then .ok ⌊q1⌋ else .error .locateUpper := by
  obtain ⟨hn1, hn2⟩ := cast_bounds n hn hmax
  have hfl0 : 0 ≤ ⌊q1⌋ := Int.floor_nonneg.mpr hq1nn
  have hq1lt : q1 < (n : ℚ) + 1 := by
    have h1 := (abs_le.mp hq1n).2
    have h2 : (n : ℚ) * x ≤ (n : ℚ) := by nlinarith
    have h3 : 5 * (n : ℚ) / 2 ^ 53 < 1 := by
      have : 5 * (n : ℚ) / 2 ^ 53 ≤ 5 * 2 ^ 31 / 2 ^ 53 :=
        div_le_div_of_nonneg_right (by linarith) (by positivity)
      have : (5 : ℚ) * 2 ^ 31 / 2 ^ 53 < 1 := by norm_num
      linarith
    linarith
  have hflle : ⌊q1⌋ ≤ n := by
    have : ⌊q1⌋ < n + 1 := Int.floor_lt.mpr (by push_cast; exact hq1lt)
    omega
  have hcast0 : (0 : ℚ) ≤ ((⌊q1⌋ : Int) : ℚ) := by exact_mod_cast hfl0
  have hto : Double.toInt (Double.floor (Double.div (.fin x) (Mesh.new n).d_element_width))
      = ⌊q1⌋ := by
    rw [hw, hq1]
    unfold Double.floor Double.toInt
    simp only [if_pos hcast0, Int.floor_intCast]
    rw [if_pos]
    constructor
    · unfold INT_MIN; omega
    · unfold INT_MAX at *; omega
  have heq : Double.eq (.fin x) (.fin 1) = false := by
    unfold Double.eq
    simp [hx]
  unfold Mesh.locateX
  rw [hto, heq]
  simp only [Bool.false_eq_true, if_false, if_pos hfl0]
  rfl

/-- The double expression `(q1 - e) * 2. - 1.` with `e = floor(q1)`: finite, in
`[-1, 1]`, within `6 / 2^53` of the exact value. -/
theorem frame_spec (q1 : ℚ) (_h0 : 0 ≤ q1) :
    ∃ r : ℚ, Double.sub (Double.mul (Double.sub (.fin q1) (Double.ofInt ⌊q1⌋)) (.fin 2))
          (.fin 1) = .fin r
      ∧ -1 ≤ r ∧ r ≤ 1 ∧ |r - (2 * (q1 - (⌊q1⌋ : ℚ)) - 1)| ≤ 6 / 2 ^ 53 := by
  have heta := pow2_neg1075_tiny
  have ht0 : 0 ≤ q1 - (⌊q1⌋ : ℚ) := sub_nonneg.mpr (Int.floor_le q1)
  have ht1 : q1 - (⌊q1⌋ : ℚ) < 1 := by
    have := Int.lt_floor_add_one q1
    linarith
  -- t1 = q1 - e
  have habs1 : |q1 + -(⌊q1⌋ : ℚ)| ≤ pow2 0 := by
    rw [pow2_zero, ← sub_eq_add_neg, abs_of_nonneg ht0]
    exact ht1.le
  obtain ⟨t1, ht1eq, ht1abs, ht1nn, ht1err⟩ :=
    round64_bounds (q1 + -(⌊q1⌋ : ℚ)) 0 (by norm_num) (by norm_num) habs1
  rw [← sub_eq_add_neg] at ht1nn ht1err
  rw [abs_of_nonneg ht0] at ht1err
  rw [pow2_zero] at ht1abs
  have ht1nn := ht1nn ht0
  rw [abs_of_nonneg ht1nn] at ht1abs
  -- t2 = t1 * 2
  have habs2 : |t1 * 2| ≤ pow2 1 := by
    rw [pow2_one, abs_of_nonneg (by linarith)]
    linarith
  obtain ⟨t2, ht2eq, ht2abs, ht2nn, ht2err⟩ :=
    round64_bounds (t1 * 2) 1 (by norm_num) (by norm_num) habs2
  have ht2nn := ht2nn (by linarith)
  rw [pow2_one, abs_of_nonneg ht2nn] at ht2abs
  rw [abs_of_nonneg (by linarith : (0 : ℚ) ≤ t1 * 2)] at ht2err
  -- r = t2 - 1
  have habs3 : |t2 + -1| ≤ pow2 0 := by
    rw [pow2_zero, abs_le]
    constructor <;> linarith
  obtain ⟨r, hreq, hrabs, -, hrerr⟩ :=
    round64_bounds (t2 + -1) 0 (by norm_num) (by norm_num) habs3
  rw [pow2_zero] at hrabs habs3
  have hexpr : Double.sub (Double.mul (Double.sub (.fin q1) (Double.ofInt ⌊q1⌋)) (.fin 2))
      (.fin 1) = .fin r := by
    have e1 : Double.sub (.fin q1) (Double.ofInt ⌊q1⌋) = round64 (q1 + -(⌊q1⌋ : ℚ)) := rfl
    rw [e1, ht1eq]
    have e2 : Double.mul (.fin t1) (.fin 2) = round64 (t1 * 2) := rfl
    rw [e2, ht2eq]
    have e3 : Double.sub (.fin t2) (.fin 1) = round64 (t2 + -1) := rfl
    rw [e3, hreq]
  refine ⟨r, hexpr, (abs_le.mp hrabs).1, (abs_le.mp hrabs).2, ?_⟩
  have hb1 : |t1 - (q1 - (⌊q1⌋ : ℚ))| ≤ 1 / 2 ^ 53 + 1 / 2 ^ 100 := by
    have : (q1 - (⌊q1⌋ : ℚ)) / 2 ^ 53 ≤ 1 / 2 ^ 53 :=
      div_le_div_of_nonneg_right ht1.le (by positivity)
    linarith
  have hb2 : |t2 - t1 * 2| ≤ 2 / 2 ^ 53 + 1 / 2 ^ 100 := by
    have : t1 * 2 / 2 ^ 53 ≤ 2 / 2 ^ 53 :=
      div_le_div_of_nonneg_right (by linarith) (by positivity)
    linarith
  have hb3 : |r - (t2 + -1)| ≤ 1 / 2 ^ 53 + 1 / 2 ^ 100 := by
    have : |t2 + -1| / 2 ^ 53 ≤ 1 / 2 ^ 53 :=
      div_le_div_of_nonneg_right habs3 (by positivity)
    linarith
  have hb1 := abs_le.mp hb1
  have hb2 := abs_le.mp hb2
  have hb3 := abs_le.mp hb3
  have hs : (1 : ℚ) / 2 ^ 100 * 4 ≤ 1 / 2 ^ 53 := by norm_num
  rw [abs_le]
  constructor <;> linarith [hb1.1, hb1.2, hb2.1, hb2.2, hb3.1, hb3.2]

/-- The shape function values at a reference coordinate of `[-1, 1]`: finite, of
magnitude at most 1, within `3 / 2^53` of `(1 - r)/2` and `(1 + r)/2`. -/
theorem shape_spec (m : Mesh) (r : ℚ) (hr0 : -1 ≤ r) (hr1 : r ≤ 1) :
    ∃ N0 N1 : ℚ, m.shapeFunctionValues (.fin r) = (.fin N0, .fin N1)
      ∧ |N0| ≤ 1 ∧ |N1| ≤ 1
      ∧ |N0 - (1 - r) / 2| ≤ 3 / 2 ^ 53 ∧ |N1 - (1 + r) / 2| ≤ 3 / 2 ^ 53 := by
  have heta := pow2_neg1075_tiny
  have hs : (1 : ℚ) / 2 ^ 100 * 4 ≤ 1 / 2 ^ 53 := by norm_num
  have key : ∀ s : ℚ, 0 ≤ s → s ≤ 2 →
      ∃ N : ℚ, Double.div (round64 s) (.fin 2) = .fin N ∧ |N| ≤ 1
        ∧ |N - s / 2| ≤ 3 / 2 ^ 53 := by
    intro s hs0 hs2
    have habs : |s| ≤ pow2 1 := by
      rw [pow2_one, abs_of_nonneg hs0]; exact hs2
    obtain ⟨a, haeq, haabs, hann, haerr⟩ := round64_bounds s 1 (by norm_num) (by norm_num) habs
    have hann := hann hs0
    rw [pow2_one, abs_of_nonneg hann] at haabs
    rw [abs_of_nonneg hs0] at haerr
    have habs2 : |a / 2| ≤ pow2 0 := by
      rw [pow2_zero, abs_of_nonneg (by linarith)]; linarith
    obtain ⟨N, hNeq, hNabs, -, hNerr⟩ :=
      round64_bounds (a / 2) 0 (by norm_num) (by norm_num) habs2
    rw [pow2_zero] at hNabs habs2
    refine ⟨N, ?_, hNabs, ?_⟩
    · rw [haeq]
      have : Double.div (.fin a) (.fin 2) = round64 (a / 2) := by
        unfold Double.div
        simp
      rw [this, hNeq]
    · have h1 : |a - s| ≤ 2 / 2 ^ 53 + 1 / 2 ^ 100 := by
        have : s / 2 ^ 53 ≤ 2 / 2 ^ 53 := div_le_div_of_nonneg_right hs2 (by positivity)
        linarith
      have h2 : |N - a / 2| ≤ 1 / 2 ^ 53 + 1 / 2 ^ 100 := by
        have : |a / 2| / 2 ^ 53 ≤ 1 / 2 ^ 53 :=
          div_le_div_of_nonneg_right habs2 (by positivity)
        linarith
      have h1 := abs_le.mp h1
      have h2 := abs_le.mp h2
      rw [abs_le]
      constructor <;> linarith [h1.1, h1.2, h2.1, h2.2]
  obtain ⟨N0, h0eq, h0abs, h0err⟩ := key (1 + -r) (by linarith) (by linarith)
  obtain ⟨N1, h1eq, h1abs, h1err⟩ := key (1 + r) (by linarith) (by linarith)
  refine ⟨N0, N1, ?_, h0abs, h1abs, ?_, h1err⟩
  · unfold Mesh.shapeFunctionValues
    have e0 : Double.sub (.fin 1) (.fin r) = round64 (1 + -r) := rfl
    have e1 : Double.add (.fin 1) (.fin r) = round64 (1 + r) := rfl
    rw [e0, e1, h0eq, h1eq]
  · rw [← sub_eq_add_neg] at h0err
    exact h0err

/-- The double combination `d1 * N0 + d2 * N1` of two nodal values with weights of
magnitude at most 1. -/
theorem combine_spec (d1 d2 N0 N1 : ℚ) (hd1 : |d1| ≤ 2 ^ 1000) (hd2 : |d2| ≤ 2 ^ 1000)
    (hN0 : |N0| ≤ 1) (hN1 : |N1| ≤ 1) :
    ∃ v : ℚ, Double.add (Double.mul (.fin d1) (.fin N0)) (Double.mul (.fin d2) (.fin N1))
          = .fin v
      ∧ |v - (d1 * N0 + d2 * N1)| ≤ (|d1| + |d2|) * (3 / 2 ^ 53) + 4 * pow2 (-1075) := by
  have heta := pow2_neg1075_tiny
  have hetapos : 0 < pow2 (-1075) := pow2_pos _
  have prod : ∀ d N : ℚ, |d| ≤ 2 ^ 1000 → |N| ≤ 1 →
      ∃ p : ℚ, round64 (d * N) = .fin p ∧ |p - d * N| ≤ |d| / 2 ^ 53 + pow2 (-1075) := by
    intro d N hd hN
    have hdn : |d * N| ≤ |d| := by
      rw [abs_mul]
      calc |d| * |N| ≤ |d| * 1 := mul_le_mul_of_nonneg_left hN (abs_nonneg d)
        _ = |d| := mul_one _
    obtain ⟨p, hp, hperr⟩ := round64_general (d * N)
      (le_trans hdn (le_trans hd (by norm_num)))
    refine ⟨p, hp, ?_⟩
    have : |d * N| / 2 ^ 53 ≤ |d| / 2 ^ 53 := div_le_div_of_nonneg_right hdn (by positivity)
    linarith
  obtain ⟨p1, hp1, hp1err⟩ := prod d1 N0 hd1 hN0
  obtain ⟨p2, hp2, hp2err⟩ := prod d2 N1 hd2 hN1
  have hdn1 : |d1 * N0| ≤ |d1| := by
    rw [abs_mul]
    calc |d1| * |N0| ≤ |d1| * 1 := mul_le_mul_of_nonneg_left hN0 (abs_nonneg d1)
      _ = |d1| := mul_one _
  have hdn2 : |d2 * N1| ≤ |d2| := by
    rw [abs_mul]
    calc |d2| * |N1| ≤ |d2| * 1 := mul_le_mul_of_nonneg_left hN1 (abs_nonneg d2)
      _ = |d2| := mul_one _
  have hp1abs : |p1| ≤ |d1| + (|d1| / 2 ^ 53 + pow2 (-1075)) :=
    abs_le_of_sub p1 (d1 * N0) _ _ hp1err hdn1
  have hp2abs : |p2| ≤ |d2| + (|d2| / 2 ^ 53 + pow2 (-1075)) :=
    abs_le_of_sub p2 (d2 * N1) _ _ hp2err hdn2
  have hsum : |p1 + p2| ≤ |p1| + |p2| := abs_add _ _
  have hd1s : |d1| / 2 ^ 53 ≤ |d1| := by
    rw [div_le_iff₀ (by positivity)]
    nlinarith [abs_nonneg d1]
  have hd2s : |d2| / 2 ^ 53 ≤ |d2| := by
    rw [div_le_iff₀ (by positivity)]
    nlinarith [abs_nonneg d2]
  have hbig : |p1 + p2| ≤ 2 ^ 1004 := by
    have h1 : (1 : ℚ) ≤ 2 ^ 1000 := one_le_pow₀ (by norm_num)
    have e : (2 : ℚ) ^ 1004 = 2 ^ 1000 * 16 := by
      rw [show (1004 : ℕ) = 1000 + 4 from rfl, pow_add]
      norm_num
    rw [e]
    linarith
  obtain ⟨v, hv, hverr⟩ := round64_general (p1 + p2) hbig
  refine ⟨v, ?_, ?_⟩
  · have e1 : Double.mul (.fin d1) (.fin N0) = round64 (d1 * N0) := rfl
    have e2 : Double.mul (.fin d2) (.fin N1) = round64 (d2 * N1) := rfl
    rw [e1, e2, hp1, hp2]
    show round64 (p1 + p2) = _
    exact hv
  · have h1 : |p1 + p2| / 2 ^ 53
        ≤ (|d1| + |d2|) * (1 / 2 ^ 53) + (|d1| + |d2|) * (1 / 2 ^ 106)
          + pow2 (-1075) := by
      have hh : |p1 + p2| / 2 ^ 53
          ≤ (|d1| + (|d1| / 2 ^ 53 + pow2 (-1075))
              + (|d2| + (|d2| / 2 ^ 53 + pow2 (-1075)))) / 2 ^ 53 :=
        div_le_div_of_nonneg_right (by linarith) (by positivity)
      have hh2 : (|d1| + (|d1| / 2 ^ 53 + pow2 (-1075))
              + (|d2| + (|d2| / 2 ^ 53 + pow2 (-1075)))) / 2 ^ 53
          = (|d1| + |d2|) * (1 / 2 ^ 53) + (|d1| + |d2|) * (1 / 2 ^ 106)
            + 2 * pow2 (-1075) / 2 ^ 53 := by ring
      have hh3 : 2 * pow2 (-1075) / 2 ^ 53 ≤ pow2 (-1075) := by
        rw [div_le_iff₀ (by positivity)]
        nlinarith
      linarith
    have hsm : (1 : ℚ) / 2 ^ 106 ≤ 1 / 2 ^ 53 := by norm_num
    have hnn : 0 ≤ |d1| + |d2| := add_nonneg (abs_nonneg d1) (abs_nonneg d2)
    have h2 : (|d1| + |d2|) * (1 / 2 ^ 106) ≤ (|d1| + |d2|) * (1 / 2 ^ 53) :=
      mul_le_mul_of_nonneg_left hsm hnn
    have hv2 := abs_le.mp hverr
    have hq1 := abs_le.mp hp1err
    have hq2 := abs_le.mp hp2err
    have e3 : (|d1| + |d2|) * (3 / 2 ^ 53)
        = (|d1| + |d2|) * (1 / 2 ^ 53) + (|d1| + |d2|) * (1 / 2 ^ 53)
          + (|d1| + |d2|) * (1 / 2 ^ 53) := by ring
    have e4 : |d1| / 2 ^ 53 + |d2| / 2 ^ 53 = (|d1| + |d2|) * (1 / 2 ^ 53) := by ring
    rw [abs_le]
    constructor <;> linarith [hv2.1, hv2.2, hq1.1, hq1.2, hq2.1, hq2.2]
/-! ## The element vector and `approxValue` -/

theorem vectorAt_of_lt {α : Type} (v : List α) (i : Int) (h0 : 0 ≤ i)
    (h1 : i.toNat < v.length) : vectorAt v i = .ok (v.get ⟨i.toNat, h1⟩) := by
  unfold vectorAt
  rw [if_pos h0, List.getElem?_eq_getElem h1]
  rfl

/-- The node indices of an initialised element. -/
theorem initializeElement_ind (n : Int) (hn : 1 ≤ n) (hmax : n < INT_MAX)
    (e : Int) (h0 : 0 ≤ e) (h1 : e < n) :
    ∃ el : Element, (Mesh.new n).initializeElement e = .ok el
      ∧ el.ind1 = e ∧ el.ind2 = e + 1 := by
  obtain ⟨c1, c2, w, hc, -⟩ := element_coords_core n hn hmax e h0 h1
  have hwrap : wrapInt (e + 1) = e + 1 :=
    wrapInt_of_range _ (by unfold INT_MIN; omega) (by unfold INT_MAX at *; omega)
  unfold Mesh.initializeElement
  rw [hc]
  simp only [bind, Except.bind, pure, Except.pure]
  exact ⟨_, rfl, rfl, hwrap⟩

/-- In a vector of elements built by `initializeElement` for the ids `0..n-1`, entry
`e` has the node indices `e` and `e + 1`. -/
theorem vectorAt_elements (n : Int) (hn : 1 ≤ n) (hmax : n < INT_MAX)
    (elements : List Element)
    (hel : List.map (fun i : Nat => (Mesh.new n).initializeElement (i : Int))
        (List.range n.toNat) = elements.map Except.ok)
    (e : Int) (h0 : 0 ≤ e) (h1 : e < n) :
    ∃ el : Element, vectorAt elements e = .ok el ∧ el.ind1 = e ∧ el.ind2 = e + 1 := by
  have hlen : elements.length = n.toNat := by
    have := congrArg List.length hel
    simpa using this.symm
  have hi : e.toNat < elements.length := by omega
  have hcast : ((e.toNat : Nat) : Int) = e := Int.toNat_of_nonneg h0
  refine ⟨elements.get ⟨e.toNat, hi⟩, vectorAt_of_lt elements e h0 hi, ?_⟩
  have hget := congrArg (fun l => l[e.toNat]?) hel
  simp only [List.getElem?_map, List.getElem?_range (by omega : e.toNat < n.toNat),
    List.getElem?_eq_getElem hi, Option.map_some', hcast] at hget
  obtain ⟨el, hel1, hi1, hi2⟩ := initializeElement_ind n hn hmax e h0 h1
  rw [hel1] at hget
  have h2 := Except.ok.inj (Option.some.inj hget)
  have h3 : elements.get ⟨e.toNat, hi⟩ = elements[e.toNat] := rfl
  rw [h3, ← h2]
  exact ⟨hi1, hi2⟩

/-- The value of `approxValue` once every step of it is known. -/
theorem approxValue_eval (m : Mesh) (x ref : Double) (d : List Double)
    (elements : List Element) (e : Int) (el : Element) (d1 d2 : Double)
    (hloc : m.locateX x = .ok e) (hmap : m.mapGlobalToLocalFrame x e = .ok ref)
    (hel : vectorAt elements e = .ok el) (hi1 : el.ind1 = e) (hi2 : el.ind2 = e + 1)
    (hd1 : vectorAt d e = .ok d1) (hd2 : vectorAt d (e + 1) = .ok d2) :
    m.approxValue x d elements
      = .ok (Double.add (Double.mul d1 (m.shapeFunctionValues ref).1)
          (Double.mul d2 (m.shapeFunctionValues ref).2)) := by
  unfold Mesh.approxValue
  rw [hloc]
  simp only [bind, Except.bind]
  rw [hmap]
  simp only [hel, hi1, hi2, hd1, hd2]
  rfl

/-- With the floor of the double quotient as element, `mapGlobalToLocalFrame` passes
both assertions and returns the double `(q1 - e) * 2. - 1.`. -/
theorem mapGlobalToLocalFrame_floor (n : Int) (w : ℚ)
    (hw : (Mesh.new n).d_element_width = .fin w) (x q1 r : ℚ)
    (hq1 : Double.div (.fin x) (.fin w) = .fin q1)
    (hr : Double.sub (Double.mul (Double.sub (.fin q1) (Double.ofInt ⌊q1⌋)) (.fin 2))
          (.fin 1) = .fin r)
    (hr0 : -1 ≤ r) (hr1 : r ≤ 1) :
    (Mesh.new n).mapGlobalToLocalFrame (.fin x) ⌊q1⌋ = .ok (.fin r) := by
  unfold Mesh.mapGlobalToLocalFrame
  rw [hw, hq1, hr]
  have hentry : Double.eq (Double.ofInt ⌊q1⌋) (Double.floor (.fin q1)) = true := by
    unfold Double.eq Double.ofInt Double.floor
    simp
  have hle1 : Double.le (.fin (-1)) (.fin r) = true := by
    unfold Double.le
    simpa using hr0
  have hle2 : Double.le (.fin r) (.fin 1) = true := by
    unfold Double.le
    simpa using hr1
  rw [if_pos (Or.inl hentry)]
  simp only [hle1, hle2, and_self, if_true]

/-- Error of `approxValue` on `[0, 1 - 2^-50]`: no assertion fires, and the value
returned is within `(|d1| + |d2|) (5 n + 9) / 2^53 + 2^-1073` of the linear
interpolant of the two nodal values of the located element. -/
theorem approxValue_error (n : Int) (hn : 1 ≤ n) (hmax : n < INT_MAX) (d : List Double)
    (hd : ∀ j : Int, 0 ≤ j → j ≤ n →
      ∃ q : ℚ, vectorAt d j = .ok (.fin q) ∧ |q| ≤ 2 ^ 1000)
    (elements : List Element)
    (hel : List.map (fun i : Nat => (Mesh.new n).initializeElement (i : Int))
        (List.range n.toNat) = elements.map Except.ok)
    (x : ℚ) (hx0 : 0 ≤ x) (hx1 : x ≤ 1 - 1 / 2 ^ 50) :
    ∃ (e : Int) (q1 r d1 d2 v : ℚ),
      (Mesh.new n).locateX (.fin x) = .ok e ∧ 0 ≤ e ∧ e < n
        ∧ (e : ℚ) ≤ q1 ∧ q1 < (e : ℚ) + 1 ∧ |q1 - (n : ℚ) * x| ≤ 5 * (n : ℚ) / 2 ^ 53
        ∧ (Mesh.new n).mapGlobalToLocalFrame (.fin x) e = .ok (.fin r)
        ∧ vectorAt d e = .ok (.fin d1) ∧ vectorAt d (e + 1) = .ok (.fin d2)
        ∧ (Mesh.new n).approxValue (.fin x) d elements
            = .ok (Double.add
                (Double.mul (.fin d1) ((Mesh.new n).shapeFunctionValues (.fin r)).1)
                (Double.mul (.fin d2) ((Mesh.new n).shapeFunctionValues (.fin r)).2))
        ∧ (Mesh.new n).approxValue (.fin x) d elements = .ok (.fin v)
        ∧ |v - (d1 * ((e : ℚ) + 1 - (n : ℚ) * x) + d2 * ((n : ℚ) * x - (e : ℚ)))|
            ≤ (|d1| + |d2|) * ((5 * (n : ℚ) + 9) / 2 ^ 53) + 1 / 2 ^ 1073 := by
  have hmax2 : n ≤ INT_MAX := le_of_lt hmax
  obtain ⟨hn1, hn2⟩ := cast_bounds n hn hmax2
  obtain ⟨w, hw, -, hlo, hhi, hwpos⟩ := width_spec n hn hmax2
  have hx1b : x ≤ 1 := by
    have : (0 : ℚ) ≤ 1 / 2 ^ 50 := by positivity
    linarith
  have hxne : x ≠ 1 := by
    intro h
    rw [h] at hx1
    norm_num at hx1
  obtain ⟨q1, hq1, hq1nn, hq1n, -⟩ := quotient_spec n hn hmax2 w hlo hhi hwpos x hx0 hx1b
  have hfl0 : 0 ≤ ⌊q1⌋ := Int.floor_nonneg.mpr hq1nn
  have hq1lt : q1 < (n : ℚ) := by
    have h1 := (abs_le.mp hq1n).2
    have h2 : (n : ℚ) * x ≤ (n : ℚ) * (1 - 1 / 2 ^ 50) :=
      mul_le_mul_of_nonneg_left hx1 (by linarith)
    have e3 : (n : ℚ) * (1 - 1 / 2 ^ 50) = (n : ℚ) - 8 * (n : ℚ) / 2 ^ 53 := by ring
    have h4 : 0 < (n : ℚ) / 2 ^ 53 := by positivity
    have e5 : 8 * (n : ℚ) / 2 ^ 53 = 5 * (n : ℚ) / 2 ^ 53 + 3 * ((n : ℚ) / 2 ^ 53) := by ring
    linarith
  have hfln : ⌊q1⌋ < n := Int.floor_lt.mpr hq1lt
  have hloc : (Mesh.new n).locateX (.fin x) = .ok ⌊q1⌋ := by
    rw [locateX_floor n hn hmax2 w hw x q1 hxne hq1 hq1nn hq1n hx1b, if_pos hfln]
  obtain ⟨r, hr, hr0, hr1, hrerr⟩ := frame_spec q1 hq1nn
  have hmap := mapGlobalToLocalFrame_floor n w hw x q1 r hq1 hr hr0 hr1
  obtain ⟨N0, N1, hshape, hN0, hN1, hN0err, hN1err⟩ := shape_spec (Mesh.new n) r hr0 hr1
  obtain ⟨el, hel1, hi1, hi2⟩ := vectorAt_elements n hn hmax elements hel ⌊q1⌋ hfl0 hfln
  obtain ⟨d1, hd1, hd1b⟩ := hd ⌊q1⌋ hfl0 (le_of_lt hfln)
  obtain ⟨d2, hd2, hd2b⟩ := hd (⌊q1⌋ + 1) (by omega) (by omega)
  obtain ⟨v, hv, hverr⟩ := combine_spec d1 d2 N0 N1 hd1b hd2b hN0 hN1
  have heval := approxValue_eval (Mesh.new n) (.fin x) (.fin r) d elements ⌊q1⌋ el
    (.fin d1) (.fin d2) hloc hmap hel1 hi1 hi2 hd1 hd2
  have heval2 : (Mesh.new n).approxValue (.fin x) d elements = .ok (.fin v) := by
    rw [heval, hshape, hv]
  refine ⟨⌊q1⌋, q1, r, d1, d2, v, hloc, hfl0, hfln, Int.floor_le q1, Int.lt_floor_add_one q1,
    hq1n, hmap, hd1, hd2, heval, heval2, ?_⟩
  -- the error estimate
  have hr2 := abs_le.mp hrerr
  have hq2 := abs_le.mp hq1n
  have hA0 := abs_le.mp hN0err
  have hA1 := abs_le.mp hN1err
  have hB0 : |N0 - (((⌊q1⌋ : Int) : ℚ) + 1 - (n : ℚ) * x)|
      ≤ (5 * (n : ℚ) + 6) / 2 ^ 53 := by
    have e : (5 * (n : ℚ) + 6) / 2 ^ 53 = 5 * (n : ℚ) / 2 ^ 53 + 3 / 2 ^ 53
        + (6 / 2 ^ 53) / 2 := by ring
    rw [abs_le]
    constructor <;> linarith [hr2.1, hr2.2, hq2.1, hq2.2, hA0.1, hA0.2]
  have hB1 : |N1 - ((n : ℚ) * x - ((⌊q1⌋ : Int) : ℚ))|
      ≤ (5 * (n : ℚ) + 6) / 2 ^ 53 := by
    have e : (5 * (n : ℚ) + 6) / 2 ^ 53 = 5 * (n : ℚ) / 2 ^ 53 + 3 / 2 ^ 53
        + (6 / 2 ^ 53) / 2 := by ring
    rw [abs_le]
    constructor <;> linarith [hr2.1, hr2.2, hq2.1, hq2.2, hA1.1, hA1.2]
  have hC0 : |d1 * (N0 - (((⌊q1⌋ : Int) : ℚ) + 1 - (n : ℚ) * x))|
      ≤ |d1| * ((5 * (n : ℚ) + 6) / 2 ^ 53) := by
    rw [abs_mul]
    exact mul_le_mul_of_nonneg_left hB0 (abs_nonneg d1)
  have hC1 : |d2 * (N1 - ((n : ℚ) * x - ((⌊q1⌋ : Int) : ℚ)))|
      ≤ |d2| * ((5 * (n : ℚ) + 6) / 2 ^ 53) := by
    rw [abs_mul]
    exact mul_le_mul_of_nonneg_left hB1 (abs_nonneg d2)
  have hsplit : v - (d1 * (((⌊q1⌋ : Int) : ℚ) + 1 - (n : ℚ) * x)
        + d2 * ((n : ℚ) * x - ((⌊q1⌋ : Int) : ℚ)))
      = (v - (d1 * N0 + d2 * N1))
        + d1 * (N0 - (((⌊q1⌋ : Int) : ℚ) + 1 - (n : ℚ) * x))
        + d2 * (N1 - ((n : ℚ) * x - ((⌊q1⌋ : Int) : ℚ))) := by ring
  have hD0 := abs_le.mp hC0
  have hD1 := abs_le.mp hC1
  have hV := abs_le.mp hverr
  have hnn : 0 ≤ |d1| + |d2| := add_nonneg (abs_nonneg d1) (abs_nonneg d2)
  have hfin : (|d1| + |d2|) * (3 / 2 ^ 53) + |d1| * ((5 * (n : ℚ) + 6) / 2 ^ 53)
      + |d2| * ((5 * (n : ℚ) + 6) / 2 ^ 53)
      = (|d1| + |d2|) * ((5 * (n : ℚ) + 9) / 2 ^ 53) := by ring
  have h4 := pow2_neg1073
  rw [hsplit, abs_le]
  constructor <;> linarith [hD0.1, hD0.2, hD1.1, hD1.2, hV.1, hV.2]
/-- The exact quotient `x / w` is within `2 n / 2^53` of `n x`. -/
theorem exact_quotient (n w x : ℚ) (hn : 1 ≤ n) (hlo : (1 - 1 / 2 ^ 53) ≤ n * w)
    (hhi : n * w ≤ 1 + 1 / 2 ^ 53) (hwpos : 0 < w) (hx0 : 0 ≤ x) (hx1 : x ≤ 1) :
    |x / w - n * x| ≤ 2 * n / 2 ^ 53 := by
  have hwne : w ≠ 0 := hwpos.ne'
  have hy0 : 0 ≤ x / w := div_nonneg hx0 hwpos.le
  have hyw : x / w * w = x := div_mul_cancel₀ x hwne
  have hA : x / w * (1 - 1 / 2 ^ 53) ≤ n * x := by
    have := mul_le_mul_of_nonneg_left hlo hy0
    have e : x / w * (n * w) = n * (x / w * w) := by ring
    rw [e, hyw] at this
    exact this
  have hB : n * x ≤ x / w * (1 + 1 / 2 ^ 53) := by
    have := mul_le_mul_of_nonneg_left hhi hy0
    have e : x / w * (n * w) = n * (x / w * w) := by ring
    rw [e, hyw] at this
    exact this
  have hnx : n * x ≤ n := by nlinarith
  have hy2 : x / w ≤ 2 * n := by linarith
  have h3 : x / w / 2 ^ 53 ≤ 2 * n / 2 ^ 53 :=
    div_le_div_of_nonneg_right hy2 (by positivity)
  rw [abs_le]
  constructor <;> linarith

/-- A coordinate `c` within relative error `2^-53` of `k w`, divided by `w`. -/
theorem div_width (w c k : ℚ) (hwpos : 0 < w) (h : |c - k * w| ≤ k * w / 2 ^ 53) :
    |c / w - k| ≤ k / 2 ^ 53 := by
  have hwne : w ≠ 0 := hwpos.ne'
  have e : c / w - k = (c - k * w) / w := by
    field_simp
    ring
  rw [e, abs_div, abs_of_pos hwpos, div_le_iff₀ hwpos]
  have : k / 2 ^ 53 * w = k * w / 2 ^ 53 := by ring
  rw [this]
  exact h

/-- A vector of elements built by `initializeElement` exists for every mesh with
`1 ≤ n < INT_MAX` elements. -/
theorem built_exists (n : Int) (hn : 1 ≤ n) (hmax : n < INT_MAX) :
    ∃ elements : List Element,
      List.map (fun i : Nat => (Mesh.new n).initializeElement (i : Int))
        (List.range n.toNat) = elements.map Except.ok := by
  refine ⟨(List.range n.toNat).map (fun i : Nat =>
    match (Mesh.new n).initializeElement (i : Int) with
    | .ok el => el
    | .error _ => ⟨0, .nan, .nan, 0, 0, fun _ _ => .nan⟩), ?_⟩
  rw [List.map_map]
  apply List.map_congr_left
  intro i hi
  have hi2 : i < n.toNat := List.mem_range.mp hi
  obtain ⟨el, hel, -⟩ := initializeElement_ind n hn hmax (i : Int) (by omega) (by omega)
  simp only [Function.comp, hel]

/-- The two elements of the mesh with two elements. -/
theorem built_two_elements :
    List.map (fun i : Nat => (Mesh.new 2).initializeElement (i : Int))
        (List.range (2 : Int).toNat)
      = List.map Except.ok
        [{ id := 0, n1 := .fin 0, n2 := .fin (1 / 2), ind1 := 0, ind2 := 1,
           k := ![![.fin 2, .fin (-2)], ![.fin (-2), .fin 2]] },
         { id := 1, n1 := .fin (1 / 2), n2 := .fin 1, ind1 := 1, ind2 := 2,
           k := ![![.fin 2, .fin 0], ![.fin 0, .fin 0]] }] := by
  have h2 : (2 : Int).toNat = 2 := rfl
  have c0 : (Mesh.new 2).elementCoordinates 0 = .ok (.fin 0, .fin (1 / 2)) := by decide!
  have c1 : (Mesh.new 2).elementCoordinates 1 = .ok (.fin (1 / 2), .fin 1) := by decide!
  have w1 : wrapInt (0 + 1) = 1 := by decide
  have w2 : wrapInt (1 + 1) = 2 := by decide
  have a1 : Double.sub (.fin (1 / 2)) (.fin 0) = .fin (1 / 2) := by decide!
  have a2 : Double.sub (.fin 1) (.fin (1 / 2)) = .fin (1 / 2) := by decide!
  have a3 : Double.eq (.fin (1 / 2)) (.fin 1) = false := by decide!
  have a4 : Double.eq (.fin 1) (.fin 1) = true := by decide!
  have a5 : Double.div (.fin 1) (.fin (1 / 2)) = .fin 2 := by decide!
  have a6 : Double.div (Double.neg (.fin 1)) (.fin (1 / 2)) = .fin (-2) := by decide!
  have a7 : Double.div (Double.neg (.fin 0)) (.fin (1 / 2)) = .fin 0 := by decide!
  have a8 : Double.div (.fin 0) (.fin (1 / 2)) = .fin 0 := by decide!
  have e0 : (Mesh.new 2).initializeElement 0
      = .ok { id := 0, n1 := .fin 0, n2 := .fin (1 / 2), ind1 := 0, ind2 := 1,
              k := ![![.fin 2, .fin (-2)], ![.fin (-2), .fin 2]] } := by
    unfold Mesh.initializeElement
    rw [c0]
    simp only [bind, Except.bind, pure, Except.pure, w1, a1, a3, a5, a6, Bool.false_eq_true,
      if_false]
  have e1 : (Mesh.new 2).initializeElement 1
      = .ok { id := 1, n1 := .fin (1 / 2), n2 := .fin 1, ind1 := 1, ind2 := 2,
              k := ![![.fin 2, .fin 0], ![.fin 0, .fin 0]] } := by
    unfold Mesh.initializeElement
    rw [c1]
    simp only [bind, Except.bind, pure, Except.pure, w2, a2, a4, a5, a7, a8, if_true]
  simp only [h2, List.range_succ, List.range_zero, List.nil_append, List.map_cons,
    List.map_nil, List.cons_append, Nat.cast_zero, Nat.cast_one]
  rw [e0, e1]

/-- The shape functions at the two ends of the reference element. -/
theorem shape_at_ends (m : Mesh) :
    m.shapeFunctionValues (.fin (-1)) = (.fin 1, .fin 0)
      ∧ m.shapeFunctionValues (.fin 1) = (.fin 0, .fin 1) := by
  have a1 : Double.div (Double.sub (.fin 1) (.fin (-1))) (.fin 2) = .fin 1 := by decide!
  have a2 : Double.div (Double.add (.fin 1) (.fin (-1))) (.fin 2) = .fin 0 := by decide!
  have a3 : Double.div (Double.sub (.fin 1) (.fin 1)) (.fin 2) = .fin 0 := by decide!
  have a4 : Double.div (Double.add (.fin 1) (.fin 1)) (.fin 2) = .fin 1 := by decide!
  unfold Mesh.shapeFunctionValues
  rw [a1, a2, a3, a4]
  exact ⟨rfl, rfl⟩
/-- The coordinate `c` of a node `i < n`: in `[0, 1 - 2^-50]`, and `n c` is within
`3 n / 2^53` of `i`. -/
theorem node_scaled (n w c i : ℚ) (hn1 : 1 ≤ n) (hi0 : 0 ≤ i) (hi1 : i + 1 ≤ n)
    (hlo : (1 - 1 / 2 ^ 53) ≤ n * w) (hhi : n * w ≤ 1 + 1 / 2 ^ 53) (hwpos : 0 < w)
    (hwlow : 1 / 2 ^ 32 ≤ w) (hcerr : |c - i * w| ≤ i * w / 2 ^ 53) :
    0 ≤ c ∧ c ≤ 1 - 1 / 2 ^ 50 ∧ |n * c - i| ≤ 3 * n / 2 ^ 53 := by
  have hC := abs_le.mp hcerr
  have hiw0 : 0 ≤ i * w := mul_nonneg hi0 hwpos.le
  have hiw : i * w ≤ n * w - w := by nlinarith
  have hiw1 : i * w ≤ 1 := by
    have : (1 : ℚ) / 2 ^ 53 ≤ 1 / 2 ^ 32 := by norm_num
    linarith
  have hs : i * w / 2 ^ 53 ≤ 1 / 2 ^ 53 :=
    div_le_div_of_nonneg_right hiw1 (by positivity)
  have hs0 : i * w / 2 ^ 53 ≤ i * w := by
    rw [div_le_iff₀ (by positivity)]
    nlinarith
  refine ⟨by linarith, ?_, ?_⟩
  · have : (2 : ℚ) * (1 / 2 ^ 53) + 1 / 2 ^ 50 ≤ 1 / 2 ^ 32 := by norm_num
    linarith
  · have h1 : |n * (c - i * w)| ≤ n * (i * w / 2 ^ 53) := by
      rw [abs_mul, abs_of_nonneg (by linarith : (0 : ℚ) ≤ n)]
      exact mul_le_mul_of_nonneg_left hcerr (by linarith)
    have h2 : n * (i * w / 2 ^ 53) ≤ 2 * n / 2 ^ 53 := by
      have e : n * (i * w / 2 ^ 53) = i * (n * w) / 2 ^ 53 := by ring
      rw [e]
      apply div_le_div_of_nonneg_right _ (by positivity)
      have : i * (n * w) ≤ i * 2 := mul_le_mul_of_nonneg_left (by linarith) hi0
      linarith
    have h3 : |i * (n * w - 1)| ≤ n / 2 ^ 53 := by
      rw [abs_mul, abs_of_nonneg hi0]
      have h4 : |n * w - 1| ≤ 1 / 2 ^ 53 := by
        rw [abs_le]; constructor <;> linarith
      have h5 : i * |n * w - 1| ≤ i * (1 / 2 ^ 53) := mul_le_mul_of_nonneg_left h4 hi0
      have h6 : i * (1 / 2 ^ 53) ≤ n * (1 / 2 ^ 53) :=
        mul_le_mul_of_nonneg_right (by linarith) (by positivity)
      have e : n * (1 / 2 ^ 53) = n / 2 ^ 53 := by ring
      linarith
    have e : n * c - i = n * (c - i * w) + i * (n * w - 1) := by ring
    have h1 := abs_le.mp (le_trans h1 h2)
    have h3 := abs_le.mp h3
    have e3 : 3 * n / 2 ^ 53 = 2 * n / 2 ^ 53 + n / 2 ^ 53 := by ring
    rw [e, abs_le]
    constructor <;> linarith [h1.1, h1.2, h3.1, h3.2]

/-- A value near the interpolant `d1 (1 - t) + d2 t` with `t` near 0 is near `d1`. -/
theorem interp_near_left (v d1 d2 t a b η : ℚ)
    (h : |v - (d1 * (1 - t) + d2 * t)| ≤ (|d1| + |d2|) * a + η) (ht : |t| ≤ b) :
    |v - d1| ≤ (|d1| + |d2|) * (a + b) + η := by
  have hnn : 0 ≤ |d1| + |d2| := add_nonneg (abs_nonneg d1) (abs_nonneg d2)
  have hdiff : |d2 - d1| ≤ |d1| + |d2| := by
    have h1 : |d2 - d1| ≤ |d2| + |d1| := abs_sub d2 d1
    linarith
  have hprod : |(d2 - d1) * t| ≤ (|d1| + |d2|) * b := by
    rw [abs_mul]
    exact mul_le_mul hdiff ht (abs_nonneg _) hnn
  have hsplit : v - d1 = (v - (d1 * (1 - t) + d2 * t)) + (d2 - d1) * t := by ring
  have hE := abs_le.mp h
  have hP := abs_le.mp hprod
  have e : (|d1| + |d2|) * (a + b) = (|d1| + |d2|) * a + (|d1| + |d2|) * b := by ring
  rw [hsplit, e, abs_le]
  constructor <;> linarith [hE.1, hE.2, hP.1, hP.2]

/-- A value near the interpolant `d1 (1 - t) + d2 t` with `t` near 1 is near `d2`. -/
theorem interp_near_right (v d1 d2 t a b η : ℚ)
    (h : |v - (d1 * (1 - t) + d2 * t)| ≤ (|d1| + |d2|) * a + η) (ht : |1 - t| ≤ b) :
    |v - d2| ≤ (|d1| + |d2|) * (a + b) + η := by
  have hnn : 0 ≤ |d1| + |d2| := add_nonneg (abs_nonneg d1) (abs_nonneg d2)
  have hdiff : |d1 - d2| ≤ |d1| + |d2| := abs_sub d1 d2
  have hprod : |(d1 - d2) * (1 - t)| ≤ (|d1| + |d2|) * b := by
    rw [abs_mul]
    exact mul_le_mul hdiff ht (abs_nonneg _) hnn
  have hsplit : v - d2 = (v - (d1 * (1 - t) + d2 * t)) + (d1 - d2) * (1 - t) := by ring
  have hE := abs_le.mp h
  have hP := abs_le.mp hprod
  have e : (|d1| + |d2|) * (a + b) = (|d1| + |d2|) * a + (|d1| + |d2|) * b := by ring
  rw [hsplit, e, abs_le]
  constructor <;> linarith [hE.1, hE.2, hP.1, hP.2]

/-- The tolerance of the nodal value in terms of a bound `D` on the nodal values. -/
theorem nodal_tolerance (d1 d2 D n : ℚ) (h1 : |d1| ≤ D) (h2 : |d2| ≤ D) (hn : 0 ≤ n) :
    (|d1| + |d2|) * ((5 * n + 9) / 2 ^ 53 + 3 * n / 2 ^ 53) ≤ D * (n + 2) / 2 ^ 49 := by
  have hD0 : 0 ≤ D := le_trans (abs_nonneg d1) h1
  have e : (5 * n + 9) / 2 ^ 53 + 3 * n / 2 ^ 53 = (8 * n + 9) / 2 ^ 53 := by ring
  rw [e]
  have h3 : (|d1| + |d2|) * ((8 * n + 9) / 2 ^ 53) ≤ (2 * D) * ((8 * n + 9) / 2 ^ 53) :=
    mul_le_mul_of_nonneg_right (by linarith) (by positivity)
  have e2 : D * (n + 2) / 2 ^ 49 - (2 * D) * ((8 * n + 9) / 2 ^ 53) = D * (14 / 2 ^ 53) := by
    ring
  have : 0 ≤ D * (14 / 2 ^ 53) := mul_nonneg hD0 (by positivity)
  linarith
/-- The double difference `n2 - n1` of the endpoints of an element: finite, within
`2^-51` of the width, and at least `2^-33`. -/
theorem coords_diff (n w c1 c2 e : ℚ) (hn1 : 1 ≤ n) (_he : 0 ≤ e) (hen : e + 1 ≤ n)
    (hwpos : 0 < w) (hhi : n * w ≤ 1 + 1 / 2 ^ 53) (hwlow : 1 / 2 ^ 32 ≤ w)
    (h1 : |c1 - e * w| ≤ e * w / 2 ^ 53)
    (h2 : |c2 - (e + 1) * w| ≤ (e + 1) * w / 2 ^ 53) :
    ∃ h : ℚ, Double.sub (.fin c2) (.fin c1) = .fin h ∧ |h - w| ≤ 1 / 2 ^ 51
      ∧ 1 / 2 ^ 33 ≤ h := by
  have heta := pow2_neg1075_tiny
  have h1 := abs_le.mp h1
  have h2 := abs_le.mp h2
  have hew : (2 * e + 1) * w ≤ 2 * (n * w) := by nlinarith
  have hw1 : w ≤ n * w := by nlinarith
  have hsum : e * w / 2 ^ 53 + (e + 1) * w / 2 ^ 53 ≤ 2 * (1 + 1 / 2 ^ 53) / 2 ^ 53 := by
    have e1 : e * w / 2 ^ 53 + (e + 1) * w / 2 ^ 53 = (2 * e + 1) * w / 2 ^ 53 := by ring
    rw [e1]
    exact div_le_div_of_nonneg_right (by linarith) (by positivity)
  have hc : (2 : ℚ) * (1 + 1 / 2 ^ 53) / 2 ^ 53 ≤ 3 / 2 ^ 53 := by norm_num
  have hD : |c2 + -c1| ≤ pow2 1 := by
    rw [pow2_one, abs_le]
    have : (3 : ℚ) / 2 ^ 53 ≤ 1 / 2 := by norm_num
    have : (1 : ℚ) / 2 ^ 53 ≤ 1 / 2 := by norm_num
    constructor <;> linarith
  obtain ⟨h, hh, habs, -, herr⟩ := round64_bounds (c2 + -c1) 1 (by norm_num) (by norm_num) hD
  rw [pow2_one] at hD
  have herr2 : |h - (c2 + -c1)| ≤ 2 / 2 ^ 53 + 1 / 2 ^ 100 := by
    have : |c2 + -c1| / 2 ^ 53 ≤ 2 / 2 ^ 53 := div_le_div_of_nonneg_right hD (by positivity)
    linarith
  have herr3 := abs_le.mp herr2
  -- sharper: |c2 - c1| ≤ w + 3u ≤ 1 + 4u, so the rounding error is at most u + small
  have hDs : |c2 + -c1| ≤ 1 + 4 / 2 ^ 53 := by
    rw [abs_le]
    have : (1 : ℚ) / 2 ^ 53 ≤ 1 := by norm_num
    constructor <;> linarith
  have herr4 : |h - (c2 + -c1)| ≤ (1 + 4 / 2 ^ 53) / 2 ^ 53 + 1 / 2 ^ 100 := by
    have : |c2 + -c1| / 2 ^ 53 ≤ (1 + 4 / 2 ^ 53) / 2 ^ 53 :=
      div_le_div_of_nonneg_right hDs (by positivity)
    linarith
  have herr5 := abs_le.mp herr4
  have hk : (2 : ℚ) * (1 + 1 / 2 ^ 53) / 2 ^ 53 + ((1 + 4 / 2 ^ 53) / 2 ^ 53 + 1 / 2 ^ 100)
      ≤ 1 / 2 ^ 51 := by
    norm_num
  have hfin : |h - w| ≤ 1 / 2 ^ 51 := by
    rw [abs_le]
    constructor <;> linarith
  refine ⟨h, hh, hfin, ?_⟩
  have := (abs_le.mp hfin).1
  have : (1 : ℚ) / 2 ^ 33 + 1 / 2 ^ 51 ≤ 1 / 2 ^ 32 := by norm_num
  linarith

/-- The double quotients `1 / h` and `-1 / h` for a double `h` within `2^-51` of the
width: finite, within `n^2 / 2^49` of `n` and `-n`. -/
theorem inv_diff (n w h s : ℚ) (hn1 : 1 ≤ n) (hn2 : n ≤ 2 ^ 31) (hs : s = 1 ∨ s = -1)
    (hlo : (1 - 1 / 2 ^ 53) ≤ n * w) (hhi : n * w ≤ 1 + 1 / 2 ^ 53)
    (hh : |h - w| ≤ 1 / 2 ^ 51) (hpos : 0 < h) :
    ∃ a : ℚ, Double.div (.fin s) (.fin h) = .fin a ∧ |a - s * n| ≤ n ^ 2 / 2 ^ 49 := by
  have heta := pow2_neg1075_tiny
  have hhne : h ≠ 0 := hpos.ne'
  have hy0 : 0 < 1 / h := by positivity
  have hyh : 1 / h * h = 1 := by field_simp
  have hH := abs_le.mp hh
  -- n h is within (4 n + 1) / 2^53 of 1
  have hnh1 : n * h ≤ 1 + (4 * n + 1) / 2 ^ 53 := by
    have : n * h ≤ n * (w + 1 / 2 ^ 51) := mul_le_mul_of_nonneg_left (by linarith) (by linarith)
    have e : n * (w + 1 / 2 ^ 51) = n * w + 4 * n / 2 ^ 53 := by ring
    have e2 : (4 * n + 1) / 2 ^ 53 = 4 * n / 2 ^ 53 + 1 / 2 ^ 53 := by ring
    linarith
  have hnh0 : 1 - (4 * n + 1) / 2 ^ 53 ≤ n * h := by
    have : n * (w - 1 / 2 ^ 51) ≤ n * h := mul_le_mul_of_nonneg_left (by linarith) (by linarith)
    have e : n * (w - 1 / 2 ^ 51) = n * w - 4 * n / 2 ^ 53 := by ring
    have e2 : (4 * n + 1) / 2 ^ 53 = 4 * n / 2 ^ 53 + 1 / 2 ^ 53 := by ring
    linarith
  have heps : (4 * n + 1) / 2 ^ 53 ≤ 1 / 2 := by
    have : (4 * n + 1) / 2 ^ 53 ≤ (4 * 2 ^ 31 + 1) / 2 ^ 53 :=
      div_le_div_of_nonneg_right (by linarith) (by positivity)
    have : ((4 : ℚ) * 2 ^ 31 + 1) / 2 ^ 53 ≤ 1 / 2 := by norm_num
    linarith
  have hy2 : 1 / h ≤ 2 * n := by
    have h1 : 1 / h * (1 / 2) ≤ 1 / h * (n * h) :=
      mul_le_mul_of_nonneg_left (by linarith) hy0.le
    have e : 1 / h * (n * h) = n * (1 / h * h) := by ring
    rw [e, hyh] at h1
    linarith
  have hyn : |1 / h - n| ≤ 2 * n * ((4 * n + 1) / 2 ^ 53) := by
    have e : 1 / h - n = 1 / h * (1 - n * h) := by
      have : 1 / h * (1 - n * h) = 1 / h - n * (1 / h * h) := by ring
      rw [this, hyh, mul_one]
    have h1 : |1 - n * h| ≤ (4 * n + 1) / 2 ^ 53 := by
      rw [abs_le]; constructor <;> linarith
    rw [e, abs_mul, abs_of_pos hy0]
    exact mul_le_mul hy2 h1 (abs_nonneg _) (by linarith)
  have hsabs : |s / h| = 1 / h := by
    rcases hs with rfl | rfl
    · exact abs_of_pos hy0
    · rw [neg_div, abs_neg]; exact abs_of_pos hy0
  have hbig : |s / h| ≤ 2 ^ 1004 := by
    rw [hsabs]
    have h32 : (2 : ℚ) * 2 ^ 31 ≤ 2 ^ 1004 := by
      have e : (2 : ℚ) ^ 1004 = 2 ^ 32 * 2 ^ 972 := by
        rw [← pow_add]
      have h1 : (1 : ℚ) ≤ 2 ^ 972 := one_le_pow₀ (by norm_num)
      have h2 : (2 : ℚ) * 2 ^ 31 = 2 ^ 32 := by norm_num
      rw [e, h2]
      nlinarith [pow_pos (by norm_num : (0 : ℚ) < 2) 32]
    linarith
  obtain ⟨a, ha, haerr⟩ := round64_general (s / h) hbig
  rw [hsabs] at haerr
  have hdiv : Double.div (.fin s) (.fin h) = round64 (s / h) := by
    unfold Double.div
    simp only [if_neg hhne]
  refine ⟨a, by rw [hdiv, ha], ?_⟩
  have hsy : |s / h - s * n| ≤ 2 * n * ((4 * n + 1) / 2 ^ 53) := by
    rcases hs with rfl | rfl
    · simpa using hyn
    · have e : (-1 : ℚ) / h - -1 * n = -(1 / h - n) := by ring
      rw [e, abs_neg]
      exact hyn
  have h1 : 1 / h / 2 ^ 53 ≤ 2 * n / 2 ^ 53 := div_le_div_of_nonneg_right hy2 (by positivity)
  have hA := abs_le.mp haerr
  have hB := abs_le.mp hsy
  have hnn : n ≤ n ^ 2 := by nlinarith
  have hfin : 2 * n * ((4 * n + 1) / 2 ^ 53) + 2 * n / 2 ^ 53 + 1 / 2 ^ 100
      ≤ n ^ 2 / 2 ^ 49 := by
    have e : n ^ 2 / 2 ^ 49 - (2 * n * ((4 * n + 1) / 2 ^ 53) + 2 * n / 2 ^ 53)
        = (8 * n ^ 2 - 4 * n) / 2 ^ 53 := by ring
    have h2 : (4 : ℚ) / 2 ^ 53 ≤ (8 * n ^ 2 - 4 * n) / 2 ^ 53 :=
      div_le_div_of_nonneg_right (by nlinarith) (by positivity)
    have h3 : (1 : ℚ) / 2 ^ 100 ≤ 4 / 2 ^ 53 := by norm_num
    linarith
  rw [abs_le]
  constructor <;> linarith [hA.1, hA.2, hB.1, hB.2]
/-! ## Claims -/

/-- C10, counterexample: on the mesh with 49 elements the coordinate of node 49 is
`49 * (1./49) = 0.9999999999999999`, not `1`; on the mesh with 10 elements the
coordinate of node 3 is `0.30000000000000004`, not the double `3./10 = 0.3`; and on
the mesh with `INT_MAX` elements, whose node count has overflowed, the query for
node 0 fails the assertion. -/
theorem nodeCoordinate_not_exact :
    (Mesh.new 49).nodeCoordinate 49 = .ok (.fin (9007199254740991 / 9007199254740992))
      ∧ (Mesh.new 49).nodeCoordinate 49 ≠ .ok (.fin 1)
      ∧ (Mesh.new 10).nodeCoordinate 3 = .ok (.fin (1351079888211149 / 4503599627370496))
      ∧ Double.div (.fin 3) (.fin 10) = .fin (5404319552844595 / 18014398509481984)
      ∧ (Mesh.new 10).nodeCoordinate 3 ≠ .ok (Double.div (.fin 3) (.fin 10))
      ∧ (Mesh.new INT_MAX).nodeCoordinate 0 = .error .nodeIdRange := by
  decide!

/-- C10, amended: for every `1 ≤ n < INT_MAX` and every node id in `[0, n]`,
`nodeCoordinate` succeeds with the double product `node_id * element_width`, a finite
value within relative error `2 ^ (-51)` of `node_id / n`; node `0` is at exactly `0`
and node `n` is within `2 ^ (-51)` of `1`. -/
theorem nodeCoordinate_spec (n : Int) (hn : 1 ≤ n) (hmax : n < INT_MAX) (node_id : Int)
    (h0 : 0 ≤ node_id) (h1 : node_id ≤ n) :
    (Mesh.new n).nodeCoordinate node_id
        = .ok (Double.mul (Double.ofInt node_id) (Mesh.new n).getElementWidth)
      ∧ (∃ c : ℚ, (Mesh.new n).nodeCoordinate node_id = .ok (.fin c)
          ∧ |c - (node_id : ℚ) / (n : ℚ)| ≤ (node_id : ℚ) / (n : ℚ) / 2 ^ 51)
      ∧ (Mesh.new n).nodeCoordinate 0 = .ok (.fin 0)
      ∧ (∃ c : ℚ, (Mesh.new n).nodeCoordinate n = .ok (.fin c) ∧ |c - 1| ≤ 1 / 2 ^ 51) := by
  have hmin : INT_MIN ≤ n + 1 := by unfold INT_MIN; omega
  obtain ⟨hn1, -⟩ := cast_bounds n hn hmax.le
  have hnpos : (0 : ℚ) < (n : ℚ) := by linarith
  obtain ⟨w, hw, hwerr, hlo, hhi, -⟩ := width_spec n hn hmax.le
  have key : ∀ i : Int, 0 ≤ i → i ≤ n →
      ∃ c : ℚ, (Mesh.new n).nodeCoordinate i = .ok (.fin c)
        ∧ |c - (i : ℚ) / (n : ℚ)| ≤ (i : ℚ) / (n : ℚ) / 2 ^ 51 := by
    intro i hi0 hi
    obtain ⟨c, hc, hcerr⟩ := node_product n hn hmax.le w hlo hhi i hi0 hi
    refine ⟨c, ?_, node_tolerance (n : ℚ) hnpos (i : ℚ) w c (by exact_mod_cast hi0) hwerr hcerr⟩
    rw [nodeCoordinate_new n i hmin hmax hi, hw, hc]
  refine ⟨nodeCoordinate_new n node_id hmin hmax h1, key node_id h0 h1, ?_, ?_⟩
  · obtain ⟨c, hc, hcerr⟩ := key 0 (le_refl 0) (by omega)
    have : c = 0 := by
      simp only [Int.cast_zero, zero_div, sub_zero] at hcerr
      exact abs_eq_zero.mp (le_antisymm hcerr (abs_nonneg c))
    rw [hc, this]
  · obtain ⟨c, hc, hcerr⟩ := key n (by omega) (le_refl n)
    rw [div_self hnpos.ne'] at hcerr
    exact ⟨c, hc, hcerr⟩

/-- Witness of C10 amended on the mesh with four elements, at node 3. -/
theorem nodeCoordinate_spec_witness :
    (Mesh.new 4).nodeCoordinate 3
        = .ok (Double.mul (Double.ofInt 3) (Mesh.new 4).getElementWidth)
      ∧ (∃ c : ℚ, (Mesh.new 4).nodeCoordinate 3 = .ok (.fin c)
          ∧ |c - ((3 : Int) : ℚ) / ((4 : Int) : ℚ)| ≤ ((3 : Int) : ℚ) / ((4 : Int) : ℚ) / 2 ^ 51)
      ∧ (Mesh.new 4).nodeCoordinate 0 = .ok (.fin 0)
      ∧ (∃ c : ℚ, (Mesh.new 4).nodeCoordinate 4 = .ok (.fin c) ∧ |c - 1| ≤ 1 / 2 ^ 51) :=
  nodeCoordinate_spec 4 (by decide) (by decide) 3 (by decide) (by decide)

/-- C9, counterexample: on the mesh with 10 elements `elementCoordinates(2)` returns
`(0.2, 0.30000000000000004)`; its right end is not the double `3./10 = 0.3`, and the
two coordinates differ by `0.10000000000000003`, not by the width `0.1`; on the mesh
with `INT_MAX` elements, whose node count has overflowed, the query for element 0
fails the assertion of `nodeCoordinate`. -/
theorem elementCoordinates_not_exact :
    (Mesh.new 10).elementCoordinates 2
        = .ok (.fin (3602879701896397 / 18014398509481984),
            .fin (1351079888211149 / 4503599627370496))
      ∧ Double.div (.fin 3) (.fin 10) = .fin (5404319552844595 / 18014398509481984)
      ∧ (Mesh.new 10).getElementWidth = .fin (3602879701896397 / 36028797018963968)
      ∧ Double.sub (.fin (1351079888211149 / 4503599627370496))
            (.fin (3602879701896397 / 18014398509481984))
          = .fin (1801439850948199 / 18014398509481984)
      ∧ Double.sub (.fin (1351079888211149 / 4503599627370496))
            (.fin (3602879701896397 / 18014398509481984))
          ≠ (Mesh.new 10).getElementWidth
      ∧ (1351079888211149 / 4503599627370496 : ℚ) - 3602879701896397 / 18014398509481984
          ≠ 3602879701896397 / 36028797018963968
      ∧ (Mesh.new INT_MAX).elementCoordinates 0 = .error .nodeIdRange := by
  decide!

/-- C9, amended: for every `1 ≤ n < INT_MAX` and every element id in `[0, n)`,
`elementCoordinates` succeeds with the double products `element_id * element_width`
and `(element_id + 1) * element_width`, finite values within relative error
`2 ^ (-51)` of `element_id / n` and `(element_id + 1) / n`, and the two coordinates
differ by `getElementWidth()` up to `2 ^ (-51)`, both as the exact difference of the two
doubles and as the double difference. -/
theorem elementCoordinates_spec (n : Int) (hn : 1 ≤ n) (hmax : n < INT_MAX)
    (element_id : Int) (h0 : 0 ≤ element_id) (h1 : element_id < n) :
    (Mesh.new n).elementCoordinates element_id
        = .ok (Double.mul (Double.ofInt element_id) (Mesh.new n).getElementWidth,
            Double.mul (Double.ofInt (element_id + 1)) (Mesh.new n).getElementWidth)
      ∧ ∃ c1 c2 w : ℚ, (Mesh.new n).elementCoordinates element_id = .ok (.fin c1, .fin c2)
          ∧ (Mesh.new n).getElementWidth = .fin w
          ∧ |c1 - (element_id : ℚ) / (n : ℚ)| ≤ (element_id : ℚ) / (n : ℚ) / 2 ^ 51
          ∧ |c2 - ((element_id : ℚ) + 1) / (n : ℚ)|
              ≤ ((element_id : ℚ) + 1) / (n : ℚ) / 2 ^ 51
          ∧ |(c2 - c1) - w| ≤ 1 / 2 ^ 51
          ∧ ∃ h : ℚ, Double.sub (.fin c2) (.fin c1) = .fin h ∧ |h - w| ≤ 1 / 2 ^ 51 := by
  have hmin : INT_MIN ≤ n + 1 := by unfold INT_MIN; omega
  have hemin : INT_MIN ≤ element_id + 1 := by unfold INT_MIN; omega
  obtain ⟨hn1, -⟩ := cast_bounds n hn hmax.le
  have hnpos : (0 : ℚ) < (n : ℚ) := by linarith
  obtain ⟨c1, c2, w, hc, hw, hwerr, hlo, hhi, hwpos, herr1, herr2⟩ :=
    element_coords_core n hn hmax element_id h0 h1
  have he0 : (0 : ℚ) ≤ (element_id : ℚ) := by exact_mod_cast h0
  have hen : (element_id : ℚ) + 1 ≤ (n : ℚ) := by exact_mod_cast (by omega : element_id + 1 ≤ n)
  have hwlo : 1 / 2 ^ 32 ≤ w := width_lower n hn hmax.le w hlo hwpos
  obtain ⟨h, hh, hherr, -⟩ :=
    coords_diff (n : ℚ) w c1 c2 (element_id : ℚ) hn1 he0 hen hwpos hhi hwlo herr1 herr2
  refine ⟨elementCoordinates_new n element_id hmin hmax hemin h1, c1, c2, w, hc, hw, ?_, ?_, ?_,
    h, hh, hherr⟩
  · exact node_tolerance (n : ℚ) hnpos (element_id : ℚ) w c1 he0 hwerr herr1
  · exact node_tolerance (n : ℚ) hnpos ((element_id : ℚ) + 1) w c2 (by linarith) hwerr herr2
  · exact diff_tolerance (n : ℚ) w c1 c2 (element_id : ℚ) he0 hen hwpos hhi herr1 herr2

/-- Witness of C9 amended: on the mesh with four elements, element 2 spans
`(0.5, 0.75)`. -/
theorem elementCoordinates_spec_witness :
    (1 : Int) ≤ 4 ∧ (4 : Int) < INT_MAX ∧ (0 : Int) ≤ 2 ∧ (2 : Int) < 4
      ∧ (Mesh.new 4).elementCoordinates 2 = .ok (.fin (1 / 2), .fin (3 / 4)) := by
  refine ⟨by decide, by decide, by decide, by decide, ?_⟩
  rw [(elementCoordinates_spec 4 (by decide) (by decide) 2 (by decide) (by decide)).1]
  decide!

/-- C8, counterexample: on the mesh with 10 elements, element 2 has
`n1 = 0.2`, `n2 = 0.30000000000000004`, and `n2 - n1 = 0.10000000000000003` is not the
element width `0.1`; on the mesh with `INT_MAX` elements, whose node count has
overflowed, element 0 cannot be initialised. -/
theorem initializeElement_width_not_exact :
    ∃ el : Element, (Mesh.new 10).initializeElement 2 = .ok el
      ∧ el.n1 = .fin (3602879701896397 / 18014398509481984)
      ∧ el.n2 = .fin (1351079888211149 / 4503599627370496)
      ∧ (Mesh.new 10).getElementWidth = .fin (3602879701896397 / 36028797018963968)
      ∧ Double.sub el.n2 el.n1 = .fin (1801439850948199 / 18014398509481984)
      ∧ Double.sub el.n2 el.n1 ≠ (Mesh.new 10).getElementWidth
      ∧ (Mesh.new INT_MAX).initializeElement 0 = .error .nodeIdRange :=
  ⟨_, rfl, by decide!, by decide!, by decide!, by decide!, by decide!, by
    unfold Mesh.initializeElement
    rw [show (Mesh.new INT_MAX).elementCoordinates 0 = .error .nodeIdRange by decide!]
    rfl⟩

/-- C8, amended: for every `1 ≤ n < INT_MAX` and every element id in `[0, n)`,
`initializeElement` produces an element with `id = element_id`, `ind1 = element_id`,
`ind2 = ind1 + 1`, finite endpoints `n1 < n2`, and `n2 - n1` equal to the element
width up to `2 ^ (-51)`, both as the exact difference of the two doubles and as the
double difference. -/
theorem initializeElement_invariants (n : Int) (hn : 1 ≤ n) (hmax : n < INT_MAX)
    (element_id : Int) (h0 : 0 ≤ element_id) (h1 : element_id < n) :
    ∃ (el : Element) (c1 c2 w : ℚ), (Mesh.new n).initializeElement element_id = .ok el
      ∧ el.id = element_id ∧ el.ind1 = element_id ∧ el.ind2 = el.ind1 + 1
      ∧ el.n1 = .fin c1 ∧ el.n2 = .fin c2 ∧ (Mesh.new n).getElementWidth = .fin w
      ∧ c1 < c2 ∧ |(c2 - c1) - w| ≤ 1 / 2 ^ 51
      ∧ ∃ h : ℚ, Double.sub el.n2 el.n1 = .fin h ∧ |h - w| ≤ 1 / 2 ^ 51 := by
  obtain ⟨c1, c2, w, hc, hw, -, hlo, hhi, hwpos, herr1, herr2⟩ :=
    element_coords_core n hn hmax element_id h0 h1
  have he0 : (0 : ℚ) ≤ (element_id : ℚ) := by exact_mod_cast h0
  have hen : (element_id : ℚ) + 1 ≤ (n : ℚ) := by exact_mod_cast (by omega : element_id + 1 ≤ n)
  have hdiff : |(c2 - c1) - w| ≤ 1 / 2 ^ 51 :=
    diff_tolerance (n : ℚ) w c1 c2 (element_id : ℚ) he0 hen hwpos hhi herr1 herr2
  have hwlo : 1 / 2 ^ 32 ≤ w := width_lower n hn hmax.le w hlo hwpos
  have hwrap : wrapInt (element_id + 1) = element_id + 1 :=
    wrapInt_of_range _ (by unfold INT_MIN; omega) (by omega)
  have hlt : c1 < c2 := by
    have := (abs_le.mp hdiff).1
    have : (1 : ℚ) / 2 ^ 51 < 1 / 2 ^ 32 := by norm_num
    linarith
  have hinit : ∃ el : Element, (Mesh.new n).initializeElement element_id = .ok el
      ∧ el.id = element_id ∧ el.ind1 = element_id ∧ el.ind2 = wrapInt (element_id + 1)
      ∧ el.n1 = .fin c1 ∧ el.n2 = .fin c2 := by
    unfold Mesh.initializeElement
    rw [hc]
    exact ⟨_, rfl, rfl, rfl, rfl, rfl, rfl⟩
  obtain ⟨el, he, hid, hi1, hi2, hn1, hn2⟩ := hinit
  obtain ⟨hq1, -⟩ := cast_bounds n hn hmax.le
  obtain ⟨h, hh, hherr, -⟩ :=
    coords_diff (n : ℚ) w c1 c2 (element_id : ℚ) hq1 he0 hen hwpos hhi hwlo herr1 herr2
  refine ⟨el, c1, c2, w, he, hid, hi1, ?_, hn1, hn2, hw, hlt, hdiff, h, ?_, hherr⟩
  · rw [hi2, hi1, hwrap]
  · rw [hn1, hn2, hh]

/-- Witness of C8 amended on the mesh with four elements, at element 3. -/
theorem initializeElement_invariants_witness :
    (1 : Int) ≤ 4 ∧ (4 : Int) < INT_MAX ∧ (0 : Int) ≤ 3 ∧ (3 : Int) < 4
      ∧ ∃ (el : Element) (c1 c2 w : ℚ), (Mesh.new 4).initializeElement 3 = .ok el
          ∧ el.id = 3 ∧ el.ind1 = 3 ∧ el.ind2 = el.ind1 + 1
          ∧ el.n1 = .fin c1 ∧ el.n2 = .fin c2 ∧ (Mesh.new 4).getElementWidth = .fin w
          ∧ c1 < c2 ∧ |(c2 - c1) - w| ≤ 1 / 2 ^ 51
          ∧ ∃ h : ℚ, Double.sub el.n2 el.n1 = .fin h ∧ |h - w| ≤ 1 / 2 ^ 51 :=
  ⟨by decide, by decide, by decide, by decide,
    initializeElement_invariants 4 (by decide) (by decide) 3 (by decide) (by decide)⟩

/-- C11, counterexample: for `n = INT_MAX ≥ 1` the `int` sum `n + 1` overflows and
the mesh reports `totalNumNodes() = INT_MIN = -2147483648`, not `n + 1`. -/
theorem mesh_new_int_max :
    (1 : Int) ≤ INT_MAX
      ∧ (Mesh.new INT_MAX).totalNumNodes = -2147483648
      ∧ (Mesh.new INT_MAX).totalNumNodes ≠ INT_MAX + 1 := by
  decide!

/-- C11, amended: for every `1 ≤ n < INT_MAX`, a mesh constructed with `n` reports
`totalNumNodes() = n + 1`, `totalNumElements() = n` and `getElementWidth() = 1./n`,
the double quotient: a positive finite value within relative error `2 ^ (-53)` of
`1 / n`. -/
theorem mesh_new_accessors (n : Int) (hn : 1 ≤ n) (hmax : n < INT_MAX) :
    (Mesh.new n).totalNumNodes = n + 1
      ∧ (Mesh.new n).totalNumElements = n
      ∧ (Mesh.new n).getElementWidth = Double.div (.fin 1) (Double.ofInt n)
      ∧ ∃ w : ℚ, (Mesh.new n).getElementWidth = .fin w ∧ 0 < w
          ∧ |w - 1 / (n : ℚ)| ≤ 1 / (n : ℚ) / 2 ^ 53 := by
  obtain ⟨w, hw, hwerr, -, -, hwpos⟩ := width_spec n hn hmax.le
  refine ⟨?_, rfl, rfl, w, hw, hwpos, hwerr⟩
  show wrapInt (n + 1) = n + 1
  exact wrapInt_of_range _ (by unfold INT_MIN; omega) (by omega)

/-- Witness of C11 amended: `n = 4` gives five nodes, four elements and width `1/4`. -/
theorem mesh_new_accessors_witness :
    (1 : Int) ≤ 4 ∧ (4 : Int) < INT_MAX
      ∧ (Mesh.new 4).totalNumNodes = 5 ∧ (Mesh.new 4).totalNumElements = 4
      ∧ (Mesh.new 4).getElementWidth = .fin (1 / 4) := by
  obtain ⟨h1, h2, h3, -⟩ := mesh_new_accessors 4 (by decide) (by decide)
  refine ⟨by decide, by decide, ?_, ?_, ?_⟩
  · rw [h1]; rfl
  · rw [h2]
  · rw [h3]; decide!

/-- C14, counterexample: on the mesh with 49 elements the returned pair is
`(-49, 49)` while `1/h = 1/(1./49) = 49.00000000000001`, so the pair is not
`(-1/h, 1/h)`. -/
theorem shapeFunctionDerivatives_not_inverse_width :
    (Mesh.new 49).shapeFunctionDerivatives (.fin 0) = (.fin (-49), .fin 49)
      ∧ Double.div (.fin 1) (Mesh.new 49).getElementWidth
          = .fin (6896136929411073 / 140737488355328)
      ∧ Double.div (.fin (-1)) (Mesh.new 49).getElementWidth
          = .fin (-6896136929411073 / 140737488355328)
      ∧ (Mesh.new 49).shapeFunctionDerivatives (.fin 0)
          ≠ (Double.div (.fin (-1)) (Mesh.new 49).getElementWidth,
              Double.div (.fin 1) (Mesh.new 49).getElementWidth) := by
  decide!

/-- C14, amended: for every `1 ≤ n ≤ INT_MAX` and every `ref_coord`,
`shapeFunctionDerivatives` returns the pair `(-num_elements, num_elements)` converted
to `double`, whatever `ref_coord` is; with `h = getElementWidth()` the quotients
`-1/h` and `1/h` are finite and agree with that pair up to the relative error
`2 ^ (-51)`. -/
theorem shapeFunctionDerivatives_const (n : Int) (hn : 1 ≤ n) (hmax : n ≤ INT_MAX)
    (ref_coord : Double) :
    (Mesh.new n).shapeFunctionDerivatives ref_coord
        = (Double.ofInt (-(Mesh.new n).totalNumElements),
            Double.ofInt (Mesh.new n).totalNumElements)
      ∧ (Mesh.new n).shapeFunctionDerivatives ref_coord = (.fin (-(n : ℚ)), .fin (n : ℚ))
      ∧ (∀ other : Double, (Mesh.new n).shapeFunctionDerivatives other
          = (Mesh.new n).shapeFunctionDerivatives ref_coord)
      ∧ ∃ a b : ℚ, Double.div (.fin (-1)) (Mesh.new n).getElementWidth = .fin a
          ∧ Double.div (.fin 1) (Mesh.new n).getElementWidth = .fin b
          ∧ |a - (-(n : ℚ))| ≤ (n : ℚ) / 2 ^ 51 ∧ |b - (n : ℚ)| ≤ (n : ℚ) / 2 ^ 51 := by
  have hwrap : wrapInt (-n) = -n :=
    wrapInt_of_range _ (by unfold INT_MIN; unfold INT_MAX at hmax; omega)
      (by unfold INT_MAX; omega)
  have hpair : (Mesh.new n).shapeFunctionDerivatives ref_coord
      = (Double.ofInt (-(Mesh.new n).totalNumElements),
          Double.ofInt (Mesh.new n).totalNumElements) := by
    show (Double.ofInt (wrapInt (-n)), Double.ofInt n) = (Double.ofInt (-n), Double.ofInt n)
    rw [hwrap]
  obtain ⟨hn1, hn2⟩ := cast_bounds n hn hmax
  have hnpos : (0 : ℚ) < (n : ℚ) := by linarith
  obtain ⟨w, hw, -, hlo, hhi, hwpos⟩ := width_spec n hn hmax
  have hwne : w ≠ 0 := hwpos.ne'
  have hvpos : 0 < 1 / w := by positivity
  have hwv : w * (1 / w) = 1 := by field_simp
  -- bounds on v = 1 / w
  have hv_hi : 1 / w ≤ 2 * (n : ℚ) := by
    have h1 : (1 - 1 / 2 ^ 53) * (1 / w) ≤ (n : ℚ) * w * (1 / w) :=
      mul_le_mul_of_nonneg_right hlo hvpos.le
    have h2 : (n : ℚ) * w * (1 / w) = (n : ℚ) := by rw [mul_assoc, hwv, mul_one]
    have h3 : (1 : ℚ) / 2 * (1 / w) ≤ (1 - 1 / 2 ^ 53) * (1 / w) :=
      mul_le_mul_of_nonneg_right (by norm_num) hvpos.le
    linarith
  have hv_lo : 1 / 2 ≤ 1 / w := by
    have h1 : (n : ℚ) * w * (1 / w) ≤ (1 + 1 / 2 ^ 53) * (1 / w) :=
      mul_le_mul_of_nonneg_right hhi hvpos.le
    have h2 : (n : ℚ) * w * (1 / w) = (n : ℚ) := by rw [mul_assoc, hwv, mul_one]
    have h3 : (1 + 1 / 2 ^ 53) * (1 / w) ≤ 2 * (1 / w) :=
      mul_le_mul_of_nonneg_right (by norm_num) hvpos.le
    linarith
  have hvn : |1 / w - (n : ℚ)| ≤ 1 / w / 2 ^ 53 := by
    have e : 1 / w - (n : ℚ) = (1 / w) * (1 - (n : ℚ) * w) := by
      field_simp
      ring
    rw [e, abs_mul, abs_of_pos hvpos]
    have : |1 - (n : ℚ) * w| ≤ 1 / 2 ^ 53 := by
      rw [abs_le]; constructor <;> linarith
    calc 1 / w * |1 - (n : ℚ) * w| ≤ 1 / w * (1 / 2 ^ 53) :=
          mul_le_mul_of_nonneg_left this hvpos.le
      _ = 1 / w / 2 ^ 53 := by ring
  have hsmall : 1 / w / 2 ^ 53 + 1 / w / 2 ^ 53 ≤ (n : ℚ) / 2 ^ 51 := by
    have : 1 / w / 2 ^ 53 + 1 / w / 2 ^ 53 = 1 / w * (2 / 2 ^ 53) := by ring
    rw [this]
    have h4 : 1 / w * (2 / 2 ^ 53) ≤ 2 * (n : ℚ) * (2 / 2 ^ 53) :=
      mul_le_mul_of_nonneg_right hv_hi (by norm_num)
    have h5 : 2 * (n : ℚ) * (2 / 2 ^ 53) = (n : ℚ) / 2 ^ 51 := by ring
    linarith
  have hrange : 1 / 2 ^ 33 ≤ |1 / w| ∧ |1 / w| ≤ 2 ^ 33 := by
    rw [abs_of_pos hvpos]
    constructor
    · exact le_trans (by norm_num) hv_lo
    · have : 2 * (n : ℚ) ≤ 2 ^ 33 := by linarith
      linarith
  obtain ⟨b, hb, hberr⟩ := round64_moderate (1 / w) hrange.1 hrange.2
  have hnegabs : |(-1) / w| = |1 / w| := by
    rw [neg_div, abs_neg]
  obtain ⟨a, ha, haerr⟩ := round64_moderate ((-1) / w)
    (by rw [hnegabs]; exact hrange.1) (by rw [hnegabs]; exact hrange.2)
  rw [hnegabs] at haerr
  rw [abs_of_pos hvpos] at hberr haerr
  have hdivb : Double.div (.fin 1) (Mesh.new n).getElementWidth = round64 (1 / w) := by
    show Double.div (.fin 1) (Mesh.new n).d_element_width = _
    rw [hw]
    unfold Double.div
    simp only [if_neg hwne]
  have hdiva : Double.div (.fin (-1)) (Mesh.new n).getElementWidth = round64 ((-1) / w) := by
    show Double.div (.fin (-1)) (Mesh.new n).d_element_width = _
    rw [hw]
    unfold Double.div
    simp only [if_neg hwne]
  refine ⟨hpair, ?_, fun _ => rfl, a, b, by rw [hdiva, ha], by rw [hdivb, hb], ?_, ?_⟩
  · rw [hpair]
    show (Double.fin ((-n : Int) : ℚ), Double.fin ((n : Int) : ℚ)) = _
    push_cast
    rfl
  · have t : |a - (-(n : ℚ))| ≤ |a - (-1) / w| + |(-1) / w - (-(n : ℚ))| :=
      abs_sub_le _ _ _
    have e : (-1) / w - (-(n : ℚ)) = -(1 / w - (n : ℚ)) := by ring
    rw [e, abs_neg] at t
    linarith
  · have t : |b - (n : ℚ)| ≤ |b - 1 / w| + |1 / w - (n : ℚ)| := abs_sub_le _ _ _
    linarith

/-- Witness of C14 amended: with four elements the pair is `(-4, 4)` at
`ref_coord = 1/3` rounded, and here `1/h` is exactly `4`. -/
theorem shapeFunctionDerivatives_const_witness :
    (1 : Int) ≤ 4 ∧ (4 : Int) ≤ INT_MAX
      ∧ (Mesh.new 4).shapeFunctionDerivatives (Double.div (.fin 1) (.fin 3))
          = (.fin (-4), .fin 4) := by
  refine ⟨by decide, by decide, ?_⟩
  rw [(shapeFunctionDerivatives_const 4 (by decide) (by decide) _).2.1]
  norm_num

/-- C15, counterexample: the constructor has no failure path and validates nothing;
called with `n = -1 ≤ 0` it returns a mesh with `-1` elements, `0` nodes and the
negative element width `-1`. -/
theorem mesh_new_negative_returned :
    (-1 : Int) ≤ 0
      ∧ (Mesh.new (-1)).totalNumElements = -1
      ∧ (Mesh.new (-1)).totalNumNodes = 0
      ∧ (Mesh.new (-1)).getElementWidth = .fin (-1)
      ∧ (-1 : ℚ) < 0 := by
  decide!

/-- C15, amended: construction with a non-positive element count does not fail; for
every `int` `n ≤ 0` the constructor returns a mesh with `totalNumElements() = n` and
`totalNumNodes() = n + 1`, and for `n < 0` its element width is the double quotient
`1./n`, a negative finite value (within relative error `2 ^ (-53)` of `1 / n`). -/
theorem mesh_new_nonpositive (n : Int) (hmin : INT_MIN ≤ n) (hn : n ≤ 0) :
    (Mesh.new n).totalNumElements = n
      ∧ (Mesh.new n).totalNumNodes = n + 1
      ∧ (Mesh.new n).totalNumElements ≤ 0
      ∧ (n < 0 → (Mesh.new n).getElementWidth = Double.div (.fin 1) (Double.ofInt n)
          ∧ ∃ w : ℚ, (Mesh.new n).getElementWidth = .fin w ∧ w < 0
              ∧ |w - 1 / (n : ℚ)| ≤ |1 / (n : ℚ)| / 2 ^ 53) := by
  have hwrap : wrapInt (n + 1) = n + 1 :=
    wrapInt_of_range _ (by omega) (by unfold INT_MAX; omega)
  refine ⟨rfl, hwrap, hn, ?_⟩
  intro hneg
  refine ⟨rfl, ?_⟩
  have hq : (n : ℚ) < 0 := by exact_mod_cast hneg
  have hq1 : (n : ℚ) ≤ -1 := by exact_mod_cast (by omega : n ≤ -1)
  have hq2 : -(2 : ℚ) ^ 31 ≤ (n : ℚ) := by
    unfold INT_MIN at hmin
    have : -(2 : Int) ^ 31 ≤ n := by omega
    exact_mod_cast this
  have hinv : 1 / (n : ℚ) < 0 := div_neg_of_pos_of_neg one_pos hq
  have habs : |1 / (n : ℚ)| = 1 / (-(n : ℚ)) := by
    rw [abs_of_neg hinv, div_neg]
  have hmpos : (0 : ℚ) < -(n : ℚ) := by linarith
  have hlo : 1 / 2 ^ 33 ≤ |1 / (n : ℚ)| := by
    rw [habs]
    have : 1 / (2 : ℚ) ^ 31 ≤ 1 / (-(n : ℚ)) :=
      one_div_le_one_div_of_le hmpos (by linarith)
    exact le_trans (by norm_num) this
  have hhi : |1 / (n : ℚ)| ≤ 2 ^ 33 := by
    rw [habs]
    have : 1 / (-(n : ℚ)) ≤ 1 := by
      rw [div_le_one hmpos]; linarith
    exact le_trans this (by norm_num)
  obtain ⟨w, hw, herr⟩ := round64_moderate (1 / (n : ℚ)) hlo hhi
  have hdef : (Mesh.new n).getElementWidth = round64 (1 / (n : ℚ)) := by
    show Double.div (.fin 1) (Double.ofInt n) = _
    unfold Double.ofInt Double.div
    simp only [if_neg hq.ne]
  refine ⟨w, by rw [hdef, hw], ?_, herr⟩
  have h1 := (abs_le.mp herr).2
  have h2 : |1 / (n : ℚ)| = -(1 / (n : ℚ)) := abs_of_neg hinv
  rw [h2] at h1
  have h3 : w ≤ 1 / (n : ℚ) * (1 - 1 / 2 ^ 53) := by
    have : 1 / (n : ℚ) * (1 - 1 / 2 ^ 53) = 1 / (n : ℚ) + -(1 / (n : ℚ)) / 2 ^ 53 := by ring
    rw [this]
    linarith
  have h4 : 1 / (n : ℚ) * (1 - 1 / 2 ^ 53) < 0 :=
    mul_neg_of_neg_of_pos hinv (by norm_num)
  linarith

/-- Witness of C15 amended, at `n = -2`: the mesh has `-2` elements, `-1` nodes and
element width `-1/2`. -/
theorem mesh_new_nonpositive_witness :
    INT_MIN ≤ (-2 : Int) ∧ (-2 : Int) ≤ 0
      ∧ (Mesh.new (-2)).totalNumElements = -2
      ∧ (Mesh.new (-2)).totalNumNodes = -2 + 1
      ∧ (Mesh.new (-2)).getElementWidth = .fin (-1 / 2) := by
  obtain ⟨h1, h2, -, h3⟩ := mesh_new_nonpositive (-2) (by decide) (by decide)
  refine ⟨by decide, by decide, h1, h2, ?_⟩
  rw [(h3 (by decide)).1]
  decide!

/-- C16, evaluation at the failing input: on the mesh with four elements the negative
ids `node_id = -1` and `element_id = -1` pass every assertion; `nodeCoordinate(-1)`
returns `-1/4` and `elementCoordinates(-1)` returns `(-1/4, 0)`. -/
theorem negative_id_accepted :
    (Mesh.new 4).nodeCoordinate (-1) = .ok (.fin (-1 / 4))
      ∧ (Mesh.new 4).elementCoordinates (-1) = .ok (.fin (-1 / 4), .fin 0) := by
  decide!

/-- C20: on the mesh with four elements (`n ≥ 2`), at the double `x = 0.1` in `[0, 1]`
and `element_id = 3 = num_elements - 1`, which is not `locateX(x) = 0`, the entry
assertion of `mapGlobalToLocalFrame` passes while `ref_coord = -6.2 < -1`, so the
exit assertion fails. -/
theorem frameEntry_weaker_than_precondition :
    (2 : Int) ≤ 4
      ∧ (0 : ℚ) ≤ 3602879701896397 / 36028797018963968
      ∧ (3602879701896397 / 36028797018963968 : ℚ) ≤ 1
      ∧ Double.div (.fin 1) (.fin 10) = .fin (3602879701896397 / 36028797018963968)
      ∧ (3 : Int) = (Mesh.new 4).totalNumElements - 1
      ∧ (Mesh.new 4).locateX (.fin (3602879701896397 / 36028797018963968)) = .ok 0
      ∧ (Mesh.new 4).locateX (.fin (3602879701896397 / 36028797018963968)) ≠ .ok 3
      ∧ (Double.eq (Double.ofInt 3)
            (Double.floor (Double.div (.fin (3602879701896397 / 36028797018963968))
              (Mesh.new 4).d_element_width)) = true
          ∨ (3 : Int) = wrapInt ((Mesh.new 4).d_num_elements - 1))
      ∧ Double.sub
          (Double.mul
            (Double.sub
              (Double.div (.fin (3602879701896397 / 36028797018963968))
                (Mesh.new 4).d_element_width)
              (Double.ofInt 3))
            (.fin 2))
          (.fin 1) = .fin (-6980579422424269 / 1125899906842624)
      ∧ (-6980579422424269 / 1125899906842624 : ℚ) < -1
      ∧ Double.div (.fin (-62)) (.fin 10) = .fin (-6980579422424269 / 1125899906842624)
      ∧ (Mesh.new 4).mapGlobalToLocalFrame (.fin (3602879701896397 / 36028797018963968)) 3
          = .error .frameExit := by
  decide!

/-- C1, evaluation at the failing input: on the mesh with 49 elements, at `x = 1.0`,
`approxValue` fails the exit assertion of `mapGlobalToLocalFrame` whatever `d` and
`elements` are, in particular for the identity field, where the claim gives `49`. -/
theorem approxValue_identity_aborts (d : List Double) (elements : List Element) :
    (Mesh.new 49).approxValue (.fin 1) d elements = .error .frameExit := by
  have h1 : (Mesh.new 49).locateX (.fin 1) = .ok 48 := by decide!
  have h2 : (Mesh.new 49).mapGlobalToLocalFrame (.fin 1) 48 = .error .frameExit := by decide!
  unfold Mesh.approxValue
  rw [h1]
  simp only [bind, Except.bind]
  rw [h2]

/-- C3, evaluation at the failing inputs: on the mesh with 9 elements the double
`x = 1 - 2^-53` of `[0, 1)` fails the upper assertion of `locateX`, so there is no
round trip; on the mesh with 10 elements the round trip of the double `x = 0.3`
returns `0.30000000000000004`. -/
theorem frame_round_trip_fails :
    (0 : ℚ) ≤ 9007199254740991 / 9007199254740992
      ∧ (9007199254740991 / 9007199254740992 : ℚ) < 1
      ∧ isDouble (9007199254740991 / 9007199254740992)
      ∧ (Mesh.new 9).locateX (.fin (9007199254740991 / 9007199254740992))
          = .error .locateUpper
      ∧ Double.div (.fin 3) (.fin 10) = .fin (5404319552844595 / 18014398509481984)
      ∧ (Mesh.new 10).locateX (.fin (5404319552844595 / 18014398509481984)) = .ok 2
      ∧ (Mesh.new 10).elementCoordinates 2
          = .ok (.fin (3602879701896397 / 18014398509481984),
              .fin (1351079888211149 / 4503599627370496))
      ∧ (Mesh.new 10).mapGlobalToLocalFrame (.fin (5404319552844595 / 18014398509481984)) 2
          = .ok (.fin (1125899906842623 / 1125899906842624))
      ∧ (Mesh.new 10).mapLocalToGlobalFrame (.fin (1125899906842623 / 1125899906842624))
            (.fin (3602879701896397 / 18014398509481984))
            (.fin (1351079888211149 / 4503599627370496))
          = .fin (1351079888211149 / 4503599627370496)
      ∧ (1351079888211149 / 4503599627370496 : ℚ) ≠ 5404319552844595 / 18014398509481984 := by
  decide!

/-- C4, evaluation at the failing input: on the mesh with 49 elements, at `x = 1.0`,
`locateX` returns element 48, the entry assertion of `mapGlobalToLocalFrame` passes,
`ref_coord = (1.0 / (1./49) - 48) * 2 - 1 = 1.0000000000000142 > 1` and the exit
assertion fails. -/
theorem mapGlobalToLocalFrame_exit_fails :
    (Mesh.new 49).locateX (.fin 1) = .ok 48
      ∧ Double.div (.fin 1) (Mesh.new 49).d_element_width
          = .fin (6896136929411073 / 140737488355328)
      ∧ Double.sub
          (Double.mul
            (Double.sub (Double.div (.fin 1) (Mesh.new 49).d_element_width) (Double.ofInt 48))
            (.fin 2))
          (.fin 1) = .fin (70368744177665 / 70368744177664)
      ∧ (1 : ℚ) < 70368744177665 / 70368744177664
      ∧ (Mesh.new 49).mapGlobalToLocalFrame (.fin 1) 48 = .error .frameExit := by
  decide!

/-- C5, evaluation at the failing input: on the mesh with 6 elements, at the double
`x = 1 - 2^-53` of `[0, 1)`, `floor(x / element_width)` is `6 = num_elements` and
`locateX` fails its upper assertion instead of returning an element. -/
theorem locateX_floor_out_of_range :
    (0 : ℚ) ≤ 9007199254740991 / 9007199254740992
      ∧ (9007199254740991 / 9007199254740992 : ℚ) < 1
      ∧ isDouble (9007199254740991 / 9007199254740992)
      ∧ Double.floor (Double.div (.fin (9007199254740991 / 9007199254740992))
            (Mesh.new 6).getElementWidth) = .fin 6
      ∧ (Mesh.new 6).locateX (.fin (9007199254740991 / 9007199254740992))
          = .error .locateUpper := by
  decide!

/-- C6, evaluation at the failing input: on the mesh with 3 elements the double
`x = 1 - 2^-53`, which satisfies `0 ≤ x ≤ 1`, is rejected by the upper assertion of
`locateX`. -/
theorem locateX_rejects_domain_point :
    (0 : ℚ) ≤ 9007199254740991 / 9007199254740992
      ∧ (9007199254740991 / 9007199254740992 : ℚ) ≤ 1
      ∧ isDouble (9007199254740991 / 9007199254740992)
      ∧ Double.div (.fin (9007199254740991 / 9007199254740992)) (Mesh.new 3).getElementWidth
          = .fin 3
      ∧ (Mesh.new 3).locateX (.fin (9007199254740991 / 9007199254740992))
          = .error .locateUpper := by
  decide!

/-- C18, evaluation at the failing input: on the mesh with 98 elements, at `x = 1.0`,
the exit assertion of `mapGlobalToLocalFrame` fires inside `approxValue`, whatever `d`
and `elements` are. -/
theorem approxValue_assertion_fires (d : List Double) (elements : List Element) :
    (Mesh.new 98).locateX (.fin 1) = .ok 97
      ∧ (Mesh.new 98).mapGlobalToLocalFrame (.fin 1) 97 = .error .frameExit
      ∧ (Mesh.new 98).approxValue (.fin 1) d elements = .error .frameExit := by
  have h1 : (Mesh.new 98).locateX (.fin 1) = .ok 97 := by decide!
  have h2 : (Mesh.new 98).mapGlobalToLocalFrame (.fin 1) 97 = .error .frameExit := by decide!
  refine ⟨h1, h2, ?_⟩
  unfold Mesh.approxValue
  rw [h1]
  simp only [bind, Except.bind]
  rw [h2]

/-- C12, counterexample: at the double `ref_coord = 1e16` the two values are
`-5e15` and `5e15`, and their sum is `0`, not `1`. -/
theorem shapeFunctionValues_sum_zero :
    isDouble 10000000000000000
      ∧ (Mesh.new 4).shapeFunctionValues (.fin 10000000000000000)
          = (.fin (-5000000000000000), .fin 5000000000000000)
      ∧ Double.add ((Mesh.new 4).shapeFunctionValues (.fin 10000000000000000)).1
            ((Mesh.new 4).shapeFunctionValues (.fin 10000000000000000)).2 = .fin 0
      ∧ Double.add ((Mesh.new 4).shapeFunctionValues (.fin 10000000000000000)).1
            ((Mesh.new 4).shapeFunctionValues (.fin 10000000000000000)).2 ≠ .fin 1 := by
  decide!

/-- C12, amended: for every mesh and every double `ref_coord` in `[-1, 1]`,
`shapeFunctionValues` returns `N0 = (1 - ref_coord)/2` and `N1 = (1 + ref_coord)/2`
computed in double arithmetic, and the double sum `N0 + N1` is exactly `1`. -/
theorem shapeFunctionValues_partition (m : Mesh) (ref_coord : ℚ) (hd : isDouble ref_coord)
    (h0 : -1 ≤ ref_coord) (h1 : ref_coord ≤ 1) :
    m.shapeFunctionValues (.fin ref_coord)
        = (Double.div (Double.sub (.fin 1) (.fin ref_coord)) (.fin 2),
            Double.div (Double.add (.fin 1) (.fin ref_coord)) (.fin 2))
      ∧ Double.add (m.shapeFunctionValues (.fin ref_coord)).1
          (m.shapeFunctionValues (.fin ref_coord)).2 = .fin 1 := by
  refine ⟨rfl, ?_⟩
  have hsub : Double.sub (.fin 1) (.fin ref_coord) = round64 (1 - ref_coord) := by
    show round64 (1 + -ref_coord) = _
    rw [← sub_eq_add_neg]
  have hadd : Double.add (.fin 1) (.fin ref_coord) = round64 (1 + ref_coord) := rfl
  show Double.add (Double.div (Double.sub (.fin 1) (.fin ref_coord)) (.fin 2))
      (Double.div (Double.add (.fin 1) (.fin ref_coord)) (.fin 2)) = .fin 1
  rw [hsub, hadd]
  rcases le_or_lt 0 ref_coord with hpos | hneg
  · obtain ⟨lo, hi, hlo, hhi, hsum⟩ := partition_core ref_coord hd hpos h1
    rw [hlo, hhi]
    exact hsum
  · obtain ⟨lo, hi, hlo, hhi, hsum⟩ :=
      partition_core (-ref_coord) (isDouble_neg ref_coord hd) (by linarith) (by linarith)
    rw [sub_neg_eq_add] at hlo
    rw [← sub_eq_add_neg] at hhi
    rw [hlo, hhi]
    show round64 (hi + lo) = .fin 1
    rw [add_comm]
    exact hsum

/-- Witness of C12 amended at `ref_coord = 1/2`: the values are `1/4` and `3/4`. -/
theorem shapeFunctionValues_partition_witness :
    isDouble (1 / 2) ∧ (-1 : ℚ) ≤ 1 / 2 ∧ (1 / 2 : ℚ) ≤ 1
      ∧ (Mesh.new 4).shapeFunctionValues (.fin (1 / 2)) = (.fin (1 / 4), .fin (3 / 4))
      ∧ Double.add ((Mesh.new 4).shapeFunctionValues (.fin (1 / 2))).1
          ((Mesh.new 4).shapeFunctionValues (.fin (1 / 2))).2 = .fin 1 := by
  have h := shapeFunctionValues_partition (Mesh.new 4) (1 / 2) (by decide!) (by norm_num)
    (by norm_num)
  exact ⟨by decide!, by norm_num, by norm_num, by decide!, h.2⟩

/-- C13, counterexample: with the doubles `n1 = n2 = 0.8377097303431459` and
`ref_coord = -0.6449958996338527` in `[-1, 1]`, the result is
`0.8377097303431458 < n1`, outside `[n1, n2]`; with `n1 = n2 = 2^1023` and
`ref_coord = 0` the sum overflows and the result is `+inf`. -/
theorem mapLocalToGlobalFrame_leaves_element :
    isDouble (7545418458836061 / 9007199254740992)
      ∧ isDouble (-2904803293246517 / 4503599627370496)
      ∧ (-1 : ℚ) ≤ -2904803293246517 / 4503599627370496
      ∧ (-2904803293246517 / 4503599627370496 : ℚ) ≤ 1
      ∧ (Mesh.new 4).mapLocalToGlobalFrame (.fin (-2904803293246517 / 4503599627370496))
            (.fin (7545418458836061 / 9007199254740992))
            (.fin (7545418458836061 / 9007199254740992))
          = .fin (1886354614709015 / 2251799813685248)
      ∧ (1886354614709015 / 2251799813685248 : ℚ) < 7545418458836061 / 9007199254740992
      ∧ isDouble (2 ^ 1023)
      ∧ (Mesh.new 4).mapLocalToGlobalFrame (.fin 0) (.fin (2 ^ 1023)) (.fin (2 ^ 1023))
          = .inf false := by
  decide!

/-- C13, amended: for all finite `n1 ≤ n2` of magnitude at most `2 ^ 1000` and every
`ref_coord` in `[-1, 1]`, the result of `mapLocalToGlobalFrame` is finite and lies in
`[n1 - E, n2 + E]` with `E = max(|n1|, |n2|) / 2 ^ 49 + 2 ^ (-1073)`; for doubles `n1`,
`n2`, `ref_coord = -1` is mapped to exactly `n1` and `ref_coord = 1` to exactly `n2`. -/
theorem mapLocalToGlobalFrame_range (m : Mesh) (n1 n2 ref_coord : ℚ) (h12 : n1 ≤ n2)
    (hr0 : -1 ≤ ref_coord) (hr1 : ref_coord ≤ 1)
    (hb1 : |n1| ≤ 2 ^ 1000) (hb2 : |n2| ≤ 2 ^ 1000) :
    (∃ x : ℚ, m.mapLocalToGlobalFrame (.fin ref_coord) (.fin n1) (.fin n2) = .fin x
        ∧ n1 - (max |n1| |n2| / 2 ^ 49 + 1 / 2 ^ 1073) ≤ x
        ∧ x ≤ n2 + (max |n1| |n2| / 2 ^ 49 + 1 / 2 ^ 1073))
      ∧ (isDouble n1 → m.mapLocalToGlobalFrame (.fin (-1)) (.fin n1) (.fin n2) = .fin n1)
      ∧ (isDouble n2 → m.mapLocalToGlobalFrame (.fin 1) (.fin n1) (.fin n2) = .fin n2) := by
  have h2ne : (2 : ℚ) ≠ 0 := by norm_num
  have hbig : (2 : ℚ) ^ 1001 < pow2 1024 := by
    have h : pow2 ((1001 : Nat) : Int) = (2 : ℚ) ^ 1001 := pow2_natCast 1001
    rw [← h]
    exact pow2_lt_pow2 (by norm_num)
  have htwo : ∀ q : ℚ, |q| ≤ 2 ^ 1000 → |2 * q| < pow2 1024 := by
    intro q hq
    rw [abs_mul, abs_of_pos (by norm_num : (0 : ℚ) < 2)]
    have : 2 * |q| ≤ 2 ^ 1001 := by
      have e : (2 : ℚ) ^ 1001 = 2 * 2 ^ 1000 := by norm_num
      rw [e]
      linarith
    linarith
  have r2 : round64 (1 + 1) = .fin 2 := by decide!
  have r0 : round64 (1 + -1) = .fin 0 := by decide!
  refine ⟨?_, ?_, ?_⟩
  · obtain ⟨x, hx, herr⟩ := mapLocalToGlobalFrame_error m n1 n2 ref_coord (max |n1| |n2|)
      hr0 hr1 (le_max_left _ _) (le_max_right _ _) (max_le hb1 hb2)
    obtain ⟨e1, e2⟩ := abs_le.mp herr
    have hlo : n1 ≤ ((1 - ref_coord) * n1 + (1 + ref_coord) * n2) / 2 := by
      have : ((1 - ref_coord) * n1 + (1 + ref_coord) * n2) / 2 - n1
          = (1 + ref_coord) * (n2 - n1) / 2 := by ring
      have hnn : 0 ≤ (1 + ref_coord) * (n2 - n1) / 2 :=
        div_nonneg (mul_nonneg (by linarith) (by linarith)) (by norm_num)
      linarith
    have hhi : ((1 - ref_coord) * n1 + (1 + ref_coord) * n2) / 2 ≤ n2 := by
      have : n2 - ((1 - ref_coord) * n1 + (1 + ref_coord) * n2) / 2
          = (1 - ref_coord) * (n2 - n1) / 2 := by ring
      have hnn : 0 ≤ (1 - ref_coord) * (n2 - n1) / 2 :=
        div_nonneg (mul_nonneg (by linarith) (by linarith)) (by norm_num)
      linarith
    exact ⟨x, hx, by linarith, by linarith⟩
  · intro hd
    have s1 : Double.sub (.fin 1) (.fin (-1)) = .fin 2 := by
      show round64 (1 + - -1) = _
      rw [neg_neg]
      exact r2
    have s2 : Double.add (.fin 1) (.fin (-1)) = .fin 0 := r0
    have s3 : Double.mul (.fin 2) (.fin n1) = .fin (2 * n1) :=
      isDouble_two_mul n1 hd (htwo n1 hb1)
    have s4 : Double.mul (.fin 0) (.fin n2) = .fin 0 := by
      show round64 (0 * n2) = _
      rw [zero_mul]
      exact round64_zero
    have s5 : Double.add (.fin (2 * n1)) (.fin 0) = .fin (2 * n1) := by
      show round64 (2 * n1 + 0) = _
      rw [add_zero]
      exact isDouble_two_mul n1 hd (htwo n1 hb1)
    have s6 : Double.div (.fin (2 * n1)) (.fin 2) = .fin n1 := by
      unfold Double.div
      simp only [if_neg h2ne]
      rw [mul_div_cancel_left₀ n1 h2ne]
      exact hd
    show Double.div (Double.add (Double.mul (Double.sub (.fin 1) (.fin (-1))) (.fin n1))
      (Double.mul (Double.add (.fin 1) (.fin (-1))) (.fin n2))) (.fin 2) = .fin n1
    rw [s1, s2, s3, s4, s5, s6]
  · intro hd
    have s1 : Double.sub (.fin 1) (.fin 1) = .fin 0 := r0
    have s2 : Double.add (.fin 1) (.fin 1) = .fin 2 := r2
    have s3 : Double.mul (.fin 0) (.fin n1) = .fin 0 := by
      show round64 (0 * n1) = _
      rw [zero_mul]
      exact round64_zero
    have s4 : Double.mul (.fin 2) (.fin n2) = .fin (2 * n2) :=
      isDouble_two_mul n2 hd (htwo n2 hb2)
    have s5 : Double.add (.fin 0) (.fin (2 * n2)) = .fin (2 * n2) := by
      show round64 (0 + 2 * n2) = _
      rw [zero_add]
      exact isDouble_two_mul n2 hd (htwo n2 hb2)
    have s6 : Double.div (.fin (2 * n2)) (.fin 2) = .fin n2 := by
      unfold Double.div
      simp only [if_neg h2ne]
      rw [mul_div_cancel_left₀ n2 h2ne]
      exact hd
    show Double.div (Double.add (Double.mul (Double.sub (.fin 1) (.fin 1)) (.fin n1))
      (Double.mul (Double.add (.fin 1) (.fin 1)) (.fin n2))) (.fin 2) = .fin n2
    rw [s1, s2, s3, s4, s5, s6]

/-- Witness of C13 amended: on the element `[1/2, 3/4]`, `ref_coord = 1/4` is mapped to
`21/32`, and the two ends of the reference interval to the two ends of the element. -/
theorem mapLocalToGlobalFrame_range_witness :
    (Mesh.new 4).mapLocalToGlobalFrame (.fin (1 / 4)) (.fin (1 / 2)) (.fin (3 / 4))
        = .fin (21 / 32)
      ∧ (Mesh.new 4).mapLocalToGlobalFrame (.fin (-1)) (.fin (1 / 2)) (.fin (3 / 4))
        = .fin (1 / 2)
      ∧ (Mesh.new 4).mapLocalToGlobalFrame (.fin 1) (.fin (1 / 2)) (.fin (3 / 4))
        = .fin (3 / 4) := by
  obtain ⟨-, hm, hp⟩ := mapLocalToGlobalFrame_range (Mesh.new 4) (1 / 2) (3 / 4) (1 / 4)
    (by norm_num) (by norm_num) (by norm_num)
    (by rw [abs_of_pos (by norm_num)]; exact le_trans (by norm_num) (one_le_pow₀ (by norm_num)))
    (by rw [abs_of_pos (by norm_num)]; exact le_trans (by norm_num) (one_le_pow₀ (by norm_num)))
  exact ⟨by decide!, hm (by decide!), hp (by decide!)⟩

/-- C2, counterexample: on the mesh with 10 elements, the nodal values
`d = [0, 5, ..., 50]` and the double `x = 0.33`, `approxValue` returns `16.5` for every
vector of elements built by `initializeElement` (and there is one), while the closed
form `d[e] * (n2 - x) / h + d[e+1] * (x - n1) / h` with `e = locateX(x) = 3`,
evaluated in double arithmetic, is `16.499999999999993`; on the mesh with 7 elements,
at the double `x = 1 - 2^-53` of `[0, 1]`, `approxValue` fails the upper assertion of
`locateX` whatever `d` and `elements` are, and returns no value; with a nodal value
that is NaN the result is NaN, which compares unequal to every value. -/
theorem approxValue_not_closed_form :
    (∃ elements : List Element,
        List.map (fun i : Nat => (Mesh.new 10).initializeElement (i : Int))
          (List.range (10 : Int).toNat) = elements.map Except.ok)
      ∧ (∀ elements : List Element,
          List.map (fun i : Nat => (Mesh.new 10).initializeElement (i : Int))
            (List.range (10 : Int).toNat) = elements.map Except.ok →
          (Mesh.new 10).approxValue (.fin (5944751508129055 / 18014398509481984))
              [.fin 0, .fin 5, .fin 10, .fin 15, .fin 20, .fin 25, .fin 30, .fin 35, .fin 40,
                .fin 45, .fin 50] elements
            = .ok (.fin (33 / 2)))
      ∧ isDouble (5944751508129055 / 18014398509481984)
      ∧ (Mesh.new 10).locateX (.fin (5944751508129055 / 18014398509481984)) = .ok 3
      ∧ (Mesh.new 10).elementCoordinates 3
          = .ok (.fin (1351079888211149 / 4503599627370496),
              .fin (3602879701896397 / 9007199254740992))
      ∧ (Mesh.new 10).getElementWidth = .fin (3602879701896397 / 36028797018963968)
      ∧ Double.add
          (Double.div
            (Double.mul (.fin 15)
              (Double.sub (.fin (3602879701896397 / 9007199254740992))
                (.fin (5944751508129055 / 18014398509481984))))
            (.fin (3602879701896397 / 36028797018963968)))
          (Double.div
            (Double.mul (.fin 20)
              (Double.sub (.fin (5944751508129055 / 18014398509481984))
                (.fin (1351079888211149 / 4503599627370496))))
            (.fin (3602879701896397 / 36028797018963968)))
          = .fin (2322168557862911 / 140737488355328)
      ∧ (2322168557862911 / 140737488355328 : ℚ) ≠ 33 / 2
      ∧ (0 : ℚ) ≤ 9007199254740991 / 9007199254740992
      ∧ (9007199254740991 / 9007199254740992 : ℚ) ≤ 1
      ∧ isDouble (9007199254740991 / 9007199254740992)
      ∧ (∀ (d : List Double) (elements : List Element),
          (Mesh.new 7).approxValue (.fin (9007199254740991 / 9007199254740992)) d elements
            = .error .locateUpper)
      ∧ (Mesh.new 2).approxValue (.fin (3 / 4)) [.fin 0, .fin 5, .nan]
          [{ id := 0, n1 := .fin 0, n2 := .fin (1 / 2), ind1 := 0, ind2 := 1,
             k := ![![.fin 2, .fin (-2)], ![.fin (-2), .fin 2]] },
           { id := 1, n1 := .fin (1 / 2), n2 := .fin 1, ind1 := 1, ind2 := 2,
             k := ![![.fin 2, .fin 0], ![.fin 0, .fin 0]] }]
          = .ok .nan
      ∧ Double.eq .nan .nan = false := by
  refine ⟨built_exists 10 (by decide) (by decide), ?_, by decide!, by decide!, by decide!,
    by decide!, by decide!, by norm_num, by norm_num, by norm_num, by decide!, ?_, by decide!,
    by decide!⟩
  · intro elements hel
    obtain ⟨el, hel1, hi1, hi2⟩ :=
      vectorAt_elements 10 (by decide) (by decide) elements hel 3 (by decide) (by decide)
    have hloc : (Mesh.new 10).locateX (.fin (5944751508129055 / 18014398509481984))
        = .ok 3 := by decide!
    have hmap : (Mesh.new 10).mapGlobalToLocalFrame
        (.fin (5944751508129055 / 18014398509481984)) 3
        = .ok (.fin (-225179981368525 / 562949953421312)) := by decide!
    rw [approxValue_eval (Mesh.new 10) _ _
      [.fin 0, .fin 5, .fin 10, .fin 15, .fin 20, .fin 25, .fin 30, .fin 35, .fin 40,
        .fin 45, .fin 50] elements 3 el (.fin 15) (.fin 20) hloc hmap hel1 hi1 hi2 rfl rfl]
    decide!
  · intro d elements
    have h1 : (Mesh.new 7).locateX (.fin (9007199254740991 / 9007199254740992))
        = .error .locateUpper := by decide!
    unfold Mesh.approxValue
    rw [h1]
    rfl

/-- C2, amended: for every `1 ≤ n < INT_MAX`, every `d` with at least `n + 1` finite
entries of magnitude at most `2 ^ 1000`, elements built by `initializeElement` for ids
`0..n-1` and every `x` with `0 ≤ x ≤ 1 - 2^-50`: no assertion fires; with
`e = locateX(x)`, `ref_coord = mapGlobalToLocalFrame(x, e)`,
`(n1, n2) = elementCoordinates(e)` and `h = getElementWidth()`, `approxValue` returns
the double `d[e] * N0 + d[e+1] * N1` with `(N0, N1) = shapeFunctionValues(ref_coord)`,
a finite value within `(|d[e]| + |d[e+1]|) (n + 2) / 2^50 + 2^-1073` of the exact value
of `d[e] * (n2 - x) / h + d[e+1] * (x - n1) / h`. -/
theorem approxValue_interpolant (n : Int) (hn : 1 ≤ n) (hmax : n < INT_MAX)
    (d : List Double)
    (hd : ∀ j : Int, 0 ≤ j → j ≤ n →
      ∃ q : ℚ, vectorAt d j = .ok (.fin q) ∧ |q| ≤ 2 ^ 1000)
    (elements : List Element)
    (hel : List.map (fun i : Nat => (Mesh.new n).initializeElement (i : Int))
        (List.range n.toNat) = elements.map Except.ok)
    (x : ℚ) (hx0 : 0 ≤ x) (hx1 : x ≤ 1 - 1 / 2 ^ 50) :
    ∃ (e : Int) (ref_coord n1 n2 h d1 d2 v : ℚ),
      (Mesh.new n).locateX (.fin x) = .ok e
        ∧ (Mesh.new n).mapGlobalToLocalFrame (.fin x) e = .ok (.fin ref_coord)
        ∧ (Mesh.new n).elementCoordinates e = .ok (.fin n1, .fin n2)
        ∧ (Mesh.new n).getElementWidth = .fin h
        ∧ vectorAt d e = .ok (.fin d1) ∧ vectorAt d (e + 1) = .ok (.fin d2)
        ∧ (Mesh.new n).approxValue (.fin x) d elements
            = .ok (Double.add
                (Double.mul (.fin d1)
                  ((Mesh.new n).shapeFunctionValues (.fin ref_coord)).1)
                (Double.mul (.fin d2)
                  ((Mesh.new n).shapeFunctionValues (.fin ref_coord)).2))
        ∧ (Mesh.new n).approxValue (.fin x) d elements = .ok (.fin v)
        ∧ |v - (d1 * (n2 - x) / h + d2 * (x - n1) / h)|
            ≤ (|d1| + |d2|) * ((n : ℚ) + 2) / 2 ^ 50 + 1 / 2 ^ 1073 := by
  obtain ⟨hn1, hn2⟩ := cast_bounds n hn hmax.le
  have hx1b : x ≤ 1 := by
    have : (0 : ℚ) ≤ 1 / 2 ^ 50 := by positivity
    linarith
  obtain ⟨e, q1, r, d1, d2, v, hloc, he0, hen, -, -, -, hmap, hd1, hd2, heval, hv, herr⟩ :=
    approxValue_error n hn hmax d hd elements hel x hx0 hx1
  obtain ⟨c1, c2, w, hc, hw, -, hlo, hhi, hwpos, herr1, herr2⟩ :=
    element_coords_core n hn hmax e he0 hen
  refine ⟨e, r, c1, c2, w, d1, d2, v, hloc, hmap, hc, hw, hd1, hd2, heval, hv, ?_⟩
  have he0q : (0 : ℚ) ≤ (e : ℚ) := by exact_mod_cast he0
  have henq : (e : ℚ) + 1 ≤ (n : ℚ) := by exact_mod_cast (by omega : e + 1 ≤ n)
  have hX := abs_le.mp (exact_quotient (n : ℚ) w x hn1 hlo hhi hwpos hx0 hx1b)
  have h1 := abs_le.mp (div_width w c1 (e : ℚ) hwpos herr1)
  have h2 := abs_le.mp (div_width w c2 ((e : ℚ) + 1) hwpos herr2)
  have hk1 : (e : ℚ) / 2 ^ 53 ≤ (n : ℚ) / 2 ^ 53 :=
    div_le_div_of_nonneg_right (by linarith) (by positivity)
  have hk2 : ((e : ℚ) + 1) / 2 ^ 53 ≤ (n : ℚ) / 2 ^ 53 :=
    div_le_div_of_nonneg_right henq (by positivity)
  have e3 : 3 * (n : ℚ) / 2 ^ 53 = 2 * (n : ℚ) / 2 ^ 53 + (n : ℚ) / 2 ^ 53 := by ring
  have ha : |(c2 - x) / w - ((e : ℚ) + 1 - (n : ℚ) * x)| ≤ 3 * (n : ℚ) / 2 ^ 53 := by
    have e : (c2 - x) / w - ((e : ℚ) + 1 - (n : ℚ) * x)
        = (c2 / w - ((e : ℚ) + 1)) - (x / w - (n : ℚ) * x) := by
      rw [sub_div]; ring
    rw [e, abs_le]
    constructor <;> linarith [hX.1, hX.2, h2.1, h2.2]
  have hb : |(x - c1) / w - ((n : ℚ) * x - (e : ℚ))| ≤ 3 * (n : ℚ) / 2 ^ 53 := by
    have e : (x - c1) / w - ((n : ℚ) * x - (e : ℚ))
        = (x / w - (n : ℚ) * x) - (c1 / w - (e : ℚ)) := by
      rw [sub_div]; ring
    rw [e, abs_le]
    constructor <;> linarith [hX.1, hX.2, h1.1, h1.2]
  have hA : |d1 * ((c2 - x) / w - ((e : ℚ) + 1 - (n : ℚ) * x))|
      ≤ |d1| * (3 * (n : ℚ) / 2 ^ 53) := by
    rw [abs_mul]
    exact mul_le_mul_of_nonneg_left ha (abs_nonneg d1)
  have hB : |d2 * ((x - c1) / w - ((n : ℚ) * x - (e : ℚ)))|
      ≤ |d2| * (3 * (n : ℚ) / 2 ^ 53) := by
    rw [abs_mul]
    exact mul_le_mul_of_nonneg_left hb (abs_nonneg d2)
  have hsplit : v - (d1 * (c2 - x) / w + d2 * (x - c1) / w)
      = (v - (d1 * ((e : ℚ) + 1 - (n : ℚ) * x) + d2 * ((n : ℚ) * x - (e : ℚ))))
        - d1 * ((c2 - x) / w - ((e : ℚ) + 1 - (n : ℚ) * x))
        - d2 * ((x - c1) / w - ((n : ℚ) * x - (e : ℚ))) := by ring
  have hnn : 0 ≤ |d1| + |d2| := add_nonneg (abs_nonneg d1) (abs_nonneg d2)
  have hfin : (|d1| + |d2|) * ((5 * (n : ℚ) + 9) / 2 ^ 53) + |d1| * (3 * (n : ℚ) / 2 ^ 53)
      + |d2| * (3 * (n : ℚ) / 2 ^ 53)
      ≤ (|d1| + |d2|) * ((n : ℚ) + 2) / 2 ^ 50 := by
    have e : (|d1| + |d2|) * ((n : ℚ) + 2) / 2 ^ 50
        - ((|d1| + |d2|) * ((5 * (n : ℚ) + 9) / 2 ^ 53) + |d1| * (3 * (n : ℚ) / 2 ^ 53)
          + |d2| * (3 * (n : ℚ) / 2 ^ 53))
        = (|d1| + |d2|) * (7 / 2 ^ 53) := by ring
    have : 0 ≤ (|d1| + |d2|) * (7 / 2 ^ 53) := mul_nonneg hnn (by positivity)
    linarith
  have hE := abs_le.mp herr
  have hA2 := abs_le.mp hA
  have hB2 := abs_le.mp hB
  rw [hsplit, abs_le]
  constructor <;> linarith [hE.1, hE.2, hA2.1, hA2.2, hB2.1, hB2.2]

/-- Witness of C2 amended: `n = 2`, `d = [0, 5, 10]`, `x = 0.75` gives `7.5`. -/
theorem approxValue_interpolant_witness :
    (1 : Int) ≤ 2 ∧ (2 : Int) < INT_MAX ∧ (0 : ℚ) ≤ 3 / 4 ∧ (3 / 4 : ℚ) ≤ 1 - 1 / 2 ^ 50
      ∧ (∃ (e : Int) (ref_coord n1 n2 h d1 d2 v : ℚ),
          (Mesh.new 2).locateX (.fin (3 / 4)) = .ok e
            ∧ (Mesh.new 2).mapGlobalToLocalFrame (.fin (3 / 4)) e = .ok (.fin ref_coord)
            ∧ (Mesh.new 2).elementCoordinates e = .ok (.fin n1, .fin n2)
            ∧ (Mesh.new 2).getElementWidth = .fin h
            ∧ vectorAt [Double.fin 0, .fin 5, .fin 10] e = .ok (.fin d1)
            ∧ vectorAt [Double.fin 0, .fin 5, .fin 10] (e + 1) = .ok (.fin d2)
            ∧ (Mesh.new 2).approxValue (.fin (3 / 4)) [.fin 0, .fin 5, .fin 10]
                [{ id := 0, n1 := .fin 0, n2 := .fin (1 / 2), ind1 := 0, ind2 := 1,
                   k := ![![.fin 2, .fin (-2)], ![.fin (-2), .fin 2]] },
                 { id := 1, n1 := .fin (1 / 2), n2 := .fin 1, ind1 := 1, ind2 := 2,
                   k := ![![.fin 2, .fin 0], ![.fin 0, .fin 0]] }]
                = .ok (Double.add
                    (Double.mul (.fin d1)
                      ((Mesh.new 2).shapeFunctionValues (.fin ref_coord)).1)
                    (Double.mul (.fin d2)
                      ((Mesh.new 2).shapeFunctionValues (.fin ref_coord)).2))
            ∧ (Mesh.new 2).approxValue (.fin (3 / 4)) [.fin 0, .fin 5, .fin 10]
                [{ id := 0, n1 := .fin 0, n2 := .fin (1 / 2), ind1 := 0, ind2 := 1,
                   k := ![![.fin 2, .fin (-2)], ![.fin (-2), .fin 2]] },
                 { id := 1, n1 := .fin (1 / 2), n2 := .fin 1, ind1 := 1, ind2 := 2,
                   k := ![![.fin 2, .fin 0], ![.fin 0, .fin 0]] }]
                = .ok (.fin v)
            ∧ |v - (d1 * (n2 - 3 / 4) / h + d2 * (3 / 4 - n1) / h)|
                ≤ (|d1| + |d2|) * (((2 : Int) : ℚ) + 2) / 2 ^ 50 + 1 / 2 ^ 1073)
      ∧ (Mesh.new 2).approxValue (.fin (3 / 4)) [.fin 0, .fin 5, .fin 10]
          [{ id := 0, n1 := .fin 0, n2 := .fin (1 / 2), ind1 := 0, ind2 := 1,
             k := ![![.fin 2, .fin (-2)], ![.fin (-2), .fin 2]] },
           { id := 1, n1 := .fin (1 / 2), n2 := .fin 1, ind1 := 1, ind2 := 2,
             k := ![![.fin 2, .fin 0], ![.fin 0, .fin 0]] }]
          = .ok (.fin (15 / 2)) := by
  have hd : ∀ j : Int, 0 ≤ j → j ≤ 2 →
      ∃ q : ℚ, vectorAt [Double.fin 0, .fin 5, .fin 10] j = .ok (.fin q) ∧ |q| ≤ 2 ^ 1000 := by
    intro j h0 h2
    have hj : j = 0 ∨ j = 1 ∨ j = 2 := by omega
    rcases hj with rfl | rfl | rfl
    · exact ⟨0, rfl, by norm_num⟩
    · exact ⟨5, rfl, by norm_num⟩
    · exact ⟨10, rfl, by norm_num⟩
  refine ⟨by decide, by decide, by norm_num, by norm_num,
    approxValue_interpolant 2 (by decide) (by decide) _ hd _ built_two_elements (3 / 4)
      (by norm_num) (by norm_num), ?_⟩
  decide!
/-- C7, counterexample: on the mesh with 49 elements the last element, 48, has
`n2 = 49 * (1./49) = 0.9999999999999999`, so `n2 == 1.` is false, `val = 1` and `k` is
the full stencil `[[c, -c], [-c, c]]` with `c = 49.00000000000021`, not
`[[49, 0], [0, 0]]`. -/
theorem initializeElement_k_last_element :
    ∃ el : Element, (Mesh.new 49).initializeElement 48 = .ok el
      ∧ (48 : Int) = (Mesh.new 49).totalNumElements - 1
      ∧ el.n2 = .fin (9007199254740991 / 9007199254740992)
      ∧ Double.eq el.n2 (.fin 1) = false
      ∧ el.k 0 0 = .fin (3448068464705551 / 70368744177664)
      ∧ el.k 0 1 = .fin (-3448068464705551 / 70368744177664)
      ∧ el.k 1 0 = .fin (-3448068464705551 / 70368744177664)
      ∧ el.k 1 1 = .fin (3448068464705551 / 70368744177664)
      ∧ el.k 0 1 ≠ .fin 0
      ∧ el.k 0 0 ≠ .fin 49 :=
  ⟨_, rfl, by decide!, by decide!, by decide!, by decide!, by decide!, by decide!, by decide!,
    by decide!, by decide!⟩

/-- C7, amended: for every `1 ≤ n < INT_MAX` and every element id in `[0, n)`, with the
double difference `h = n2 - n1` (finite and positive), the local matrix is
`k = [[1/h, -val/h], [-val/h, val/h]]` in double arithmetic, where `val = 0` if
`n2 == 1.` and `val = 1` otherwise: `[[a, 0], [0, 0]]` in the first case and
`[[a, b], [b, a]]` in the second, with the double quotients `a = 1/h` and `b = -1/h`
within `n^2 / 2^49` of `n` and `-n`; every element other than the last has `n2 < 1`,
hence `val = 1`. -/
theorem initializeElement_k (n : Int) (hn : 1 ≤ n) (hmax : n < INT_MAX)
    (element_id : Int) (h0 : 0 ≤ element_id) (h1 : element_id < n) :
    ∃ (el : Element) (n1 n2 h a b : ℚ),
      (Mesh.new n).initializeElement element_id = .ok el
        ∧ el.n1 = .fin n1 ∧ el.n2 = .fin n2
        ∧ Double.sub el.n2 el.n1 = .fin h ∧ 0 < h
        ∧ Double.div (.fin 1) (.fin h) = .fin a ∧ Double.div (.fin (-1)) (.fin h) = .fin b
        ∧ |a - (n : ℚ)| ≤ (n : ℚ) ^ 2 / 2 ^ 49 ∧ |b + (n : ℚ)| ≤ (n : ℚ) ^ 2 / 2 ^ 49
        ∧ (n2 = 1 →
            el.k 0 0 = .fin a ∧ el.k 0 1 = .fin 0 ∧ el.k 1 0 = .fin 0 ∧ el.k 1 1 = .fin 0)
        ∧ (n2 ≠ 1 →
            el.k 0 0 = .fin a ∧ el.k 0 1 = .fin b ∧ el.k 1 0 = .fin b ∧ el.k 1 1 = .fin a)
        ∧ (element_id < n - 1 → n2 < 1) := by
  have hmax2 : n ≤ INT_MAX := le_of_lt hmax
  obtain ⟨hn1, hn2⟩ := cast_bounds n hn hmax2
  obtain ⟨c1, c2, w, hc, -, -, hlo, hhi, hwpos, herr1, herr2⟩ :=
    element_coords_core n hn hmax element_id h0 h1
  have hwlow := width_lower n hn hmax2 w hlo hwpos
  have he0 : (0 : ℚ) ≤ (element_id : ℚ) := by exact_mod_cast h0
  have hen : (element_id : ℚ) + 1 ≤ (n : ℚ) := by exact_mod_cast (by omega : element_id + 1 ≤ n)
  obtain ⟨h, hh, hherr, hhlow⟩ :=
    coords_diff (n : ℚ) w c1 c2 (element_id : ℚ) hn1 he0 hen hwpos hhi hwlow herr1 herr2
  have hpos : 0 < h := lt_of_lt_of_le (by positivity) hhlow
  have hhne : h ≠ 0 := hpos.ne'
  obtain ⟨a, ha, haerr⟩ := inv_diff (n : ℚ) w h 1 hn1 hn2 (Or.inl rfl) hlo hhi hherr hpos
  obtain ⟨b, hb, hberr⟩ := inv_diff (n : ℚ) w h (-1) hn1 hn2 (Or.inr rfl) hlo hhi hherr hpos
  rw [one_mul] at haerr
  have hberr2 : |b + (n : ℚ)| ≤ (n : ℚ) ^ 2 / 2 ^ 49 := by
    have e : b + (n : ℚ) = b - -1 * (n : ℚ) := by ring
    rw [e]; exact hberr
  have hzero : Double.div (.fin 0) (.fin h) = .fin 0 := by
    unfold Double.div
    simp only [if_neg hhne, zero_div]
    exact round64_zero
  have hnegz : Double.neg (.fin 0) = .fin 0 := by
    unfold Double.neg
    simp
  have hneg1 : Double.neg (.fin 1) = .fin (-1) := rfl
  have hinit : ∃ el : Element, (Mesh.new n).initializeElement element_id = .ok el
      ∧ el.n1 = .fin c1 ∧ el.n2 = .fin c2
      ∧ el.k = ![![Double.div (.fin 1) (Double.sub (.fin c2) (.fin c1)),
            Double.div (Double.neg (if Double.eq (.fin c2) (.fin 1) then .fin 0 else .fin 1))
              (Double.sub (.fin c2) (.fin c1))],
          ![Double.div (Double.neg (if Double.eq (.fin c2) (.fin 1) then .fin 0 else .fin 1))
              (Double.sub (.fin c2) (.fin c1)),
            Double.div (if Double.eq (.fin c2) (.fin 1) then .fin 0 else .fin 1)
              (Double.sub (.fin c2) (.fin c1))]] := by
    unfold Mesh.initializeElement
    rw [hc]
    exact ⟨_, rfl, rfl, rfl, rfl⟩
  obtain ⟨el, hel, hel1, hel2, hk⟩ := hinit
  refine ⟨el, c1, c2, h, a, b, hel, hel1, hel2, by rw [hel1, hel2, hh], hpos, ha, hb, haerr,
    hberr2, ?_, ?_, ?_⟩
  · intro hc2
    have heq : Double.eq (.fin c2) (.fin 1) = true := by
      unfold Double.eq
      simp [hc2]
    rw [hk, heq, hh]
    simp only [if_true, hnegz, hzero, ha]
    exact ⟨rfl, rfl, rfl, rfl⟩
  · intro hc2
    have heq : Double.eq (.fin c2) (.fin 1) = false := by
      unfold Double.eq
      simp [hc2]
    rw [hk, heq, hh]
    simp only [Bool.false_eq_true, if_false, hneg1, ha, hb]
    exact ⟨rfl, rfl, rfl, rfl⟩
  · intro hlast
    have hi1 : (element_id : ℚ) + 1 + 1 ≤ (n : ℚ) := by
      exact_mod_cast (by omega : element_id + 1 + 1 ≤ n)
    obtain ⟨-, hc2, -⟩ := node_scaled (n : ℚ) w c2 ((element_id : ℚ) + 1) hn1 (by linarith)
      hi1 hlo hhi hwpos hwlow herr2
    have : (0 : ℚ) < 1 / 2 ^ 50 := by positivity
    linarith

/-- Witness of C7 amended: `n = 4` gives `k = [[4, 0], [0, 0]]` for the last element,
3, whose right end is exactly `1.0`, and `[[4, -4], [-4, 4]]` for element 2. -/
theorem initializeElement_k_witness :
    (1 : Int) ≤ 4 ∧ (4 : Int) < INT_MAX ∧ (0 : Int) ≤ 3 ∧ (3 : Int) < 4
      ∧ (∃ (el : Element) (n1 n2 h a b : ℚ),
          (Mesh.new 4).initializeElement 3 = .ok el
            ∧ el.n1 = .fin n1 ∧ el.n2 = .fin n2
            ∧ Double.sub el.n2 el.n1 = .fin h ∧ 0 < h
            ∧ Double.div (.fin 1) (.fin h) = .fin a
            ∧ Double.div (.fin (-1)) (.fin h) = .fin b
            ∧ |a - ((4 : Int) : ℚ)| ≤ ((4 : Int) : ℚ) ^ 2 / 2 ^ 49
            ∧ |b + ((4 : Int) : ℚ)| ≤ ((4 : Int) : ℚ) ^ 2 / 2 ^ 49
            ∧ (n2 = 1 →
                el.k 0 0 = .fin a ∧ el.k 0 1 = .fin 0 ∧ el.k 1 0 = .fin 0
                  ∧ el.k 1 1 = .fin 0)
            ∧ (n2 ≠ 1 →
                el.k 0 0 = .fin a ∧ el.k 0 1 = .fin b ∧ el.k 1 0 = .fin b
                  ∧ el.k 1 1 = .fin a)
            ∧ ((3 : Int) < 4 - 1 → n2 < 1))
      ∧ (∃ el : Element, (Mesh.new 4).initializeElement 3 = .ok el
          ∧ el.n2 = .fin 1
          ∧ el.k 0 0 = .fin 4 ∧ el.k 0 1 = .fin 0 ∧ el.k 1 0 = .fin 0 ∧ el.k 1 1 = .fin 0)
      ∧ (∃ el : Element, (Mesh.new 4).initializeElement 2 = .ok el
          ∧ el.n2 = .fin (3 / 4)
          ∧ el.k 0 0 = .fin 4 ∧ el.k 0 1 = .fin (-4) ∧ el.k 1 0 = .fin (-4)
          ∧ el.k 1 1 = .fin 4) :=
  ⟨by decide, by decide, by decide, by decide,
    initializeElement_k 4 (by decide) (by decide) 3 (by decide) (by decide),
    ⟨_, rfl, by decide!, by decide!, by decide!, by decide!, by decide!⟩,
    ⟨_, rfl, by decide!, by decide!, by decide!, by decide!, by decide!⟩⟩
/-- C19, counterexample: on the mesh with 10 elements and the identity nodal field
`d = [0, 1, ..., 10]`, the coordinate of node 3 is `0.30000000000000004` and
`approxValue` returns there `3.0000000000000004`, not `d[3] = 3`, for every vector of
elements built by `initializeElement` (and there is one); on the mesh with 49 elements
the coordinate of node 49 is `0.9999999999999999`, where `x == 1.` is false,
`floor(x / element_width)` is `49` and `approxValue` fails the upper assertion of
`locateX`, whatever `d` and `elements` are; with a nodal value `d[1]` that is NaN the
result at node 1 of the mesh with two elements is NaN, which compares unequal to
every value. -/
theorem approxValue_nodal_not_exact :
    (Mesh.new 10).nodeCoordinate 3 = .ok (.fin (1351079888211149 / 4503599627370496))
      ∧ (∃ elements : List Element,
          List.map (fun i : Nat => (Mesh.new 10).initializeElement (i : Int))
            (List.range (10 : Int).toNat) = elements.map Except.ok)
      ∧ (∀ elements : List Element,
          List.map (fun i : Nat => (Mesh.new 10).initializeElement (i : Int))
            (List.range (10 : Int).toNat) = elements.map Except.ok →
          (Mesh.new 10).approxValue (.fin (1351079888211149 / 4503599627370496))
              [.fin 0, .fin 1, .fin 2, .fin 3, .fin 4, .fin 5, .fin 6, .fin 7, .fin 8,
                .fin 9, .fin 10] elements
            = .ok (.fin (6755399441055745 / 2251799813685248)))
      ∧ (6755399441055745 / 2251799813685248 : ℚ) ≠ 3
      ∧ (Mesh.new 49).nodeCoordinate 49 = .ok (.fin (9007199254740991 / 9007199254740992))
      ∧ (∀ (d : List Double) (elements : List Element),
          (Mesh.new 49).approxValue (.fin (9007199254740991 / 9007199254740992)) d elements
            = .error .locateUpper)
      ∧ (Mesh.new 2).nodeCoordinate 1 = .ok (.fin (1 / 2))
      ∧ (Mesh.new 2).approxValue (.fin (1 / 2)) [.fin 0, .nan, .fin 10]
          [{ id := 0, n1 := .fin 0, n2 := .fin (1 / 2), ind1 := 0, ind2 := 1,
             k := ![![.fin 2, .fin (-2)], ![.fin (-2), .fin 2]] },
           { id := 1, n1 := .fin (1 / 2), n2 := .fin 1, ind1 := 1, ind2 := 2,
             k := ![![.fin 2, .fin 0], ![.fin 0, .fin 0]] }]
          = .ok .nan
      ∧ Double.eq .nan .nan = false := by
  refine ⟨by decide!, built_exists 10 (by decide) (by decide), ?_, by norm_num, by decide!, ?_,
    by decide!, by decide!, by decide!⟩
  · intro elements hel
    obtain ⟨el, hel1, hi1, hi2⟩ :=
      vectorAt_elements 10 (by decide) (by decide) elements hel 3 (by decide) (by decide)
    have hloc : (Mesh.new 10).locateX (.fin (1351079888211149 / 4503599627370496))
        = .ok 3 := by decide!
    have hmap : (Mesh.new 10).mapGlobalToLocalFrame
        (.fin (1351079888211149 / 4503599627370496)) 3
        = .ok (.fin (-1125899906842623 / 1125899906842624)) := by decide!
    rw [approxValue_eval (Mesh.new 10) _ _
      [.fin 0, .fin 1, .fin 2, .fin 3, .fin 4, .fin 5, .fin 6, .fin 7, .fin 8,
        .fin 9, .fin 10] elements 3 el (.fin 3) (.fin 4) hloc hmap hel1 hi1 hi2 rfl rfl]
    decide!
  · intro d elements
    have h1 : (Mesh.new 49).locateX (.fin (9007199254740991 / 9007199254740992))
        = .error .locateUpper := by decide!
    unfold Mesh.approxValue
    rw [h1]
    rfl

/-- C19, amended: for every `1 ≤ n < INT_MAX`, every `d` with at least `n + 1` finite
entries of magnitude at most `D ≤ 2 ^ 1000`, elements built by `initializeElement` for
ids `0..n-1` and every node `i` in `[0, n)`: at the coordinate of node `i` no assertion
fires and `approxValue` returns a finite value within `D (n + 2) / 2^49 + 2^-1073` of
`d[i]`; the shape functions take the values `(1, 0)` at `ref_coord = -1` and `(0, 1)`
at `ref_coord = 1`. -/
theorem approxValue_nodal (n : Int) (hn : 1 ≤ n) (hmax : n < INT_MAX) (D : ℚ)
    (hD : D ≤ 2 ^ 1000) (d : List Double)
    (hd : ∀ j : Int, 0 ≤ j → j ≤ n → ∃ q : ℚ, vectorAt d j = .ok (.fin q) ∧ |q| ≤ D)
    (elements : List Element)
    (hel : List.map (fun i : Nat => (Mesh.new n).initializeElement (i : Int))
        (List.range n.toNat) = elements.map Except.ok)
    (i : Int) (hi0 : 0 ≤ i) (hi1 : i < n) :
    (∃ c di v : ℚ, (Mesh.new n).nodeCoordinate i = .ok (.fin c)
        ∧ vectorAt d i = .ok (.fin di)
        ∧ (Mesh.new n).approxValue (.fin c) d elements = .ok (.fin v)
        ∧ |v - di| ≤ D * ((n : ℚ) + 2) / 2 ^ 49 + 1 / 2 ^ 1073)
      ∧ (Mesh.new n).shapeFunctionValues (.fin (-1)) = (.fin 1, .fin 0)
      ∧ (Mesh.new n).shapeFunctionValues (.fin 1) = (.fin 0, .fin 1) := by
  refine ⟨?_, (shape_at_ends (Mesh.new n)).1, (shape_at_ends (Mesh.new n)).2⟩
  have hmax2 : n ≤ INT_MAX := le_of_lt hmax
  obtain ⟨hn1, hn2⟩ := cast_bounds n hn hmax2
  obtain ⟨w, hw, -, hlo, hhi, hwpos⟩ := width_spec n hn hmax2
  have hwlow := width_lower n hn hmax2 w hlo hwpos
  obtain ⟨c, hc, hcerr⟩ := node_product n hn hmax2 w hlo hhi i hi0 (le_of_lt hi1)
  have hnode : (Mesh.new n).nodeCoordinate i = .ok (.fin c) := by
    rw [nodeCoordinate_new n i (by unfold INT_MIN; omega) hmax (le_of_lt hi1), hw, hc]
  have hi0q : (0 : ℚ) ≤ (i : ℚ) := by exact_mod_cast hi0
  have hi1q : (i : ℚ) + 1 ≤ (n : ℚ) := by exact_mod_cast (by omega : i + 1 ≤ n)
  obtain ⟨hc0, hc1, hnc⟩ :=
    node_scaled (n : ℚ) w c (i : ℚ) hn1 hi0q hi1q hlo hhi hwpos hwlow hcerr
  have hd2 : ∀ j : Int, 0 ≤ j → j ≤ n →
      ∃ q : ℚ, vectorAt d j = .ok (.fin q) ∧ |q| ≤ 2 ^ 1000 := by
    intro j h0 h1
    obtain ⟨q, hq, hqb⟩ := hd j h0 h1
    exact ⟨q, hq, le_trans hqb hD⟩
  obtain ⟨e, q1, r, d1, d2, v, hloc, he0, hen, hq1a, hq1b, hq1n, hmap, hd1, hd2v, -, hv, herr⟩ :=
    approxValue_error n hn hmax d hd2 elements hel c hc0 hc1
  obtain ⟨di, hdi, hdib⟩ := hd i hi0 (le_of_lt hi1)
  have hd1b : |d1| ≤ D := by
    obtain ⟨q, hq, hqb⟩ := hd e he0 (le_of_lt hen)
    rw [hd1] at hq
    rw [Double.fin.inj (Except.ok.inj hq)]
    exact hqb
  have hd2b : |d2| ≤ D := by
    obtain ⟨q, hq, hqb⟩ := hd (e + 1) (by omega) (by omega)
    rw [hd2v] at hq
    rw [Double.fin.inj (Except.ok.inj hq)]
    exact hqb
  -- the located element is i or i - 1
  have hcase : e = i ∨ e = i - 1 := by
    have hN := abs_le.mp hnc
    have hQ := abs_le.mp hq1n
    have hsmall : 8 * (n : ℚ) / 2 ^ 53 < 1 := by
      have h1 : 8 * (n : ℚ) / 2 ^ 53 ≤ 8 * 2 ^ 31 / 2 ^ 53 :=
        div_le_div_of_nonneg_right (by linarith only [hn2]) (by positivity)
      have h2 : (8 : ℚ) * 2 ^ 31 / 2 ^ 53 < 1 := by norm_num
      linarith only [h1, h2]
    have e8 : 8 * (n : ℚ) / 2 ^ 53 = 5 * (n : ℚ) / 2 ^ 53 + 3 * (n : ℚ) / 2 ^ 53 := by ring
    have h1 : (e : ℚ) < (i : ℚ) + 1 := by
      linarith only [hN.2, hQ.2, hq1a, hsmall, e8]
    have h2 : (i : ℚ) - 1 < (e : ℚ) + 1 := by
      linarith only [hN.1, hQ.1, hq1b, hsmall, e8]
    have h1z : e < i + 1 := by exact_mod_cast h1
    have h2z : i - 1 < e + 1 := by exact_mod_cast h2
    omega
  have htol := nodal_tolerance d1 d2 D (n : ℚ) hd1b hd2b (by linarith only [hn1])
  have hform : d1 * ((e : ℚ) + 1 - (n : ℚ) * c) + d2 * ((n : ℚ) * c - (e : ℚ))
      = d1 * (1 - ((n : ℚ) * c - (e : ℚ))) + d2 * ((n : ℚ) * c - (e : ℚ)) := by ring
  rw [hform] at herr
  refine ⟨c, di, v, hnode, hdi, hv, ?_⟩
  rcases hcase with he | he
  · -- the node is the left end of the located element
    have hdd : d1 = di := by
      rw [he, hdi] at hd1
      exact (Double.fin.inj (Except.ok.inj hd1)).symm
    have ht : |(n : ℚ) * c - (e : ℚ)| ≤ 3 * (n : ℚ) / 2 ^ 53 := by
      rw [he]; exact hnc
    have hfinal := interp_near_left v d1 d2 _ _ _ _ herr ht
    rw [← hdd]
    linarith only [hfinal, htol]
  · -- the node is the right end of the located element
    have hei : e + 1 = i := by omega
    have hdd : d2 = di := by
      rw [hei, hdi] at hd2v
      exact (Double.fin.inj (Except.ok.inj hd2v)).symm
    have ht : |1 - ((n : ℚ) * c - (e : ℚ))| ≤ 3 * (n : ℚ) / 2 ^ 53 := by
      have e1 : 1 - ((n : ℚ) * c - (e : ℚ)) = -((n : ℚ) * c - (i : ℚ)) := by
        rw [he]; push_cast; ring
      rw [e1, abs_neg]
      exact hnc
    have hfinal := interp_near_right v d1 d2 _ _ _ _ herr ht
    rw [← hdd]
    linarith only [hfinal, htol]

/-- Witness of C19 amended: `n = 2`, `d = [0, 5, 10]`, node 1 at `0.5` gives `5`. -/
theorem approxValue_nodal_witness :
    (1 : Int) ≤ 2 ∧ (2 : Int) < INT_MAX ∧ (10 : ℚ) ≤ 2 ^ 1000 ∧ (0 : Int) ≤ 1 ∧ (1 : Int) < 2
      ∧ ((∃ c di v : ℚ, (Mesh.new 2).nodeCoordinate 1 = .ok (.fin c)
          ∧ vectorAt [Double.fin 0, .fin 5, .fin 10] 1 = .ok (.fin di)
          ∧ (Mesh.new 2).approxValue (.fin c) [.fin 0, .fin 5, .fin 10]
              [{ id := 0, n1 := .fin 0, n2 := .fin (1 / 2), ind1 := 0, ind2 := 1,
                 k := ![![.fin 2, .fin (-2)], ![.fin (-2), .fin 2]] },
               { id := 1, n1 := .fin (1 / 2), n2 := .fin 1, ind1 := 1, ind2 := 2,
                 k := ![![.fin 2, .fin 0], ![.fin 0, .fin 0]] }] = .ok (.fin v)
          ∧ |v - di| ≤ 10 * (((2 : Int) : ℚ) + 2) / 2 ^ 49 + 1 / 2 ^ 1073)
        ∧ (Mesh.new 2).shapeFunctionValues (.fin (-1)) = (.fin 1, .fin 0)
        ∧ (Mesh.new 2).shapeFunctionValues (.fin 1) = (.fin 0, .fin 1))
      ∧ (Mesh.new 2).nodeCoordinate 1 = .ok (.fin (1 / 2))
      ∧ (Mesh.new 2).approxValue (.fin (1 / 2)) [.fin 0, .fin 5, .fin 10]
          [{ id := 0, n1 := .fin 0, n2 := .fin (1 / 2), ind1 := 0, ind2 := 1,
             k := ![![.fin 2, .fin (-2)], ![.fin (-2), .fin 2]] },
           { id := 1, n1 := .fin (1 / 2), n2 := .fin 1, ind1 := 1, ind2 := 2,
             k := ![![.fin 2, .fin 0], ![.fin 0, .fin 0]] }]
          = .ok (.fin 5) := by
  have hd : ∀ j : Int, 0 ≤ j → j ≤ 2 →
      ∃ q : ℚ, vectorAt [Double.fin 0, .fin 5, .fin 10] j = .ok (.fin q) ∧ |q| ≤ 10 := by
    intro j h0 h2
    have hj : j = 0 ∨ j = 1 ∨ j = 2 := by omega
    rcases hj with rfl | rfl | rfl
    · exact ⟨0, rfl, by norm_num⟩
    · exact ⟨5, rfl, by norm_num⟩
    · exact ⟨10, rfl, by norm_num⟩
  refine ⟨by decide, by decide, by norm_num, by decide, by decide,
    approxValue_nodal 2 (by decide) (by decide) 10 (by norm_num) _ hd _ built_two_elements 1
      (by decide) (by decide), by decide!, ?_⟩
  decide!
end FEA
